import Mathlib

/-!
Verification of the heap subsystem of the DSA_Book repository.

This file gives a shallow embedding, in Lean 4, of the C++ heap code of the
repository (src/heap/heap_implementation.cc, src/heap/top_songs_class_with_updates.cc,
src/heap/popular_song_class.cc and the k-way merge most_listened_across_genres),
and proves or refutes the specification claims about it.

Modelling conventions:
- C++ `vector<int>` becomes `List Int`; element reads `arr_[i]` become
  `List.getD arr i 0` (every read in the embedded code is guarded by the same
  bounds checks as the source, so the default is never observed on the paths
  the source exercises, except where the source itself indexes out of bounds,
  which we model with `Option`).
- Recursive/looping code whose termination argument is an index moving through
  the array is embedded with an explicit fuel parameter that is provably
  sufficient (fuel bounds are chosen from the same measures that make the C++
  loops terminate), keeping every definition structurally recursive and hence
  computable by the kernel.
- `std::priority_queue` (used by the derived classes, not by the core Heap)
  is modelled as a list kept sorted in descending priority order: `push` is
  ordered insertion, `top`/`pop` read the head.  This is observationally
  equivalent to the C++ container: ties inside the container are between
  entries that compare equal, hence indistinguishable.
- `std::unordered_map<string,int>` is an association list with unique keys;
  `umap[key]` reads are modelled as lookup-with-default-0.  (The C++ read in
  `top_k` default-inserts 0 for an absent key; that write is unobservable
  because later reads of that key would return the same 0, so the pure lookup
  is observationally equivalent.)
- C++ `std::string` comparison (used only as a tie-break inside
  `pair<int,string>` ordering) is lexicographic comparison of the character
  lists; C++ integer division (`/` on `int`) is `Int.tdiv` (truncation toward
  zero).
-/

/-! ## Core Heap (heap_implementation.cc) -/

/-- Heap::parent — parent index of a node: (index-1)/2.  (For index = 0 the
C++ int computation gives (-1)/2 = 0 under truncating division, and Nat
subtraction gives the same value 0.) -/
def parent (index : Nat) : Nat := (index - 1) / 2

/-- The effect of C++ swap(arr_[i], arr_[j]) on the element list. -/
def listSwap (arr : List Int) (i j : Nat) : List Int :=
  (arr.set i (arr.getD j 0)).set j (arr.getD i 0)

/-- The value of the local variable smallest of Heap::minheapify after the
left-child comparison. -/
def minTarget1 (arr : List Int) (index : Nat) : Nat :=
  if 2*index+1 < arr.length ∧ arr.getD (2*index+1) 0 < arr.getD index 0 then 2*index+1 else index

/-- The index named smallest at the end of the comparison phase of
Heap::minheapify: the argmin of the node and its in-range children (left
child inspected first, as in the source). -/
def minTarget (arr : List Int) (index : Nat) : Nat :=
  if 2*index+2 < arr.length ∧ arr.getD (2*index+2) 0 < arr.getD (minTarget1 arr index) 0
  then 2*index+2 else minTarget1 arr index

/-- The value of the local variable largest of Heap::maxheapify after the
left-child comparison. -/
def maxTarget1 (arr : List Int) (index : Nat) : Nat :=
  if 2*index+1 < arr.length ∧ arr.getD index 0 < arr.getD (2*index+1) 0 then 2*index+1 else index

/-- The index named largest at the end of the comparison phase of
Heap::maxheapify. -/
def maxTarget (arr : List Int) (index : Nat) : Nat :=
  if 2*index+2 < arr.length ∧ arr.getD (maxTarget1 arr index) 0 < arr.getD (2*index+2) 0
  then 2*index+2 else maxTarget1 arr index

/-- Heap::minheapify (sift down), with explicit fuel.  The C++ recursion
terminates because the recursion index strictly increases and is bounded by
the array length, so arr.length - index fuel is always sufficient. -/
def minheapifyF (arr : List Int) (index : Nat) : Nat → List Int
  | 0 => arr
  | fuel+1 =>
    if minTarget arr index = index then arr
    else minheapifyF (listSwap arr (minTarget arr index) index) (minTarget arr index) fuel

/-- Heap::minheapify - restore min-heap order below index by sifting down. -/
def minheapify (arr : List Int) (index : Nat) : List Int :=
  minheapifyF arr index (arr.length - index)

/-- Heap::maxheapify (sift down), with explicit fuel. -/
def maxheapifyF (arr : List Int) (index : Nat) : Nat → List Int
  | 0 => arr
  | fuel+1 =>
    if maxTarget arr index = index then arr
    else maxheapifyF (listSwap arr (maxTarget arr index) index) (maxTarget arr index) fuel

/-- Heap::maxheapify - restore max-heap order below index by sifting down. -/
def maxheapify (arr : List Int) (index : Nat) : List Int :=
  maxheapifyF arr index (arr.length - index)

/-- The bubble-up while loop of Heap::push in min mode ("<"), with fuel.
The loop terminates because the index strictly decreases (parent index <
index for index different from 0), so index fuel is always sufficient. -/
def siftUpLtF (arr : List Int) (index : Nat) : Nat → List Int
  | 0 => arr
  | fuel+1 =>
    if index ≠ 0 ∧ arr.getD index 0 < arr.getD (parent index) 0 then
      siftUpLtF (listSwap arr (parent index) index) (parent index) fuel
    else arr

/-- The bubble-up while loop of Heap::push in min mode. -/
def siftUpLt (arr : List Int) (index : Nat) : List Int := siftUpLtF arr index index

/-- The bubble-up while loop of Heap::push in max mode (">"), with fuel. -/
def siftUpGtF (arr : List Int) (index : Nat) : Nat → List Int
  | 0 => arr
  | fuel+1 =>
    if index ≠ 0 ∧ arr.getD (parent index) 0 < arr.getD index 0 then
      siftUpGtF (listSwap arr (parent index) index) (parent index) fuel
    else arr

/-- The bubble-up while loop of Heap::push in max mode. -/
def siftUpGt (arr : List Int) (index : Nat) : List Int := siftUpGtF arr index index

/-- The constructor loop for(int i = n/2-1; i >= 0; --i) f(i): buildLoop f
arr k performs f at indices k-1, k-2, ..., 0.  The constructor calls it with
k = n/2 (so the first processed index is n/2 - 1, matching the C++ int loop,
which does not run at all when n/2 - 1 is negative). -/
def buildLoop (f : List Int → Nat → List Int) (arr : List Int) : Nat → List Int
  | 0 => arr
  | k+1 => buildLoop f (f arr k) k

/-- The Heap class: a vector of ints plus the comparator string
("<" selects a min-heap, ">" a max-heap). -/
structure Heap where
  arr_ : List Int
  priority_ : String
deriving DecidableEq, Repr

/-- The Heap constructor: copy the initial elements, then repair heap order
bottom-up from the last non-leaf node (n/2 - 1) to the root.  For any other
comparator string the constructor body does nothing, as in the source. -/
def Heap.construct (priority : String) (arr : List Int) : Heap :=
  if priority = "<" then ⟨buildLoop minheapify arr (arr.length / 2), priority⟩
  else if priority = ">" then ⟨buildLoop maxheapify arr (arr.length / 2), priority⟩
  else ⟨arr, priority⟩

/-- Heap::size - number of stored elements. -/
def Heap.size (h : Heap) : Nat := h.arr_.length

/-- Heap::top - the root element, or -1 if the heap is empty. -/
def Heap.top (h : Heap) : Int :=
  if h.arr_.length = 0 then -1 else h.arr_.getD 0 0

/-- Heap::push - append the element, then bubble it up according to the
comparator string. -/
def Heap.push (h : Heap) (elem : Int) : Heap :=
  if h.priority_ = "<" then
    { h with arr_ := siftUpLt (h.arr_ ++ [elem]) ((h.arr_ ++ [elem]).length - 1) }
  else if h.priority_ = ">" then
    { h with arr_ := siftUpGt (h.arr_ ++ [elem]) ((h.arr_ ++ [elem]).length - 1) }
  else { h with arr_ := h.arr_ ++ [elem] }

/-- Heap::pop - return (-1, unchanged heap) when empty; otherwise save the
root, move the last element to the root, shrink, sift the root down (min
sift for "<", max sift otherwise, mirroring the conditional expression in
the source), and return the saved root together with the new heap state. -/
def Heap.pop (h : Heap) : Int × Heap :=
  if h.arr_.length = 0 then (-1, h)
  else
    (h.arr_.getD 0 0,
      { h with arr_ :=
          if h.priority_ = "<" then
            minheapify ((h.arr_.set 0 (h.arr_.getD (h.arr_.length - 1) 0)).dropLast) 0
          else
            maxheapify ((h.arr_.set 0 (h.arr_.getD (h.arr_.length - 1) 0)).dropLast) 0 })

/-- An operation on the core heap: a push of a given element, or a pop. -/
inductive HOp where
  | push (x : Int)
  | pop
deriving DecidableEq, Repr

/-- State reached after performing one operation. -/
def Heap.applyOp (h : Heap) : HOp → Heap
  | .push x => h.push x
  | .pop => (h.pop).2

/-- State reached after performing a sequence of operations. -/
def Heap.run (h : Heap) (ops : List HOp) : Heap := ops.foldl Heap.applyOp h

/-- Number of push operations in a sequence. -/
def countPushes : List HOp → Nat
  | [] => 0
  | HOp.push _ :: rest => countPushes rest + 1
  | HOp.pop :: rest => countPushes rest

/-- Number of pop operations in a sequence. -/
def countPops : List HOp → Nat
  | [] => 0
  | HOp.push _ :: rest => countPops rest
  | HOp.pop :: rest => countPops rest + 1

/-- The priority of an element value under the heap's comparator: in min
mode ("<") a smaller value has higher priority, otherwise the value itself
is its priority. -/
def Heap.prio (h : Heap) (x : Int) : Int := if h.priority_ = "<" then -x else x

/-- Draining loop: call pop until the heap is empty, collecting the returned
values, with fuel (each successful pop shrinks the heap by one, so size fuel
is always sufficient). -/
def Heap.drainF (h : Heap) : Nat → List Int
  | 0 => []
  | fuel+1 =>
    if h.arr_.length = 0 then []
    else (h.pop).1 :: Heap.drainF (h.pop).2 fuel

/-- Call pop repeatedly until the heap is empty, collecting the returned
values in order. -/
def Heap.drain (h : Heap) : List Int := h.drainF h.arr_.length

/-- Membership of index j in the subtree rooted at index i of the implicit
binary tree (i itself included). -/
def inSubtree (i j : Nat) : Bool :=
  if _h : j ≤ i then j = i
  else inSubtree i ((j - 1) / 2)
termination_by j
decreasing_by exact lt_of_le_of_lt (Nat.div_le_self _ _) (by omega)

/-- Min-heap order holds at node j: node j is less than or equal to each of
its in-range children. -/
def heapLeAt (arr : List Int) (j : Nat) : Prop :=
  ∀ c : Nat, (c = 2*j+1 ∨ c = 2*j+2) → c < arr.length → arr.getD j 0 ≤ arr.getD c 0

/-- Min-heap order holds at every node with index at least k. -/
def minHeapFrom (arr : List Int) (k : Nat) : Prop :=
  ∀ j : Nat, k ≤ j → heapLeAt arr j

/-- The min-heap property (child form). -/
def IsMinHeap (arr : List Int) : Prop := minHeapFrom arr 0

/-- Max-heap order holds at node j. -/
def heapGeAt (arr : List Int) (j : Nat) : Prop :=
  ∀ c : Nat, (c = 2*j+1 ∨ c = 2*j+2) → c < arr.length → arr.getD c 0 ≤ arr.getD j 0

/-- Max-heap order holds at every node with index at least k. -/
def maxHeapFrom (arr : List Int) (k : Nat) : Prop :=
  ∀ j : Nat, k ≤ j → heapGeAt arr j

/-- The max-heap property (child form). -/
def IsMaxHeap (arr : List Int) : Prop := maxHeapFrom arr 0

/-- The structural invariant of a Heap: its element list is in min-heap
order in min mode and in max-heap order in max mode. -/
def Heap.WF (h : Heap) : Prop :=
  (h.priority_ = "<" → IsMinHeap h.arr_) ∧ (h.priority_ = ">" → IsMaxHeap h.arr_)

/-- Parent-dominance form of the heap-order invariant, stated with
priorities: every non-root node's priority is at most its parent's. -/
def Heap.heapOrdered (h : Heap) : Prop :=
  ∀ i : Nat, 1 ≤ i → i < h.arr_.length →
    Heap.prio h (h.arr_.getD i 0) ≤ Heap.prio h (h.arr_.getD (parent i) 0)

/-- Negate every element; transfers between max-heap and min-heap facts. -/
def negL (arr : List Int) : List Int := arr.map (fun x => -x)

/-- Parent-dominance form of the min-heap property. -/
def ParentMin (arr : List Int) : Prop :=
  ∀ j, 1 ≤ j → j < arr.length → arr.getD (parent j) 0 ≤ arr.getD j 0

/-- Parent-dominance form of the max-heap property. -/
def ParentMax (arr : List Int) : Prop :=
  ∀ j, 1 ≤ j → j < arr.length → arr.getD j 0 ≤ arr.getD (parent j) 0

/-- Every prefix of the operation sequence has at least as many pushes as
pops, i.e. no pop ever meets an empty heap (when starting from empty). -/
def popSafe (ops : List HOp) : Prop :=
  ∀ i : Nat, i ≤ ops.length → countPops (ops.take i) ≤ countPushes (ops.take i)

instance (ops : List HOp) : Decidable (popSafe ops) :=
  @decidable_of_iff _ _
    (by
      unfold popSafe
      constructor
      · intro hh i hile
        exact hh i (List.mem_range.mpr (by omega))
      · intro hh i hmem
        exact hh i (by have := List.mem_range.mp hmem; omega))
    (List.decidableBAll (fun i => countPops (ops.take i) ≤ countPushes (ops.take i))
      (List.range (ops.length + 1)))

/-! ## TopSongs with cumulative updates (top_songs_class_with_updates.cc) -/

/-- C++ std::string operator< — lexicographic comparison of character
sequences (compared by code point, as for ASCII byte comparison). -/
def strLtB : List Char → List Char → Bool
  | [], [] => false
  | [], _ :: _ => true
  | _ :: _, [] => false
  | a :: as, b :: bs => if a < b then true else if b < a then false else strLtB as bs

/-- C++ operator< on pair<int,string>: lexicographic, plays first then
title. -/
def entryLtB (a b : Int × String) : Bool :=
  if a.1 < b.1 then true else if b.1 < a.1 then false else strLtB a.2.data b.2.data

/-- Descending (max-heap) order on heap entries: a is not lexicographically
below b.  A std::priority_queue pops its greatest entry first; the model
keeps the backing list sorted under this relation, head first. -/
def entryDesc (a b : Int × String) : Prop := entryLtB a b = false

instance : DecidableRel entryDesc :=
  fun a b => inferInstanceAs (Decidable (entryLtB a b = false))

/-- Model of priority_queue<pair<int,string>>::push: ordered insertion
keeping the list sorted in descending entry order. -/
def pqPush (pq : List (Int × String)) (e : Int × String) : List (Int × String) :=
  List.orderedInsert entryDesc e pq

/-- Lookup in the model of unordered_map<string,int> (association list). -/
def mapFind (m : List (String × Int)) (t : String) : Option Int :=
  match m with
  | [] => none
  | (s, v) :: rest => if s = t then some v else mapFind rest t

/-- The value umap reads return: the stored count, or 0 when absent (the
default-constructed int that operator[] would produce). -/
def mapGetD (m : List (String × Int)) (t : String) : Int := (mapFind m t).getD 0

/-- Model of umap[key] = value: overwrite if present, append if absent. -/
def mapSet (m : List (String × Int)) (t : String) (v : Int) : List (String × Int) :=
  match m with
  | [] => [(t, v)]
  | (s, w) :: rest => if s = t then (s, v) :: rest else (s, w) :: mapSet rest t v

/-- The TopSongs class state: the requested k, the lazy max-heap of
(plays, title) entries, and the authoritative play-count map. -/
structure TopSongs where
  k_ : Nat
  pq : List (Int × String)
  umap : List (String × Int)
deriving DecidableEq, Repr

/-- A fresh TopSongs tracker (constructor TopSongs(k)). -/
def TopSongs.init (k : Nat) : TopSongs := ⟨k, [], []⟩

/-- TopSongs::register_plays - add count to the stored total for title
(starting from 0 when absent), record the new total in the map, and push
the (newTotal, title) entry onto the heap, leaving any older entries of the
same title in place as stale shadows. -/
def TopSongs.register_plays (s : TopSongs) (title : String) (count : Int) : TopSongs :=
  let newTotalPlays := count + (match mapFind s.umap title with | some v => v | none => 0)
  { s with umap := mapSet s.umap title newTotalPlays,
           pq := pqPush s.pq (newTotalPlays, title) }

/-- The collection loop of TopSongs::top_k: while fewer than k titles are
collected and the heap is non-empty, pop the top entry; keep its title when
the entry is fresh (heap count equals the map count, read via the
defaulting umap lookup of the source), silently discard it otherwise.
Returns the collected titles (in collection order) and the remaining heap. -/
def topkLoop (umap : List (String × Int)) (k : Nat) :
    List (Int × String) → List String → List String × List (Int × String)
  | [], res => (res, [])
  | e :: rest, res =>
    if res.length < k then
      if mapGetD umap e.2 = e.1 then topkLoop umap k rest (res ++ [e.2])
      else topkLoop umap k rest res
    else (res, e :: rest)

/-- TopSongs::top_k - collect up to k fresh titles, then re-push one
(map-count, title) entry per returned title so later calls still see them. -/
def TopSongs.top_k (s : TopSongs) : List String × TopSongs :=
  let r := topkLoop s.umap s.k_ s.pq []
  (r.1, { s with pq := r.1.foldl (fun pq t => pqPush pq (mapGetD s.umap t, t)) r.2 })

/-- An operation on the TopSongs tracker. -/
inductive TOp where
  | reg (title : String) (count : Int)
  | query
deriving DecidableEq, Repr

/-- State reached after one TopSongs operation. -/
def TopSongs.applyOp (s : TopSongs) : TOp → TopSongs
  | .reg t c => s.register_plays t c
  | .query => (s.top_k).2

/-- State reached after a sequence of TopSongs operations starting from a
fresh tracker with parameter k. -/
def TopSongs.run (k : Nat) (ops : List TOp) : TopSongs :=
  ops.foldl TopSongs.applyOp (TopSongs.init k)

/-- All register operations in the sequence carry a positive play count
(the documented contract: each registration has at least 1 play). -/
def regAmountsPos (ops : List TOp) : Prop :=
  ∀ t c, TOp.reg t c ∈ ops → 1 ≤ c

/-- The entries of the heap that are fresh, i.e. whose stored count equals
the authoritative map count of their title. -/
def freshEntries (umap : List (String × Int)) (pq : List (Int × String)) :
    List (Int × String) :=
  pq.filter (fun e => mapGetD umap e.2 == e.1)

/-- The freshness invariant: every key recorded in the map has its fresh
entry (current total, key) somewhere in the heap. -/
def FreshInv (s : TopSongs) : Prop :=
  ∀ (t : String) (v : Int), mapFind s.umap t = some v → (v, t) ∈ s.pq

/-- Every heap entry names a registered key, and its stored score never
exceeds that key's current authoritative total. -/
def EntryDom (s : TopSongs) : Prop :=
  ∀ e : Int × String, e ∈ s.pq → ∃ v : Int, mapFind s.umap e.2 = some v ∧ e.1 ≤ v

/-- The fresh entries of the heap carry pairwise distinct titles. -/
def FreshTitles (s : TopSongs) : Prop :=
  (freshEntries s.umap s.pq).Pairwise (fun a b => a.2 ≠ b.2)

/-- The keys of the authoritative map are pairwise distinct. -/
def KeysNodup (s : TopSongs) : Prop := (s.umap.map Prod.fst).Nodup

/-! ## PopularSongs median tracker (popular_song_class.cc) -/

/-- Model of priority_queue<int>::push (max-heap): descending sorted list. -/
def insertDesc (x : Int) (l : List Int) : List Int :=
  List.orderedInsert (fun a b : Int => b ≤ a) x l

/-- Model of priority_queue<int, vector<int>, greater<int>>::push
(min-heap): ascending sorted list. -/
def insertAsc (x : Int) (l : List Int) : List Int :=
  List.orderedInsert (fun a b : Int => a ≤ b) x l

instance : IsTotal Int (fun a b : Int => b ≤ a) := ⟨fun a b => le_total b a⟩

instance : IsTrans Int (fun a b : Int => b ≤ a) := ⟨fun _ _ _ h1 h2 => le_trans h2 h1⟩

instance : IsAntisymm Int (fun a b : Int => b ≤ a) := ⟨fun _ _ h1 h2 => le_antisymm h2 h1⟩

instance : IsTotal Int (fun a b : Int => a ≤ b) := ⟨fun a b => le_total a b⟩

instance : IsTrans Int (fun a b : Int => a ≤ b) := ⟨fun _ _ _ h1 h2 => le_trans h1 h2⟩

instance : IsAntisymm Int (fun a b : Int => a ≤ b) := ⟨fun _ _ h1 h2 => le_antisymm h1 h2⟩

/-- The PopularSongs class state: play-count map, max-heap of the lower
half (head is its greatest element) and min-heap of the upper half (head is
its least element). -/
structure PopularSongs where
  umap : List (String × Int)
  max_pq : List Int
  min_pq : List Int
deriving DecidableEq, Repr

/-- A fresh PopularSongs tracker. -/
def PopularSongs.empty : PopularSongs := ⟨[], [], []⟩

/-- PopularSongs::register_plays - record the play count, push it on the
lower (max) heap, move that heap's top to the upper (min) heap, and move
the upper heap's top back when the lower heap became smaller. -/
def PopularSongs.register_plays (p : PopularSongs) (title : String) (plays : Int) :
    PopularSongs :=
  let umap1 := mapSet p.umap title plays
  let maxA := insertDesc plays p.max_pq
  let minA := insertAsc (maxA.headD 0) p.min_pq
  let maxB := maxA.tail
  if maxB.length < minA.length then
    ⟨umap1, insertDesc (minA.headD 0) maxB, minA.tail⟩
  else
    ⟨umap1, maxB, minA⟩

/-- The median expression of PopularSongs::is_popular: the lower heap's top
when the heap sizes differ, otherwise the truncated (C++ int division)
average of the two tops. -/
def PopularSongs.median (p : PopularSongs) : Int :=
  if p.min_pq.length < p.max_pq.length then p.max_pq.headD 0
  else (p.max_pq.headD 0 + p.min_pq.headD 0).tdiv 2

/-- PopularSongs::is_popular - false for unknown titles, otherwise whether
the recorded play count strictly exceeds the median. -/
def PopularSongs.is_popular (p : PopularSongs) (title : String) : Bool :=
  match mapFind p.umap title with
  | none => false
  | some playCount => decide (p.median < playCount)

/-- State after registering a sequence of (title, plays) pairs. -/
def PopularSongs.runRegs (ps : List (String × Int)) : PopularSongs :=
  ps.foldl (fun s q => s.register_plays q.1 q.2) PopularSongs.empty

/-- Ascending insertion sort of the play counts (the sorted order of the
inserted values, used to state median correctness). -/
def sortAscInt (l : List Int) : List Int :=
  List.insertionSort (fun a b : Int => a ≤ b) l

/-- Descending insertion sort of play counts (the reference order for the
k-way merge). -/
def sortDescInt (l : List Int) : List Int :=
  List.insertionSort (fun a b : Int => b ≤ a) l

/-! ## K-way merge (most_listened_across_genres) -/

/-- C++ operator< on pair<pair<int,string>,int>: compare the (plays, title)
pair first, then the genre index. -/
def entry3LtB (a b : (Int × String) × Nat) : Bool :=
  if entryLtB a.1 b.1 then true
  else if entryLtB b.1 a.1 then false
  else a.2 < b.2

/-- Descending (max-heap) order on merge heap entries. -/
def entry3Desc (a b : (Int × String) × Nat) : Prop := entry3LtB a b = false

instance : DecidableRel entry3Desc :=
  fun a b => inferInstanceAs (Decidable (entry3LtB a b = false))

/-- Model of the merge priority_queue push. -/
def pq3Push (pq : List ((Int × String) × Nat)) (e : (Int × String) × Nat) :
    List ((Int × String) × Nat) :=
  List.orderedInsert entry3Desc e pq

/-- The initialization loop of most_listened_across_genres: for each i
below genres.size(), push ((genres[i][0].plays, genres[i][0].title), i).
The source reads genres[i][0] unconditionally; when genres[i] is empty that
read is out of bounds (undefined behavior), modelled as none. -/
def mergeInit (genres : List (List (String × Int))) :
    Option (List ((Int × String) × Nat)) :=
  (List.range genres.length).foldlM
    (fun pq i =>
      match (genres.getD i []).head? with
      | none => none
      | some hd => some (pq3Push pq ((hd.2, hd.1), i)))
    []

/-- The main loop of most_listened_across_genres, with fuel: pop the top
entry, emit its title, stop once k titles are emitted; otherwise advance
that genre's index and push its next song when one remains.  Every
iteration emits one title and each title is emitted at most once, so any
fuel above the total number of songs is sufficient. -/
def mergeLoop (genres : List (List (String × Int))) (k : Nat) :
    Nat → List ((Int × String) × Nat) → List Nat → List String → List String
  | 0, _, _, res => res
  | fuel+1, pq, iv, res =>
    match pq with
    | [] => res
    | p :: rest =>
      if (res ++ [p.1.2]).length = k then res ++ [p.1.2]
      else
        if iv.getD p.2 0 + 1 = (genres.getD p.2 []).length then
          mergeLoop genres k fuel rest (iv.set p.2 (iv.getD p.2 0 + 1)) (res ++ [p.1.2])
        else
          mergeLoop genres k fuel
            (pq3Push rest
              ((((genres.getD p.2 []).getD (iv.getD p.2 0 + 1) ("", 0)).2,
                ((genres.getD p.2 []).getD (iv.getD p.2 0 + 1) ("", 0)).1), p.2))
            (iv.set p.2 (iv.getD p.2 0 + 1)) (res ++ [p.1.2])

/-- Total number of songs across all genres. -/
def totalSongs (genres : List (List (String × Int))) : Nat :=
  (genres.map List.length).sum

/-- most_listened_across_genres - k-way merge of the per-genre descending
lists via a max-heap seeded with each genre's head song.  Returns none when
the initialization would read out of bounds (an empty genre list). -/
def most_listened_across_genres (genres : List (List (String × Int))) (k : Nat) :
    Option (List String) :=
  match mergeInit genres with
  | none => none
  | some pq =>
    some (mergeLoop genres k (totalSongs genres + 1) pq
      (List.replicate genres.length 0) [])

/-- All play counts across all genres, in genre order (the concatenation the
reference computation sorts). -/
def allPlays (genres : List (List (String × Int))) : List Int :=
  genres.flatMap (fun g => g.map Prod.snd)

/-- A genre list is sorted from most to least played. -/
def genreSorted (g : List (String × Int)) : Prop :=
  (g.map Prod.snd).Sorted (fun a b : Int => b ≤ a)

instance (g : List (String × Int)) : Decidable (genreSorted g) :=
  @List.instDecidablePairwise Int (fun a b : Int => b ≤ a)
    (fun a b => inferInstanceAs (Decidable (b ≤ a))) (g.map Prod.snd)

/-- The indices of genres that still have unemitted songs at cursor
state iv. -/
def activeIdx (genres : List (List (String × Int))) (iv : List Nat) : List Nat :=
  (List.range genres.length).filter
    (fun i => iv.getD i 0 < (genres.getD i []).length)

/-- The heap entry the merge keeps for genre i at cursor state iv: the
(plays, title) of the genre's current song, tagged with the genre index. -/
def entryAt (genres : List (List (String × Int))) (iv : List Nat) (i : Nat) :
    (Int × String) × Nat :=
  ((((genres.getD i []).getD (iv.getD i 0) ("", 0)).2,
    ((genres.getD i []).getD (iv.getD i 0) ("", 0)).1), i)

/-- All play counts not yet emitted at cursor state iv, in genre order. -/
def remPlays (genres : List (List (String × Int))) (iv : List Nat) : List Int :=
  (List.range genres.length).flatMap
    (fun i => ((genres.getD i []).drop (iv.getD i 0)).map Prod.snd)

/-! ## Basic lemmas about array reads, swaps and tree indices -/

theorem getD_set_same (arr : List Int) (i : Nat) (v : Int) (h : i < arr.length) :
    (arr.set i v).getD i 0 = v := by
  simp [List.getD_eq_getElem?_getD, List.getElem?_set_self, h]

theorem getD_set_other (arr : List Int) (i j : Nat) (v : Int) (h : i ≠ j) :
    (arr.set i v).getD j 0 = arr.getD j 0 := by
  simp [List.getD_eq_getElem?_getD, List.getElem?_set_ne h]

theorem listSwap_length (arr : List Int) (i j : Nat) :
    (listSwap arr i j).length = arr.length := by
  simp [listSwap]

theorem getD_listSwap_fst (arr : List Int) (i j : Nat) (hi : i < arr.length) :
    (listSwap arr i j).getD i 0 = arr.getD j 0 := by
  unfold listSwap
  by_cases h : j = i
  · subst h
    rw [getD_set_same _ _ _ (by simpa using hi)]
  · rw [getD_set_other _ _ _ _ h, getD_set_same _ _ _ hi]

theorem getD_listSwap_snd (arr : List Int) (i j : Nat) (hj : j < arr.length) :
    (listSwap arr i j).getD j 0 = arr.getD i 0 := by
  unfold listSwap
  rw [getD_set_same _ _ _ (by simpa using hj)]

theorem getD_listSwap_other (arr : List Int) (i j k : Nat) (hki : k ≠ i) (hkj : k ≠ j) :
    (listSwap arr i j).getD k 0 = arr.getD k 0 := by
  unfold listSwap
  rw [getD_set_other _ _ _ _ (fun h => hkj h.symm), getD_set_other _ _ _ _ (fun h => hki h.symm)]

theorem listSwap_perm (arr : List Int) (i j : Nat) (hi : i < arr.length) (hj : j < arr.length) :
    (listSwap arr i j).Perm arr := by
  rw [List.perm_iff_count]
  intro b
  have hgdi : arr.getD i 0 = arr[i] := by
    simp [List.getD_eq_getElem?_getD, List.getElem?_eq_getElem hi]
  have hgdj : arr.getD j 0 = arr[j] := by
    simp [List.getD_eq_getElem?_getD, List.getElem?_eq_getElem hj]
  have hj' : j < (arr.set i (arr.getD j 0)).length := by simpa using hj
  have hsetj : (arr.set i (arr.getD j 0))[j] = arr[j] := by
    by_cases hij : i = j
    · subst hij
      simp only [List.getElem_set_self]
      exact hgdj
    · rw [List.getElem_set_ne hij]
  have hc1 : arr[i] = b → 1 ≤ arr.count b := fun hb => by
    have hmem : b ∈ arr := hb ▸ List.getElem_mem hi
    simpa using List.count_pos_iff.mpr hmem
  have hc2 : arr[j] = b → 1 ≤ arr.count b := fun hb => by
    have hmem : b ∈ arr := hb ▸ List.getElem_mem hj
    simpa using List.count_pos_iff.mpr hmem
  unfold listSwap
  rw [List.count_set _ _ _ _ hj', List.count_set _ _ _ _ hi, hsetj, hgdi, hgdj]
  simp only [beq_iff_eq]
  split_ifs with h1 h2 h2 <;> omega

theorem minTarget_cases (arr : List Int) (i : Nat) :
    minTarget arr i = i ∨
      ((minTarget arr i = 2*i+1 ∨ minTarget arr i = 2*i+2) ∧
        minTarget arr i < arr.length ∧ i < minTarget arr i) := by
  unfold minTarget minTarget1
  split_ifs with h1 h2 h2 <;> simp_all <;> omega

theorem minTarget_min (arr : List Int) (i c : Nat)
    (hc : c = i ∨ ((c = 2*i+1 ∨ c = 2*i+2) ∧ c < arr.length)) :
    arr.getD (minTarget arr i) 0 ≤ arr.getD c 0 := by
  unfold minTarget minTarget1
  rcases hc with rfl | ⟨hc, hlt⟩
  · split_ifs with h1 h2 h2
    · exact le_of_lt (lt_trans h2.2 h1.2)
    · exact le_of_lt h1.2
    · exact le_of_lt h2.2
    · exact le_refl _
  · rcases hc with rfl | rfl
    · split_ifs with h1 h2 h2
      · exact le_of_lt h2.2
      · exact le_refl _
      · push_neg at h1
        exact le_of_lt (lt_of_lt_of_le h2.2 (h1 hlt))
      · push_neg at h1
        exact h1 hlt
    · split_ifs with h1 h2 h2
      · exact le_refl _
      · push_neg at h2
        exact h2 hlt
      · exact le_refl _
      · push_neg at h2
        exact h2 hlt

theorem maxTarget_cases (arr : List Int) (i : Nat) :
    maxTarget arr i = i ∨
      ((maxTarget arr i = 2*i+1 ∨ maxTarget arr i = 2*i+2) ∧
        maxTarget arr i < arr.length ∧ i < maxTarget arr i) := by
  unfold maxTarget maxTarget1
  split_ifs with h1 h2 h2 <;> simp_all <;> omega

/-! ## Subtree index lemmas -/

theorem inSubtree_self (i : Nat) : inSubtree i i = true := by
  rw [inSubtree]
  simp

theorem inSubtree_ge {i j : Nat} (h : inSubtree i j = true) : i ≤ j := by
  by_contra hlt
  rw [inSubtree] at h
  simp only [dif_pos (by omega : j ≤ i)] at h
  simp at h
  omega

theorem inSubtree_unfold_gt {i j : Nat} (h : i < j) :
    inSubtree i j = inSubtree i ((j - 1) / 2) := by
  rw [inSubtree]
  rw [dif_neg (by omega : ¬ j ≤ i)]

theorem inSubtree_lt_false {i j : Nat} (h : j < i) : inSubtree i j = false := by
  cases hb : inSubtree i j
  · rfl
  · exact absurd (inSubtree_ge hb) (by omega)

theorem inSubtree_shape {s j : Nat} (h : inSubtree s j = true) : j = s ∨ 2*s+1 ≤ j := by
  by_cases hj : j ≤ s
  · left
    exact le_antisymm hj (inSubtree_ge h)
  · right
    rw [inSubtree_unfold_gt (by omega)] at h
    have hp := inSubtree_ge h
    omega

theorem inSubtree_child {i j c : Nat} (hj : inSubtree i j = true)
    (hc : c = 2*j+1 ∨ c = 2*j+2) : inSubtree i c = true := by
  have hij : i ≤ j := inSubtree_ge hj
  have hcg : i < c := by omega
  rw [inSubtree_unfold_gt hcg]
  have hpar : (c - 1) / 2 = j := by omega
  rw [hpar]
  exact hj

theorem inSubtree_trans {i s j : Nat} (hs : inSubtree i s = true) :
    ∀ j' ≤ j, inSubtree s j' = true → inSubtree i j' = true := by
  induction j with
  | zero =>
    intro j' hj' h
    interval_cases j'
    have := inSubtree_ge h
    interval_cases s
    exact hs
  | succ m ih =>
    intro j' hj' h
    by_cases hcase : j' ≤ s
    · have : j' = s := le_antisymm hcase (inSubtree_ge h)
      subst this
      exact hs
    · rw [inSubtree_unfold_gt (by omega)] at h
      have hp : (j' - 1) / 2 ≤ m := by omega
      have hin := ih _ hp h
      have : i < j' := lt_of_le_of_lt (inSubtree_ge hs) (by omega)
      rw [inSubtree_unfold_gt this]
      exact hin

theorem inSubtree_sibling_false {i s o : Nat} (hs : s = 2*i+1 ∨ s = 2*i+2)
    (ho : o = 2*i+1 ∨ o = 2*i+2) (hne : o ≠ s) : inSubtree s o = false := by
  rcases hs with rfl | rfl <;> rcases ho with rfl | rfl
  · omega
  · rw [inSubtree_unfold_gt (by omega)]
    have : (2*i+2-1)/2 = i := by omega
    rw [this]
    exact inSubtree_lt_false (by omega)
  · exact inSubtree_lt_false (by omega)
  · omega

/-! ## Sift-down (minheapify) lemmas -/

theorem minheapifyF_length (fuel : Nat) :
    ∀ (arr : List Int) (i : Nat), (minheapifyF arr i fuel).length = arr.length := by
  induction fuel with
  | zero => intro arr i; rfl
  | succ f ih =>
    intro arr i
    unfold minheapifyF
    split_ifs with hs
    · rfl
    · rw [ih, listSwap_length]

theorem minheapifyF_perm (fuel : Nat) :
    ∀ (arr : List Int) (i : Nat), (minheapifyF arr i fuel).Perm arr := by
  induction fuel with
  | zero => intro arr i; exact List.Perm.refl _
  | succ f ih =>
    intro arr i
    unfold minheapifyF
    split_ifs with hs
    · exact List.Perm.refl _
    · rcases minTarget_cases arr i with hc | ⟨_, hlt, hgt⟩
      · exact absurd hc hs
      · exact List.Perm.trans (ih _ _) (listSwap_perm arr _ i hlt (by omega))

theorem minheapifyF_outside (fuel : Nat) :
    ∀ (arr : List Int) (i j : Nat), inSubtree i j = false →
      (minheapifyF arr i fuel).getD j 0 = arr.getD j 0 := by
  induction fuel with
  | zero => intro arr i j _; rfl
  | succ f ih =>
    intro arr i j hout
    unfold minheapifyF
    split_ifs with hs
    · rfl
    · rcases minTarget_cases arr i with hc | ⟨hchild, hlt, hgt⟩
      · exact absurd hc hs
      · have hsub : inSubtree i (minTarget arr i) = true :=
          inSubtree_child (inSubtree_self i) hchild
        have houtS : inSubtree (minTarget arr i) j = false := by
          cases hb : inSubtree (minTarget arr i) j
          · rfl
          · exact absurd (inSubtree_trans hsub j (le_refl j) hb) (by simp [hout])
        rw [ih _ _ _ houtS]
        have hji : j ≠ i := by
          intro hji
          subst hji
          simp [inSubtree_self] at hout
        have hjs : j ≠ minTarget arr i := by
          intro hjs
          subst hjs
          simp [inSubtree_self] at houtS
        exact getD_listSwap_other arr _ i j hjs hji

theorem minheapifyF_bound (fuel : Nat) :
    ∀ (arr : List Int) (i : Nat) (b : Int),
      (∀ j, inSubtree i j = true → j < arr.length → b ≤ arr.getD j 0) →
      ∀ j, inSubtree i j = true → j < arr.length →
        b ≤ (minheapifyF arr i fuel).getD j 0 := by
  induction fuel with
  | zero => intro arr i b hb j hj hjn; exact hb j hj hjn
  | succ f ih =>
    intro arr i b hb j hj hjn
    unfold minheapifyF
    split_ifs with hs
    · exact hb j hj hjn
    · rcases minTarget_cases arr i with hc | ⟨hchild, hlt, hgt⟩
      · exact absurd hc hs
      · have hsub : inSubtree i (minTarget arr i) = true :=
          inSubtree_child (inSubtree_self i) hchild
        have hb' : ∀ x, inSubtree (minTarget arr i) x = true →
            x < (listSwap arr (minTarget arr i) i).length →
            b ≤ (listSwap arr (minTarget arr i) i).getD x 0 := by
          intro x hx hxn
          rw [listSwap_length] at hxn
          by_cases hxs : x = minTarget arr i
          · subst hxs
            rw [getD_listSwap_fst arr _ i hlt]
            exact hb i (inSubtree_self i) (by omega)
          · have hxgt : minTarget arr i ≤ x := inSubtree_ge hx
            rw [getD_listSwap_other arr _ i x hxs (by omega)]
            exact hb x (inSubtree_trans hsub x (le_refl x) hx) hxn
        by_cases hjs : inSubtree (minTarget arr i) j = true
        · exact ih _ _ b hb' j hjs (by rw [listSwap_length]; exact hjn)
        · rw [minheapifyF_outside f _ _ j (by simpa using hjs)]
          by_cases hji : j = i
          · subst hji
            rw [getD_listSwap_snd arr _ j (by omega)]
            exact hb _ hsub hlt
          · have hjs' : j ≠ minTarget arr i := by
              intro hh
              subst hh
              simp [inSubtree_self] at hjs
            rw [getD_listSwap_other arr _ i j hjs' hji]
            exact hb j hj hjn

theorem minHeapFrom_descendant (J : Nat) :
    ∀ (arr : List Int) (k s : Nat), minHeapFrom arr k → k ≤ s →
      ∀ j, j ≤ J → inSubtree s j = true → j < arr.length →
        arr.getD s 0 ≤ arr.getD j 0 := by
  induction J with
  | zero =>
    intro arr k s _ _ j hj hsub _
    interval_cases j
    have := inSubtree_ge hsub
    interval_cases s
    exact le_refl _
  | succ m ih =>
    intro arr k s H hks j hj hsub hjn
    by_cases hcase : j ≤ s
    · have : j = s := le_antisymm hcase (inSubtree_ge hsub)
      subst this
      exact le_refl _
    · rw [inSubtree_unfold_gt (by omega)] at hsub
      have hp1 : (j - 1) / 2 ≤ m := by omega
      have hp2 : (j - 1) / 2 < arr.length := by omega
      have hsp : s ≤ (j - 1) / 2 := inSubtree_ge hsub
      have h1 : arr.getD s 0 ≤ arr.getD ((j - 1) / 2) 0 := ih arr k s H hks _ hp1 hsub hp2
      have h2 : arr.getD ((j - 1) / 2) 0 ≤ arr.getD j 0 :=
        H ((j - 1) / 2) (by omega) j (by omega) hjn
      linarith

theorem minheapifyF_main (fuel : Nat) :
    ∀ (arr : List Int) (i : Nat), arr.length - i ≤ fuel →
      minHeapFrom arr (i+1) → minHeapFrom (minheapifyF arr i fuel) i := by
  induction fuel with
  | zero =>
    intro arr i hf H j hj c hc hcn
    unfold minheapifyF at hcn ⊢
    omega
  | succ f ih =>
    intro arr i hf H
    unfold minheapifyF
    split_ifs with hs
    · intro j hj
      rcases eq_or_lt_of_le hj with rfl | hjgt
      · intro c hc hcn
        have hmt := minTarget_min arr i c (Or.inr ⟨hc, hcn⟩)
        rwa [hs] at hmt
      · exact H j (by omega)
    · rcases minTarget_cases arr i with hc | ⟨hchild, hlt, hgt⟩
      · exact absurd hc hs
      · have hsub : inSubtree i (minTarget arr i) = true :=
          inSubtree_child (inSubtree_self i) hchild
        have hlen' : (listSwap arr (minTarget arr i) i).length = arr.length :=
          listSwap_length arr _ i
        have hH' : minHeapFrom (listSwap arr (minTarget arr i) i) (minTarget arr i + 1) := by
          intro j hj c hcc hcn
          rw [hlen'] at hcn
          rw [getD_listSwap_other arr _ i j (by omega) (by omega),
              getD_listSwap_other arr _ i c (by omega) (by omega)]
          exact H j (by omega) c hcc hcn
        have hrec := ih _ _ (by rw [hlen']; omega) hH'
        have hout := minheapifyF_outside f (listSwap arr (minTarget arr i) i) (minTarget arr i)
        have hrlen : (minheapifyF (listSwap arr (minTarget arr i) i) (minTarget arr i) f).length
            = arr.length := by rw [minheapifyF_length, hlen']
        intro j hj
        rcases lt_trichotomy j (minTarget arr i) with hjs | rfl | hjs
        · rcases eq_or_lt_of_le hj with rfl | hjgt
          · -- j = i: the node that received the old minimum
            intro c hcc hcn
            rw [hrlen] at hcn
            have hri : (minheapifyF (listSwap arr (minTarget arr i) i) (minTarget arr i) f).getD i 0
                = arr.getD (minTarget arr i) 0 := by
              rw [hout i (inSubtree_lt_false hjs), getD_listSwap_snd arr _ i (by omega)]
            by_cases hcs : c = minTarget arr i
            · -- the child that was swapped: bound via the subtree lower bound
              subst hcs
              rw [hri]
              have hbnd : ∀ x, inSubtree (minTarget arr i) x = true →
                  x < (listSwap arr (minTarget arr i) i).length →
                  arr.getD (minTarget arr i) 0 ≤ (listSwap arr (minTarget arr i) i).getD x 0 := by
                intro x hx hxn
                rw [hlen'] at hxn
                by_cases hxs : x = minTarget arr i
                · subst hxs
                  rw [getD_listSwap_fst arr _ i hlt]
                  exact minTarget_min arr i i (Or.inl rfl)
                · have hxgt : minTarget arr i ≤ x := inSubtree_ge hx
                  rw [getD_listSwap_other arr _ i x hxs (by omega)]
                  exact minHeapFrom_descendant x arr (i+1) (minTarget arr i) H (by omega) x
                    (le_refl x) hx hxn
              exact minheapifyF_bound f _ _ _ hbnd _ (inSubtree_self _) (by rw [hlen']; omega)
            · -- the sibling child (not in the swapped subtree)
              have hcsub : inSubtree (minTarget arr i) c = false :=
                inSubtree_sibling_false hchild hcc hcs
              rw [hout c hcsub, getD_listSwap_other arr _ i c hcs (by omega), hri]
              exact minTarget_min arr i c (Or.inr ⟨hcc, hcn⟩)
          · -- i < j < smallest: untouched node with untouched children
            intro c hcc hcn
            rw [hrlen] at hcn
            have hcsub : inSubtree (minTarget arr i) c = false := by
              cases hb : inSubtree (minTarget arr i) c
              · rfl
              · rcases inSubtree_shape hb with hcs | hcs
                · exfalso
                  rcases hchild with hh | hh <;> omega
                · omega
            have hjsub : inSubtree (minTarget arr i) j = false := inSubtree_lt_false hjs
            rw [hout j hjsub, hout c hcsub,
                getD_listSwap_other arr _ i j (by omega) (by omega),
                getD_listSwap_other arr _ i c (by omega) (by omega)]
            exact H j (by omega) c hcc hcn
        · exact hrec _ (le_refl _)
        · exact hrec _ (by omega)

/-! ## Floyd construction, push and pop preserve min-heap order -/

theorem getD_append_left (l l2 : List Int) (j : Nat) (h : j < l.length) :
    (l ++ l2).getD j 0 = l.getD j 0 := by
  rw [List.getD_eq_getElem?_getD, List.getD_eq_getElem?_getD, List.getElem?_append_left h]

theorem getD_dropLast (l : List Int) (j : Nat) (h : j < l.length - 1) :
    l.dropLast.getD j 0 = l.getD j 0 := by
  have h1 : j < l.dropLast.length := by simp; omega
  have h2 : j < l.length := by omega
  rw [List.getD_eq_getElem l.dropLast 0 h1, List.getD_eq_getElem l 0 h2]
  exact List.getElem_dropLast l j h1

theorem minHeapFrom_leaves (arr : List Int) : minHeapFrom arr (arr.length / 2) := by
  intro j hj c hc hcn
  exfalso
  omega

theorem buildLoop_minheapify (k : Nat) :
    ∀ arr : List Int, minHeapFrom arr k → IsMinHeap (buildLoop minheapify arr k) := by
  induction k with
  | zero => intro arr H; exact H
  | succ m ih =>
    intro arr H
    show IsMinHeap (buildLoop minheapify (minheapify arr m) m)
    exact ih _ (minheapifyF_main _ arr m (le_refl _) H)

theorem construct_lt_minheap (arr : List Int) : IsMinHeap (Heap.construct "<" arr).arr_ := by
  show IsMinHeap (Heap.construct "<" arr).arr_
  unfold Heap.construct
  rw [if_pos rfl]
  exact buildLoop_minheapify _ arr (minHeapFrom_leaves arr)

theorem parent_child_split (j : Nat) (h : 1 ≤ j) :
    j = 2 * parent j + 1 ∨ j = 2 * parent j + 2 := by
  unfold parent
  omega

theorem parent_lt (j : Nat) (h : 1 ≤ j) : parent j < j := by
  unfold parent
  omega

theorem ParentMin_iff_IsMinHeap (arr : List Int) : ParentMin arr ↔ IsMinHeap arr := by
  constructor
  · intro hp j _ c hc hcn
    have hc1 : 1 ≤ c := by omega
    have hpar : parent c = j := by unfold parent; omega
    have := hp c hc1 hcn
    rwa [hpar] at this
  · intro hm j hj hjn
    have := hm (parent j) (Nat.zero_le _) j (parent_child_split j hj) hjn
    exact this

theorem siftUpLtF_main (fuel : Nat) :
    ∀ (arr : List Int) (i : Nat), i ≤ fuel → i < arr.length →
      (∀ j, 1 ≤ j → j < arr.length → j ≠ i → arr.getD (parent j) 0 ≤ arr.getD j 0) →
      (∀ c, c < arr.length → (c = 2*i+1 ∨ c = 2*i+2) → i ≠ 0 →
        arr.getD (parent i) 0 ≤ arr.getD c 0) →
      ParentMin (siftUpLtF arr i fuel) := by
  induction fuel with
  | zero =>
    intro arr i hfuel _ h1 _
    have hi0 : i = 0 := by omega
    subst hi0
    intro j hj hjn
    exact h1 j hj hjn (by omega)
  | succ f ih =>
    intro arr i hfuel hin h1 h2
    unfold siftUpLtF
    split_ifs with hcond
    · -- swap with the parent and continue from the parent index
      obtain ⟨hi0, hlt⟩ := hcond
      have hi1 : 1 ≤ i := by omega
      have hpi : parent i < i := parent_lt i hi1
      have hpn : parent i < arr.length := by omega
      have hlen : (listSwap arr (parent i) i).length = arr.length := listSwap_length _ _ _
      have hvp : (listSwap arr (parent i) i).getD (parent i) 0 = arr.getD i 0 :=
        getD_listSwap_fst arr _ i hpn
      have hvi : (listSwap arr (parent i) i).getD i 0 = arr.getD (parent i) 0 :=
        getD_listSwap_snd arr _ i hin
      have hvother : ∀ x, x ≠ parent i → x ≠ i →
          (listSwap arr (parent i) i).getD x 0 = arr.getD x 0 :=
        fun x hx1 hx2 => getD_listSwap_other arr _ i x hx1 hx2
      apply ih _ (parent i) (by omega) (by omega)
      · -- the parent-dominance clause away from the new index
        intro j hj hjn hjp
        rw [hlen] at hjn
        by_cases hji : j = i
        · subst hji
          have hpp : parent j = parent j := rfl
          rw [hvi, hvp]
          exact le_of_lt hlt
        · by_cases hparj : parent j = i
          · -- j is a child of i
            have hchild : j = 2*i+1 ∨ j = 2*i+2 := by
              have := parent_child_split j hj
              omega
            rw [hvother j hjp hji, hparj, hvi]
            exact h2 j hjn hchild hi0
          · by_cases hparp : parent j = parent i
            · rw [hvother j hjp hji, hparp, hvp]
              calc arr.getD i 0 ≤ arr.getD (parent j) 0 := by rw [hparp]; exact le_of_lt hlt
                _ ≤ arr.getD j 0 := h1 j hj hjn hji
            · rw [hvother j hjp hji, hvother (parent j) hparp hparj]
              exact h1 j hj hjn hji
      · -- the grandparent-to-children clause at the new index
        intro c hcn hcc hp0
        rw [hlen] at hcn
        have hgp : parent (parent i) < parent i := parent_lt _ (by omega)
        have hgpv : (listSwap arr (parent i) i).getD (parent (parent i)) 0
            = arr.getD (parent (parent i)) 0 := hvother _ (by omega) (by omega)
        rw [hgpv]
        by_cases hci : c = i
        · rw [hci, hvi]
          exact h1 (parent i) (by omega) hpn (by omega)
        · have hcp : c ≠ parent i := by omega
          rw [hvother c hcp hci]
          have hcpar : parent c = parent i := by unfold parent at hcc ⊢; omega
          calc arr.getD (parent (parent i)) 0 ≤ arr.getD (parent i) 0 :=
                h1 (parent i) (by omega) hpn (by omega)
            _ ≤ arr.getD c 0 := by
                rw [← hcpar]
                exact h1 c (by omega) hcn hci
    · -- loop exit: either at the root or the parent already dominates
      intro j hj hjn
      by_cases hji : j = i
      · subst hji
        rcases not_and_or.mp hcond with hi0 | hge
        · simp at hi0
          exact absurd hj (by omega)
        · linarith [not_lt.mp hge]
      · exact h1 j hj hjn hji

theorem push_lt_minheap (arr : List Int) (x : Int) (H : IsMinHeap arr) :
    IsMinHeap (siftUpLt (arr ++ [x]) ((arr ++ [x]).length - 1)) := by
  have hp : ParentMin arr := (ParentMin_iff_IsMinHeap arr).mpr H
  rw [← ParentMin_iff_IsMinHeap]
  have hlen : (arr ++ [x]).length = arr.length + 1 := by simp
  apply siftUpLtF_main _ _ _ (le_refl _) (by omega)
  · intro j hj hjn hjne
    rw [hlen] at hjn
    have hjlt : j < arr.length := by omega
    rw [getD_append_left _ _ _ hjlt, getD_append_left _ _ _ (by
      have := parent_lt j hj
      omega)]
    exact hp j hj hjlt
  · intro c hcn hcc _
    rw [hlen] at hcn
    omega

theorem pop_lt_minheap (arr : List Int) (H : IsMinHeap arr) :
    IsMinHeap (minheapify ((arr.set 0 (arr.getD (arr.length - 1) 0)).dropLast) 0) := by
  apply minheapifyF_main _ _ 0 (le_refl _)
  intro j hj c hc hcn
  have hlen : ((arr.set 0 (arr.getD (arr.length - 1) 0)).dropLast).length = arr.length - 1 := by
    simp
  rw [hlen] at hcn
  have hjlt : j < arr.length - 1 := by omega
  have hset : ∀ x, 1 ≤ x → x < arr.length - 1 →
      ((arr.set 0 (arr.getD (arr.length - 1) 0)).dropLast).getD x 0 = arr.getD x 0 := by
    intro x hx1 hx2
    rw [getD_dropLast _ _ (by simp; omega), getD_set_other _ _ _ _ (by omega)]
  rw [hset j hj hjlt, hset c (by omega) hcn]
  exact H j (Nat.zero_le _) c hc (by omega)

/-! ## Duality between the min and max variants -/

theorem negL_length (arr : List Int) : (negL arr).length = arr.length := by
  simp [negL]

theorem getD_negL (arr : List Int) (j : Nat) : (negL arr).getD j 0 = - arr.getD j 0 := by
  rw [List.getD_eq_getElem?_getD, List.getD_eq_getElem?_getD]
  unfold negL
  rw [List.getElem?_map]
  cases arr[j]? <;> simp

theorem negL_set (arr : List Int) (i : Nat) (v : Int) :
    negL (arr.set i v) = (negL arr).set i (-v) := by
  unfold negL
  rw [List.map_set]

theorem negL_negL (l : List Int) : negL (negL l) = l := by
  unfold negL
  rw [List.map_map]
  have hcomp : ((fun x : Int => -x) ∘ (fun x : Int => -x)) = id := by
    funext x
    simp
  rw [hcomp, List.map_id]

theorem negL_listSwap (arr : List Int) (i j : Nat) :
    listSwap (negL arr) i j = negL (listSwap arr i j) := by
  unfold listSwap
  rw [getD_negL, getD_negL, negL_set, negL_set]

theorem minTarget1_negL (arr : List Int) (i : Nat) :
    minTarget1 (negL arr) i = maxTarget1 arr i := by
  unfold minTarget1 maxTarget1
  simp only [negL_length, getD_negL, neg_lt_neg_iff]

theorem minTarget_negL (arr : List Int) (i : Nat) :
    minTarget (negL arr) i = maxTarget arr i := by
  unfold minTarget maxTarget
  rw [minTarget1_negL]
  simp only [negL_length, getD_negL, neg_lt_neg_iff]

theorem minheapifyF_negL (fuel : Nat) :
    ∀ (arr : List Int) (i : Nat),
      minheapifyF (negL arr) i fuel = negL (maxheapifyF arr i fuel) := by
  induction fuel with
  | zero => intro arr i; rfl
  | succ f ih =>
    intro arr i
    unfold minheapifyF maxheapifyF
    rw [minTarget_negL]
    split_ifs with hs
    · rfl
    · rw [negL_listSwap, ih]

theorem minheapify_negL (arr : List Int) (i : Nat) :
    minheapify (negL arr) i = negL (maxheapify arr i) := by
  unfold minheapify maxheapify
  rw [negL_length, minheapifyF_negL]

theorem maxheapifyF_length (fuel : Nat) (arr : List Int) (i : Nat) :
    (maxheapifyF arr i fuel).length = arr.length := by
  have h := congrArg List.length (minheapifyF_negL fuel arr i)
  rw [minheapifyF_length, negL_length, negL_length] at h
  exact h.symm

theorem maxheapifyF_perm (fuel : Nat) (arr : List Int) (i : Nat) :
    (maxheapifyF arr i fuel).Perm arr := by
  have h := minheapifyF_perm fuel (negL arr) i
  rw [minheapifyF_negL] at h
  have h2 : ((negL (maxheapifyF arr i fuel)).map (fun x => -x)).Perm
      ((negL arr).map (fun x => -x)) := h.map _
  unfold negL at h2
  simp only [List.map_map] at h2
  have hid : ∀ l : List Int, l.map ((fun x : Int => -x) ∘ (fun x : Int => -x)) = l := by
    intro l
    have : ((fun x : Int => -x) ∘ (fun x : Int => -x)) = id := by
      funext x
      simp
    rw [this, List.map_id]
  rwa [hid, hid] at h2

theorem siftUpLtF_negL (fuel : Nat) :
    ∀ (arr : List Int) (i : Nat),
      siftUpLtF (negL arr) i fuel = negL (siftUpGtF arr i fuel) := by
  induction fuel with
  | zero => intro arr i; rfl
  | succ f ih =>
    intro arr i
    unfold siftUpLtF siftUpGtF
    simp only [getD_negL, neg_lt_neg_iff]
    split_ifs with hs
    · rw [negL_listSwap, ih]
    · rfl

theorem siftUpLtF_length (fuel : Nat) :
    ∀ (arr : List Int) (i : Nat), (siftUpLtF arr i fuel).length = arr.length := by
  induction fuel with
  | zero => intro arr i; rfl
  | succ f ih =>
    intro arr i
    unfold siftUpLtF
    split_ifs with hs
    · rw [ih, listSwap_length]
    · rfl

theorem siftUpGtF_length (fuel : Nat) (arr : List Int) (i : Nat) :
    (siftUpGtF arr i fuel).length = arr.length := by
  have h := congrArg List.length (siftUpLtF_negL fuel arr i)
  rw [siftUpLtF_length, negL_length, negL_length] at h
  exact h.symm

theorem siftUpLtF_perm (fuel : Nat) :
    ∀ (arr : List Int) (i : Nat), i < arr.length → (siftUpLtF arr i fuel).Perm arr := by
  induction fuel with
  | zero => intro arr i _; exact List.Perm.refl _
  | succ f ih =>
    intro arr i hin
    unfold siftUpLtF
    split_ifs with hs
    · have hp : parent i < i := parent_lt i (by omega)
      refine List.Perm.trans (ih _ _ ?_) (listSwap_perm arr _ i (by omega) hin)
      rw [listSwap_length]
      omega
    · exact List.Perm.refl _

theorem IsMaxHeap_iff_negL (arr : List Int) : IsMaxHeap arr ↔ IsMinHeap (negL arr) := by
  constructor
  · intro H j _ c hc hcn
    rw [negL_length] at hcn
    rw [getD_negL, getD_negL, neg_le_neg_iff]
    exact H j (Nat.zero_le _) c hc hcn
  · intro H j _ c hc hcn
    have := H j (Nat.zero_le _) c hc (by rwa [negL_length])
    rw [getD_negL, getD_negL, neg_le_neg_iff] at this
    exact this

theorem buildLoop_negL (k : Nat) :
    ∀ arr : List Int, buildLoop minheapify (negL arr) k = negL (buildLoop maxheapify arr k) := by
  induction k with
  | zero => intro arr; rfl
  | succ m ih =>
    intro arr
    show buildLoop minheapify (minheapify (negL arr) m) m
      = negL (buildLoop maxheapify (maxheapify arr m) m)
    rw [minheapify_negL, ih]

theorem construct_gt_maxheap (arr : List Int) : IsMaxHeap (Heap.construct ">" arr).arr_ := by
  have harr : (Heap.construct ">" arr).arr_ = buildLoop maxheapify arr (arr.length / 2) := by
    unfold Heap.construct
    rw [if_neg (by decide), if_pos rfl]
  rw [harr, IsMaxHeap_iff_negL, ← buildLoop_negL]
  apply buildLoop_minheapify
  rw [← negL_length arr]
  exact minHeapFrom_leaves (negL arr)

theorem push_gt_maxheap (arr : List Int) (x : Int) (H : IsMaxHeap arr) :
    IsMaxHeap (siftUpGt (arr ++ [x]) ((arr ++ [x]).length - 1)) := by
  rw [IsMaxHeap_iff_negL]
  unfold siftUpGt
  rw [← siftUpLtF_negL]
  have hneg : negL (arr ++ [x]) = negL arr ++ [-x] := by
    unfold negL
    simp
  rw [hneg]
  have hlen : (arr ++ [x]).length - 1 = (negL arr ++ [-x]).length - 1 := by
    simp [negL_length]
  rw [hlen]
  exact push_lt_minheap (negL arr) (-x) ((IsMaxHeap_iff_negL arr).mp H)

theorem pop_gt_maxheap (arr : List Int) (H : IsMaxHeap arr) :
    IsMaxHeap (maxheapify ((arr.set 0 (arr.getD (arr.length - 1) 0)).dropLast) 0) := by
  rw [IsMaxHeap_iff_negL, ← minheapify_negL]
  have hneg : negL ((arr.set 0 (arr.getD (arr.length - 1) 0)).dropLast)
      = ((negL arr).set 0 ((negL arr).getD ((negL arr).length - 1) 0)).dropLast := by
    rw [negL_length, getD_negL, ← negL_set]
    unfold negL
    rw [List.map_dropLast]
  rw [hneg]
  exact pop_lt_minheap (negL arr) ((IsMaxHeap_iff_negL arr).mp H)

/-! ## The structural invariant holds at every reachable state -/

theorem ParentMax_iff_IsMaxHeap (arr : List Int) : ParentMax arr ↔ IsMaxHeap arr := by
  constructor
  · intro hp j _ c hc hcn
    have hc1 : 1 ≤ c := by omega
    have hpar : parent c = j := by unfold parent; omega
    have := hp c hc1 hcn
    rwa [hpar] at this
  · intro hm j hj hjn
    exact hm (parent j) (Nat.zero_le _) j (parent_child_split j hj) hjn

theorem construct_priority (pr : String) (arr : List Int) :
    (Heap.construct pr arr).priority_ = pr := by
  unfold Heap.construct
  split_ifs <;> rfl

theorem push_priority (h : Heap) (x : Int) : (h.push x).priority_ = h.priority_ := by
  unfold Heap.push
  split_ifs <;> rfl

theorem pop_priority (h : Heap) : ((h.pop).2).priority_ = h.priority_ := by
  unfold Heap.pop
  split_ifs <;> rfl

theorem construct_WF (pr : String) (arr : List Int) : (Heap.construct pr arr).WF := by
  by_cases h1 : pr = "<"
  · subst h1
    refine ⟨fun _ => construct_lt_minheap arr, fun hgt => ?_⟩
    rw [construct_priority] at hgt
    exact absurd hgt (by decide)
  · by_cases h2 : pr = ">"
    · subst h2
      refine ⟨fun hlt => ?_, fun _ => construct_gt_maxheap arr⟩
      rw [construct_priority] at hlt
      exact absurd hlt (by decide)
    · refine ⟨fun hlt => ?_, fun hgt => ?_⟩
      · rw [construct_priority] at hlt
        exact absurd hlt h1
      · rw [construct_priority] at hgt
        exact absurd hgt h2

theorem push_WF (h : Heap) (x : Int) (hw : h.WF) : (h.push x).WF := by
  unfold Heap.push
  split_ifs with h1 h2
  · refine ⟨fun _ => push_lt_minheap _ _ (hw.1 h1), fun hgt => ?_⟩
    have hgt' : h.priority_ = ">" := hgt
    rw [h1] at hgt'
    exact absurd hgt' (by decide)
  · refine ⟨fun hlt => ?_, fun _ => push_gt_maxheap _ _ (hw.2 h2)⟩
    have hlt' : h.priority_ = "<" := hlt
    rw [h2] at hlt'
    exact absurd hlt' (by decide)
  · refine ⟨fun hlt => ?_, fun hgt => ?_⟩
    · exact absurd hlt h1
    · exact absurd hgt h2

theorem pop_WF (h : Heap) (hw : h.WF) : ((h.pop).2).WF := by
  unfold Heap.pop
  split_ifs with h0 hlt
  · exact hw
  · refine ⟨fun _ => pop_lt_minheap _ (hw.1 hlt), fun hgt => ?_⟩
    have hgt' : h.priority_ = ">" := hgt
    rw [hlt] at hgt'
    exact absurd hgt' (by decide)
  · refine ⟨fun hlt2 => absurd hlt2 hlt, fun hgt => pop_gt_maxheap _ (hw.2 hgt)⟩

theorem applyOp_WF (h : Heap) (op : HOp) (hw : h.WF) : (h.applyOp op).WF := by
  cases op with
  | push x => exact push_WF h x hw
  | pop => exact pop_WF h hw

theorem run_WF (ops : List HOp) : ∀ h : Heap, h.WF → (h.run ops).WF := by
  induction ops with
  | nil => intro h hw; exact hw
  | cons op rest ih =>
    intro h hw
    exact ih (h.applyOp op) (applyOp_WF h op hw)

theorem applyOp_priority (h : Heap) (op : HOp) : (h.applyOp op).priority_ = h.priority_ := by
  cases op with
  | push x => exact push_priority h x
  | pop => exact pop_priority h

theorem run_priority (ops : List HOp) : ∀ h : Heap, (h.run ops).priority_ = h.priority_ := by
  induction ops with
  | nil => intro h; rfl
  | cons op rest ih =>
    intro h
    rw [show h.run (op :: rest) = (h.applyOp op).run rest from rfl, ih, applyOp_priority]

theorem prio_of_lt (h : Heap) (x : Int) (hp : h.priority_ = "<") : Heap.prio h x = -x := by
  unfold Heap.prio
  rw [if_pos hp]

theorem prio_of_gt (h : Heap) (x : Int) (hp : h.priority_ = ">") : Heap.prio h x = x := by
  unfold Heap.prio
  rw [if_neg (by rw [hp]; decide)]

/-- C1: at every reachable state of the core Heap — construction from any
initial sequence in either min or max mode, followed by any interleaving of
push and pop — every non-root index satisfies the heap-order invariant: the
priority of the parent element is at least the priority of the element. -/
theorem claim_C1_heap_order (init : List Int) (pr : String) (hpr : pr = "<" ∨ pr = ">")
    (ops : List HOp) : ((Heap.construct pr init).run ops).heapOrdered := by
  have hwf := run_WF ops _ (construct_WF pr init)
  have hprio : ((Heap.construct pr init).run ops).priority_ = pr := by
    rw [run_priority, construct_priority]
  intro i hi hin
  rcases hpr with hm | hm
  · rw [prio_of_lt _ _ (by rw [hprio, hm]), prio_of_lt _ _ (by rw [hprio, hm]), neg_le_neg_iff]
    exact (ParentMin_iff_IsMinHeap _).mpr (hwf.1 (by rw [hprio, hm])) i hi hin
  · rw [prio_of_gt _ _ (by rw [hprio, hm]), prio_of_gt _ _ (by rw [hprio, hm])]
    exact (ParentMax_iff_IsMaxHeap _).mpr (hwf.2 (by rw [hprio, hm])) i hi hin

/-- Witness for C1 at a concrete input: a min-heap built from [4,8,2,6,1]
after a push and a pop, checked at non-root index 1. -/
theorem claim_C1_heap_order_witness :
    (("<" : String) = "<" ∨ ("<" : String) = ">") ∧
      Heap.prio ((Heap.construct "<" [4,8,2,6,1]).run [HOp.push 0, HOp.pop])
        (((Heap.construct "<" [4,8,2,6,1]).run [HOp.push 0, HOp.pop]).arr_.getD 1 0) ≤
      Heap.prio ((Heap.construct "<" [4,8,2,6,1]).run [HOp.push 0, HOp.pop])
        (((Heap.construct "<" [4,8,2,6,1]).run [HOp.push 0, HOp.pop]).arr_.getD (parent 1) 0) :=
  ⟨Or.inl rfl,
    claim_C1_heap_order [4,8,2,6,1] "<" (Or.inl rfl) [HOp.push 0, HOp.pop] 1
      (by decide) (by decide)⟩

/-! ## C3: empty-heap sentinel behaviour -/

/-- C3 (amended): top and pop on an empty heap return the sentinel -1 and
leave the heap unchanged; but the sentinel coincides with the storable
value -1, so the returned value alone identifies emptiness only when -1
cannot be an element (for example when all stored elements are
non-negative); in general the caller must consult size. -/
theorem claim_C3_empty_sentinel (h : Heap) :
    (h.size = 0 → h.top = -1 ∧ h.pop = (-1, h)) ∧
      ((∀ x ∈ h.arr_, 0 ≤ x) → (h.top = -1 ↔ h.size = 0)) := by
  constructor
  · intro h0
    have h0' : h.arr_.length = 0 := h0
    unfold Heap.top Heap.pop
    rw [if_pos h0', if_pos h0']
    exact ⟨rfl, rfl⟩
  · intro hpos
    constructor
    · intro htop
      by_contra hne
      have hne' : h.arr_.length ≠ 0 := hne
      unfold Heap.top at htop
      rw [if_neg hne'] at htop
      have hmem : h.arr_.getD 0 0 ∈ h.arr_ := by
        rw [List.getD_eq_getElem h.arr_ 0 (by omega)]
        exact List.getElem_mem (by omega)
      have := hpos _ hmem
      omega
    · intro h0
      have h0' : h.arr_.length = 0 := h0
      unfold Heap.top
      rw [if_pos h0']

/-- Witness for C3: the empty min-heap reports the sentinel and is left
unchanged by pop. -/
theorem claim_C3_empty_sentinel_witness :
    (Heap.construct "<" []).top = -1 ∧
      (Heap.construct "<" []).pop = (-1, Heap.construct "<" []) :=
  (claim_C3_empty_sentinel (Heap.construct "<" [])).1 (by decide)

/-- Counterexample for C3 as stated: the sentinel -1 is not caller-checkable
as an emptiness signal, because a non-empty heap holding the element -1
returns the very same value from top. -/
theorem claim_C3_counterexample :
    ((Heap.construct "<" []).push (-1)).top = -1 ∧
      ((Heap.construct "<" []).push (-1)).size = 1 ∧
      (Heap.construct "<" []).top = -1 ∧ (Heap.construct "<" []).size = 0 := by
  decide

/-! ## C9: size after n pushes and m pops -/

theorem push_size (h : Heap) (x : Int) : (h.push x).size = h.size + 1 := by
  unfold Heap.push Heap.size
  split_ifs with h1 h2
  · show (siftUpLt (h.arr_ ++ [x]) _).length = _
    unfold siftUpLt
    rw [siftUpLtF_length]
    simp
  · show (siftUpGt (h.arr_ ++ [x]) _).length = _
    unfold siftUpGt
    rw [siftUpGtF_length]
    simp
  · simp [Heap.size]

theorem pop_size (h : Heap) (hne : h.size ≠ 0) : ((h.pop).2).size = h.size - 1 := by
  have hne' : h.arr_.length ≠ 0 := hne
  unfold Heap.pop
  rw [if_neg hne']
  unfold Heap.size
  split_ifs with hlt
  · show (minheapify _ 0).length = _
    unfold minheapify
    rw [minheapifyF_length]
    simp
  · show (maxheapify _ 0).length = _
    unfold maxheapify
    rw [maxheapifyF_length]
    simp

theorem run_size_aux (ops : List HOp) :
    ∀ h : Heap,
      (∀ i, i ≤ ops.length → countPops (ops.take i) ≤ h.size + countPushes (ops.take i)) →
      (Heap.run h ops).size = h.size + countPushes ops - countPops ops := by
  induction ops with
  | nil =>
    intro h _
    show h.size = h.size + countPushes [] - countPops []
    simp only [countPushes, countPops]
    omega
  | cons op rest ih =>
    intro h hsafe
    show (Heap.run (h.applyOp op) rest).size = _
    cases op with
    | push x =>
      have hs : (h.applyOp (HOp.push x)).size = h.size + 1 := push_size h x
      have hrest : ∀ i, i ≤ rest.length →
          countPops (rest.take i) ≤ (h.applyOp (HOp.push x)).size + countPushes (rest.take i) := by
        intro i hi
        have hh := hsafe (i+1) (by simp; omega)
        rw [List.take_succ_cons] at hh
        simp only [countPops, countPushes] at hh
        rw [hs]
        omega
      have := ih (h.applyOp (HOp.push x)) hrest
      rw [this, hs]
      simp only [countPushes, countPops]
      omega
    | pop =>
      have hpos : 1 ≤ h.size := by
        have hh := hsafe 1 (by simp)
        rw [List.take_succ_cons, List.take_zero] at hh
        simp only [countPops, countPushes] at hh
        omega
      have hs : (h.applyOp HOp.pop).size = h.size - 1 := pop_size h (by omega)
      have hrest : ∀ i, i ≤ rest.length →
          countPops (rest.take i) ≤ (h.applyOp HOp.pop).size + countPushes (rest.take i) := by
        intro i hi
        have hh := hsafe (i+1) (by simp; omega)
        rw [List.take_succ_cons] at hh
        simp only [countPops, countPushes] at hh
        rw [hs]
        omega
      have hfull := hsafe (rest.length + 1) (by simp)
      rw [List.take_succ_cons, List.take_of_length_le (le_refl _)] at hfull
      simp only [countPops, countPushes] at hfull
      have := ih (h.applyOp HOp.pop) hrest
      rw [this, hs]
      simp only [countPushes, countPops]
      omega

/-- C9 (amended): starting from an empty heap, after any interleaving of n
pushes and m pops in which no pop is issued on an empty heap (every prefix
has at least as many pushes as pops — forced by the counterexample, where a
pop on the empty heap is a no-op and the final size is n, not n - m), the
size is exactly n - m. -/
theorem claim_C9_size (pr : String) (ops : List HOp) (hsafe : popSafe ops) :
    ((Heap.construct pr []).run ops).size = countPushes ops - countPops ops := by
  have h0 : (Heap.construct pr []).size = 0 := by
    unfold Heap.construct Heap.size
    split_ifs <;> rfl
  have hrw := run_size_aux ops (Heap.construct pr [])
    (by intro i hi; rw [h0]; simpa using hsafe i hi)
  rw [hrw, h0]
  omega

/-- Witness for C9 at a concrete operation sequence. -/
theorem claim_C9_size_witness :
    popSafe [HOp.push 5, HOp.push 7, HOp.pop] ∧
      ((Heap.construct "<" []).run [HOp.push 5, HOp.push 7, HOp.pop]).size =
        countPushes [HOp.push 5, HOp.push 7, HOp.pop] -
          countPops [HOp.push 5, HOp.push 7, HOp.pop] :=
  ⟨by decide, claim_C9_size "<" [HOp.push 5, HOp.push 7, HOp.pop] (by decide)⟩

/-- Counterexample for C9 as stated: popping first (a no-op on the empty
heap) and then pushing twice is an interleaving of n = 2 pushes and m = 1
pops with m ≤ n, yet the final size is 2, not n - m = 1. -/
theorem claim_C9_counterexample :
    countPushes [HOp.pop, HOp.push 1, HOp.push 2] = 2 ∧
      countPops [HOp.pop, HOp.push 1, HOp.push 2] = 1 ∧
      ((Heap.construct "<" []).run [HOp.pop, HOp.push 1, HOp.push 2]).size = 2 := by
  decide

/-! ## C2: build from array then drain yields the sorted sequence -/

theorem inSubtree_zero (J : Nat) : ∀ j, j ≤ J → inSubtree 0 j = true := by
  induction J with
  | zero =>
    intro j hj
    interval_cases j
    exact inSubtree_self 0
  | succ m ih =>
    intro j hj
    by_cases hj0 : j = 0
    · subst hj0
      exact inSubtree_self 0
    · rw [inSubtree_unfold_gt (by omega)]
      exact ih _ (by omega)

theorem root_min_mem (arr : List Int) (H : IsMinHeap arr) (b : Int) (hb : b ∈ arr) :
    arr.getD 0 0 ≤ b := by
  obtain ⟨j, hj, rfl⟩ := List.mem_iff_getElem.mp hb
  have hget : arr[j] = arr.getD j 0 := by
    rw [List.getD_eq_getElem arr 0 hj]
  rw [hget]
  exact minHeapFrom_descendant j arr 0 0 H (le_refl 0) j (le_refl j) (inSubtree_zero j j (le_refl j)) hj

theorem lastCons_perm : ∀ l : List Int, l ≠ [] →
    ((l.getD (l.length - 1) 0) :: l.dropLast).Perm l
  | [], hne => absurd rfl hne
  | [x], _ => by
    show ([x].getD 0 0 :: []).Perm [x]
    exact List.Perm.refl _
  | x :: y :: rest, _ => by
    have ih := lastCons_perm (y :: rest) (by simp)
    have hv : (x :: y :: rest).getD ((x :: y :: rest).length - 1) 0
        = (y :: rest).getD ((y :: rest).length - 1) 0 := rfl
    have hd : (x :: y :: rest).dropLast = x :: (y :: rest).dropLast := rfl
    rw [hv, hd]
    exact List.Perm.trans (List.Perm.swap x _ _) (ih.cons x)

theorem pop_head_perm (arr : List Int) (hne : arr ≠ []) :
    (arr.getD 0 0 :: ((arr.set 0 (arr.getD (arr.length - 1) 0)).dropLast)).Perm arr := by
  cases arr with
  | nil => exact absurd rfl hne
  | cons a t =>
    cases t with
    | nil => exact List.Perm.refl _
    | cons b t2 =>
      have hv : (a :: b :: t2).getD ((a :: b :: t2).length - 1) 0
          = (b :: t2).getD ((b :: t2).length - 1) 0 := rfl
      have hset : (a :: b :: t2).set 0 ((a :: b :: t2).getD ((a :: b :: t2).length - 1) 0)
          = (b :: t2).getD ((b :: t2).length - 1) 0 :: b :: t2 := by rw [hv]; rfl
      rw [hset]
      have hd : ((b :: t2).getD ((b :: t2).length - 1) 0 :: b :: t2).dropLast
          = (b :: t2).getD ((b :: t2).length - 1) 0 :: (b :: t2).dropLast := rfl
      rw [hd]
      show (a :: (b :: t2).getD ((b :: t2).length - 1) 0 :: (b :: t2).dropLast).Perm (a :: b :: t2)
      exact (lastCons_perm (b :: t2) (by simp)).cons a

theorem pop_fst_of_ne (h : Heap) (hne : h.arr_.length ≠ 0) : (h.pop).1 = h.arr_.getD 0 0 := by
  unfold Heap.pop
  rw [if_neg hne]

theorem pop_arr_of_lt (h : Heap) (hp : h.priority_ = "<") (hne : h.arr_.length ≠ 0) :
    ((h.pop).2).arr_ = minheapify ((h.arr_.set 0 (h.arr_.getD (h.arr_.length - 1) 0)).dropLast) 0 := by
  unfold Heap.pop
  rw [if_neg hne]
  show (if h.priority_ = "<" then _ else _) = _
  rw [if_pos hp]

theorem pop_perm_of_lt (h : Heap) (hp : h.priority_ = "<") (hne : h.arr_.length ≠ 0) :
    ((h.pop).1 :: ((h.pop).2).arr_).Perm h.arr_ := by
  rw [pop_fst_of_ne h hne, pop_arr_of_lt h hp hne]
  have hperm : (minheapify ((h.arr_.set 0 (h.arr_.getD (h.arr_.length - 1) 0)).dropLast) 0).Perm
      ((h.arr_.set 0 (h.arr_.getD (h.arr_.length - 1) 0)).dropLast) := minheapifyF_perm _ _ _
  exact List.Perm.trans (hperm.cons _)
    (pop_head_perm h.arr_ (fun hn => hne (by rw [hn]; rfl)))

theorem drainF_lt (fuel : Nat) :
    ∀ h : Heap, h.priority_ = "<" → IsMinHeap h.arr_ → h.arr_.length ≤ fuel →
      (h.drainF fuel).Perm h.arr_ ∧ (h.drainF fuel).Sorted (fun a b : Int => a ≤ b) := by
  induction fuel with
  | zero =>
    intro h _ _ hlen
    have : h.arr_ = [] := List.length_eq_zero.mp (by omega)
    rw [this]
    exact ⟨List.Perm.refl _, List.sorted_nil⟩
  | succ f ih =>
    intro h hp H hlen
    unfold Heap.drainF
    split_ifs with h0
    · rw [List.length_eq_zero.mp h0]
      exact ⟨List.Perm.refl _, List.sorted_nil⟩
    · have hp2 : ((h.pop).2).priority_ = "<" := by rw [pop_priority]; exact hp
      have hH2 : IsMinHeap ((h.pop).2).arr_ := by
        rw [pop_arr_of_lt h hp h0]
        exact pop_lt_minheap _ H
      have hlen2 : ((h.pop).2).arr_.length ≤ f := by
        have := pop_size h (show h.size ≠ 0 from h0)
        have hsz : ((h.pop).2).size = h.size - 1 := this
        unfold Heap.size at hsz
        omega
      obtain ⟨ihp, ihs⟩ := ih (h.pop).2 hp2 hH2 hlen2
      constructor
      · exact List.Perm.trans (ihp.cons _) (pop_perm_of_lt h hp h0)
      · rw [List.sorted_cons]
        refine ⟨?_, ihs⟩
        intro b hb
        have hbmem : b ∈ ((h.pop).2).arr_ := ihp.mem_iff.mp hb
        have hbarr : b ∈ h.arr_ :=
          (pop_perm_of_lt h hp h0).mem_iff.mp (List.mem_cons_of_mem _ hbmem)
        rw [pop_fst_of_ne h h0]
        exact root_min_mem h.arr_ H b hbarr

theorem negL_pop_arr (arr : List Int) :
    negL ((arr.set 0 (arr.getD (arr.length - 1) 0)).dropLast)
      = ((negL arr).set 0 ((negL arr).getD ((negL arr).length - 1) 0)).dropLast := by
  rw [negL_length, getD_negL, ← negL_set]
  unfold negL
  rw [List.map_dropLast]

theorem pop_arr_of_gt (h : Heap) (hp : h.priority_ = ">") (hne : h.arr_.length ≠ 0) :
    ((h.pop).2).arr_ = maxheapify ((h.arr_.set 0 (h.arr_.getD (h.arr_.length - 1) 0)).dropLast) 0 := by
  unfold Heap.pop
  rw [if_neg hne]
  show (if h.priority_ = "<" then _ else _) = _
  rw [if_neg (by rw [hp]; decide)]

theorem drainF_gt_negL (fuel : Nat) :
    ∀ arr : List Int,
      (Heap.mk arr ">").drainF fuel = negL ((Heap.mk (negL arr) "<").drainF fuel) := by
  induction fuel with
  | zero => intro arr; rfl
  | succ f ih =>
    intro arr
    by_cases h0 : arr.length = 0
    · unfold Heap.drainF
      rw [if_pos (show (Heap.mk arr ">").arr_.length = 0 from h0),
        if_pos (show (Heap.mk (negL arr) "<").arr_.length = 0 by
          show (negL arr).length = 0
          rw [negL_length]
          exact h0)]
      rfl
    · have hng : (negL arr).length ≠ 0 := by rw [negL_length]; exact h0
      have hpop : (Heap.mk arr ">").pop
          = (arr.getD 0 0,
             Heap.mk (maxheapify ((arr.set 0 (arr.getD (arr.length - 1) 0)).dropLast) 0) ">") := by
        unfold Heap.pop
        rw [if_neg (show ¬ (Heap.mk arr ">").arr_.length = 0 from h0),
          if_neg (show ¬ (Heap.mk arr ">").priority_ = "<" from
            (by decide : ¬ (">" : String) = "<"))]
      have hpopn : (Heap.mk (negL arr) "<").pop
          = ((negL arr).getD 0 0,
             Heap.mk (minheapify
               (((negL arr).set 0 ((negL arr).getD ((negL arr).length - 1) 0)).dropLast) 0) "<") := by
        unfold Heap.pop
        rw [if_neg (show ¬ (Heap.mk (negL arr) "<").arr_.length = 0 from hng),
          if_pos (show (Heap.mk (negL arr) "<").priority_ = "<" from rfl)]
      unfold Heap.drainF
      rw [if_neg (show ¬ (Heap.mk arr ">").arr_.length = 0 from h0),
        if_neg (show ¬ (Heap.mk (negL arr) "<").arr_.length = 0 from hng),
        hpop, hpopn]
      show arr.getD 0 0 ::
          (Heap.mk (maxheapify ((arr.set 0 (arr.getD (arr.length - 1) 0)).dropLast) 0) ">").drainF f
        = negL ((negL arr).getD 0 0 ::
          (Heap.mk (minheapify
            (((negL arr).set 0 ((negL arr).getD ((negL arr).length - 1) 0)).dropLast) 0) "<").drainF f)
      have hmk : Heap.mk (minheapify
            (((negL arr).set 0 ((negL arr).getD ((negL arr).length - 1) 0)).dropLast) 0) "<"
          = Heap.mk (negL (maxheapify ((arr.set 0 (arr.getD (arr.length - 1) 0)).dropLast) 0)) "<" := by
        rw [← negL_pop_arr, minheapify_negL]
      have hcons : ∀ (x : Int) (l : List Int), negL (x :: l) = -x :: negL l := fun x l => rfl
      rw [hmk, hcons, ← ih, getD_negL, neg_neg]

theorem sortAscInt_sorted (l : List Int) : (sortAscInt l).Sorted (fun a b : Int => a ≤ b) :=
  List.sorted_insertionSort _ l

theorem sortAscInt_perm (l : List Int) : (sortAscInt l).Perm l :=
  List.perm_insertionSort _ l

theorem sortDescInt_sorted (l : List Int) : (sortDescInt l).Sorted (fun a b : Int => b ≤ a) :=
  List.sorted_insertionSort _ l

theorem sortDescInt_perm (l : List Int) : (sortDescInt l).Perm l :=
  List.perm_insertionSort _ l

theorem buildLoop_min_perm (k : Nat) :
    ∀ arr : List Int, (buildLoop minheapify arr k).Perm arr := by
  induction k with
  | zero => intro arr; exact List.Perm.refl _
  | succ m ih =>
    intro arr
    show (buildLoop minheapify (minheapify arr m) m).Perm arr
    exact List.Perm.trans (ih _) (minheapifyF_perm _ _ _)

theorem buildLoop_max_perm (k : Nat) :
    ∀ arr : List Int, (buildLoop maxheapify arr k).Perm arr := by
  induction k with
  | zero => intro arr; exact List.Perm.refl _
  | succ m ih =>
    intro arr
    show (buildLoop maxheapify (maxheapify arr m) m).Perm arr
    exact List.Perm.trans (ih _) (maxheapifyF_perm _ _ _)

theorem negL_perm_of_perm (l1 l2 : List Int) (h : l1.Perm l2) : (negL l1).Perm (negL l2) :=
  h.map _

theorem negL_sorted_asc (l : List Int) (h : l.Sorted (fun a b : Int => a ≤ b)) :
    (negL l).Sorted (fun a b : Int => b ≤ a) := by
  unfold negL
  exact (List.pairwise_map.mpr (h.imp (fun hab => by simpa using hab)))

/-- C2: constructing a Heap from any initial sequence (in min or max mode)
and draining it by repeated pop yields exactly that sequence's elements in
priority order: ascending for a min-heap, descending for a max-heap. -/
theorem claim_C2_build_drain (init : List Int) (pr : String) (hpr : pr = "<" ∨ pr = ">") :
    ((Heap.construct pr init).drain).Perm init ∧
      (pr = "<" → (Heap.construct pr init).drain = sortAscInt init) ∧
      (pr = ">" → (Heap.construct pr init).drain = sortDescInt init) := by
  rcases hpr with hm | hm
  · subst hm
    have hwf : IsMinHeap (Heap.construct "<" init).arr_ := construct_lt_minheap init
    have hpr' : (Heap.construct "<" init).priority_ = "<" := construct_priority _ _
    obtain ⟨hperm, hsorted⟩ :=
      drainF_lt _ (Heap.construct "<" init) hpr' hwf (le_refl _)
    have harr : ((Heap.construct "<" init).arr_).Perm init := by
      show ((Heap.construct "<" init).arr_).Perm init
      unfold Heap.construct
      rw [if_pos rfl]
      exact buildLoop_min_perm _ init
    have hperm2 : ((Heap.construct "<" init).drain).Perm init :=
      List.Perm.trans hperm harr
    refine ⟨hperm2, fun _ => ?_, fun hgt => by exact absurd hgt (by decide)⟩
    exact List.eq_of_perm_of_sorted
      (List.Perm.trans hperm2 (sortAscInt_perm init).symm) hsorted (sortAscInt_sorted init)
  · subst hm
    have harrp : (Heap.construct ">" init).arr_ = buildLoop maxheapify init (init.length / 2) := by
      unfold Heap.construct
      rw [if_neg (by decide), if_pos rfl]
    have hprp : (Heap.construct ">" init).priority_ = ">" := construct_priority _ _
    have hheap : Heap.construct ">" init
        = Heap.mk (buildLoop maxheapify init (init.length / 2)) ">" := by
      cases hq : Heap.construct ">" init with
      | mk qarr qpr =>
        have h1 : qarr = buildLoop maxheapify init (init.length / 2) := by rw [← harrp, hq]
        have h2 : qpr = ">" := by rw [← hprp, hq]
        rw [h1, h2]
    have hdual := drainF_gt_negL
      ((buildLoop maxheapify init (init.length / 2)).length)
      (buildLoop maxheapify init (init.length / 2))
    have hmin : IsMinHeap (negL (buildLoop maxheapify init (init.length / 2))) := by
      rw [← buildLoop_negL]
      apply buildLoop_minheapify
      rw [← negL_length init]
      exact minHeapFrom_leaves (negL init)
    obtain ⟨hperm, hsorted⟩ := drainF_lt
      ((buildLoop maxheapify init (init.length / 2)).length)
      (Heap.mk (negL (buildLoop maxheapify init (init.length / 2))) "<") rfl hmin
      (by show (negL _).length ≤ _; rw [negL_length])
    have hdperm : ((Heap.construct ">" init).drain).Perm init := by
      rw [hheap]
      show ((Heap.mk (buildLoop maxheapify init (init.length / 2)) ">").drainF _).Perm init
      rw [hdual]
      have step1 : (negL ((Heap.mk (negL (buildLoop maxheapify init (init.length / 2))) "<").drainF
          ((buildLoop maxheapify init (init.length / 2)).length))).Perm
          (negL (negL (buildLoop maxheapify init (init.length / 2)))) :=
        negL_perm_of_perm _ _ hperm
      rw [negL_negL] at step1
      exact List.Perm.trans step1 (buildLoop_max_perm _ init)
    have hdsorted : ((Heap.construct ">" init).drain).Sorted (fun a b : Int => b ≤ a) := by
      rw [hheap]
      show ((Heap.mk (buildLoop maxheapify init (init.length / 2)) ">").drainF _).Sorted _
      rw [hdual]
      exact negL_sorted_asc _ hsorted
    refine ⟨hdperm, fun hlt => by exact absurd hlt (by decide), fun _ => ?_⟩
    exact List.eq_of_perm_of_sorted
      (List.Perm.trans hdperm (sortDescInt_perm init).symm) hdsorted (sortDescInt_sorted init)

/-- Witness for C2: the min-heap built from [4, 8, 2, 6, 1] drains to
[1, 2, 4, 6, 8], and this agrees with the theorem instance. -/
theorem claim_C2_build_drain_witness :
    (("<" : String) = "<" ∨ ("<" : String) = ">") ∧
      ((Heap.construct "<" [4,8,2,6,1]).drain).Perm [4,8,2,6,1] ∧
      (("<" : String) = "<" → (Heap.construct "<" [4,8,2,6,1]).drain = sortAscInt [4,8,2,6,1]) ∧
      (("<" : String) = ">" → (Heap.construct "<" [4,8,2,6,1]).drain = sortDescInt [4,8,2,6,1]) :=
  ⟨Or.inl rfl, claim_C2_build_drain [4,8,2,6,1] "<" (Or.inl rfl)⟩

/-! ## TopSongs: map and heap-model lemmas -/

theorem mapFind_mapSet_self (m : List (String × Int)) (t : String) (v : Int) :
    mapFind (mapSet m t v) t = some v := by
  induction m with
  | nil => simp [mapSet, mapFind]
  | cons p rest ih =>
    unfold mapSet
    split_ifs with hp
    · unfold mapFind
      rw [if_pos hp]
    · unfold mapFind
      rw [if_neg hp]
      exact ih

theorem mapFind_mapSet_other (m : List (String × Int)) (t s : String) (v : Int) (hne : s ≠ t) :
    mapFind (mapSet m t v) s = mapFind m s := by
  induction m with
  | nil =>
    unfold mapSet mapFind
    rw [if_neg (fun hh => hne hh.symm)]
    rfl
  | cons p rest ih =>
    unfold mapSet
    split_ifs with hp
    · unfold mapFind
      have hps : ¬ p.1 = s := fun hh => hne (hh.symm.trans hp)
      rw [if_neg hps, if_neg hps]
    · unfold mapFind
      by_cases hps : p.1 = s
      · rw [if_pos hps, if_pos hps]
      · rw [if_neg hps, if_neg hps]
        exact ih

theorem mapGetD_of_find (m : List (String × Int)) (t : String) (v : Int)
    (h : mapFind m t = some v) : mapGetD m t = v := by
  unfold mapGetD
  rw [h]
  rfl

theorem pqPush_mem_self (pq : List (Int × String)) (e : Int × String) : e ∈ pqPush pq e :=
  (List.mem_orderedInsert _).mpr (Or.inl rfl)

theorem pqPush_mem_of_mem (pq : List (Int × String)) (e x : Int × String) (h : x ∈ pq) :
    x ∈ pqPush pq e :=
  (List.mem_orderedInsert _).mpr (Or.inr h)

theorem foldl_pqPush_mem (res : List String) (f : String → Int × String) :
    ∀ (pq : List (Int × String)) (x : Int × String), x ∈ pq →
      x ∈ res.foldl (fun pq u => pqPush pq (f u)) pq := by
  induction res with
  | nil => intro pq x hx; exact hx
  | cons r rest ih =>
    intro pq x hx
    exact ih _ x (pqPush_mem_of_mem _ _ _ hx)

theorem foldl_pqPush_mem_pushed (res : List String) (f : String → Int × String) :
    ∀ (pq : List (Int × String)) (t : String), t ∈ res →
      f t ∈ res.foldl (fun pq u => pqPush pq (f u)) pq := by
  induction res with
  | nil => intro pq t ht; exact absurd ht (List.not_mem_nil t)
  | cons r rest ih =>
    intro pq t ht
    rcases List.mem_cons.mp ht with rfl | ht2
    · exact foldl_pqPush_mem rest f _ _ (pqPush_mem_self _ _)
    · exact ih _ t ht2

theorem topkLoop_res_mem (umap : List (String × Int)) (k : Nat) :
    ∀ (pq : List (Int × String)) (res0 : List String) (t : String), t ∈ res0 →
      t ∈ (topkLoop umap k pq res0).1 := by
  intro pq
  induction pq with
  | nil => intro res0 t ht; exact ht
  | cons e rest ih =>
    intro res0 t ht
    unfold topkLoop
    split_ifs with h1 h2
    · exact ih _ t (List.mem_append_left _ ht)
    · exact ih _ t ht
    · exact ht

theorem topkLoop_fresh_preserved (umap : List (String × Int)) (k : Nat) :
    ∀ (pq : List (Int × String)) (res0 : List String) (v : Int) (t : String),
      (v, t) ∈ pq → mapGetD umap t = v →
      (v, t) ∈ (topkLoop umap k pq res0).2 ∨ t ∈ (topkLoop umap k pq res0).1 := by
  intro pq
  induction pq with
  | nil => intro res0 v t hmem _; exact absurd hmem (List.not_mem_nil _)
  | cons e rest ih =>
    intro res0 v t hmem hfresh
    unfold topkLoop
    split_ifs with h1 h2
    · rcases List.mem_cons.mp hmem with heq | hrest
      · right
        apply topkLoop_res_mem
        apply List.mem_append_right
        rw [← heq]
        exact List.mem_singleton.mpr rfl
      · exact ih _ v t hrest hfresh
    · rcases List.mem_cons.mp hmem with heq | hrest
      · exfalso
        apply h2
        rw [← heq]
        exact hfresh
      · exact ih _ v t hrest hfresh
    · left
      exact hmem

theorem register_plays_FreshInv (s : TopSongs) (title : String) (count : Int)
    (hs : FreshInv s) : FreshInv (s.register_plays title count) := by
  intro t v hfind
  unfold TopSongs.register_plays at hfind ⊢
  by_cases ht : t = title
  · subst ht
    rw [mapFind_mapSet_self] at hfind
    obtain rfl : count + (match mapFind s.umap t with | some v => v | none => 0) = v :=
      Option.some.inj hfind
    exact pqPush_mem_self _ _
  · rw [mapFind_mapSet_other _ _ _ _ ht] at hfind
    exact pqPush_mem_of_mem _ _ _ (hs t v hfind)

theorem top_k_FreshInv (s : TopSongs) (hs : FreshInv s) : FreshInv ((s.top_k).2) := by
  intro t v hfind
  unfold TopSongs.top_k at hfind ⊢
  have hfind' : mapFind s.umap t = some v := hfind
  have hmem := hs t v hfind'
  have hfresh : mapGetD s.umap t = v := mapGetD_of_find _ _ _ hfind'
  rcases topkLoop_fresh_preserved s.umap s.k_ s.pq [] v t hmem hfresh with hrem | hres
  · show (v, t) ∈ List.foldl (fun pq u => pqPush pq (mapGetD s.umap u, u))
      (topkLoop s.umap s.k_ s.pq []).2 (topkLoop s.umap s.k_ s.pq []).1
    exact foldl_pqPush_mem _ _ _ _ hrem
  · have h2 := foldl_pqPush_mem_pushed (topkLoop s.umap s.k_ s.pq []).1
      (fun u => (mapGetD s.umap u, u)) (topkLoop s.umap s.k_ s.pq []).2 t hres
    show (v, t) ∈ List.foldl (fun pq u => pqPush pq (mapGetD s.umap u, u))
      (topkLoop s.umap s.k_ s.pq []).2 (topkLoop s.umap s.k_ s.pq []).1
    rw [show ((v : Int), t) = (mapGetD s.umap t, t) from by rw [hfresh]]
    exact h2

theorem run_FreshInv (ops : List TOp) :
    ∀ s : TopSongs, FreshInv s → FreshInv (ops.foldl TopSongs.applyOp s) := by
  induction ops with
  | nil => intro s hs; exact hs
  | cons op rest ih =>
    intro s hs
    apply ih
    cases op with
    | reg t c => exact register_plays_FreshInv s t c hs
    | query => exact top_k_FreshInv s hs

/-- C5: after any interleaved sequence of register_plays and top_k calls,
every key present in the authoritative map still has at least one heap
entry whose stored score equals the map's current total for that key:
top_k's re-pushing of returned entries and silent discarding of stale
entries never drops the last fresh entry of any registered key. -/
theorem claim_C5_fresh_never_lost (k : Nat) (ops : List TOp) (t : String) (v : Int)
    (hfind : mapFind (TopSongs.run k ops).umap t = some v) :
    (v, t) ∈ (TopSongs.run k ops).pq := by
  have hinit : FreshInv (TopSongs.init k) := by
    intro t v hfind
    exact absurd hfind (by simp [TopSongs.init, mapFind])
  exact run_FreshInv ops _ hinit t v hfind

/-- Witness for C5 at a concrete interleaving with a repeated key. -/
theorem claim_C5_fresh_never_lost_witness :
    mapFind (TopSongs.run 1 [TOp.reg "A" 100, TOp.reg "B" 150, TOp.reg "A" 193,
        TOp.query]).umap "A" = some 293 ∧
      ((293 : Int), "A") ∈ (TopSongs.run 1 [TOp.reg "A" 100, TOp.reg "B" 150, TOp.reg "A" 193,
        TOp.query]).pq :=
  ⟨by decide,
    claim_C5_fresh_never_lost 1 [TOp.reg "A" 100, TOp.reg "B" 150, TOp.reg "A" 193, TOp.query]
      "A" 293 (by decide)⟩

/-! ## The entry order is a linear order -/

theorem strLtB_irrefl : ∀ l : List Char, strLtB l l = false
  | [] => rfl
  | a :: as => by
    unfold strLtB
    rw [if_neg (lt_irrefl a), if_neg (lt_irrefl a)]
    exact strLtB_irrefl as

theorem strLtB_trans : ∀ a b c : List Char,
    strLtB a b = true → strLtB b c = true → strLtB a c = true := by
  intro a
  induction a with
  | nil =>
    intro b c h1 h2
    cases b with
    | nil => exact absurd h1 (by simp [strLtB])
    | cons y ys =>
      cases c with
      | nil => exact absurd h2 (by simp [strLtB])
      | cons z zs => rfl
  | cons x xs ih =>
    intro b c h1 h2
    cases b with
    | nil => exact absurd h1 (by simp [strLtB])
    | cons y ys =>
      cases c with
      | nil => exact absurd h2 (by simp [strLtB])
      | cons z zs =>
        unfold strLtB at h1 h2 ⊢
        by_cases hxy : x < y
        · by_cases hyz : y < z
          · rw [if_pos (lt_trans hxy hyz)]
          · by_cases hzy : z < y
            · rw [if_neg hyz, if_pos hzy] at h2
              exact absurd h2 (by simp)
            · have heq : y = z := le_antisymm (not_lt.mp hzy) (not_lt.mp hyz)
              rw [if_pos (heq ▸ hxy)]
        · by_cases hyx : y < x
          · rw [if_neg hxy, if_pos hyx] at h1
            exact absurd h1 (by simp)
          · have heq : x = y := le_antisymm (not_lt.mp hyx) (not_lt.mp hxy)
            rw [if_neg hxy, if_neg hyx] at h1
            by_cases hyz : y < z
            · rw [if_pos (heq ▸ hyz)]
            · by_cases hzy : z < y
              · rw [if_neg hyz, if_pos hzy] at h2
                exact absurd h2 (by simp)
              · have heq2 : y = z := le_antisymm (not_lt.mp hzy) (not_lt.mp hyz)
                rw [if_neg hyz, if_neg hzy] at h2
                rw [if_neg (by rw [heq, heq2]; exact lt_irrefl z),
                  if_neg (by rw [heq, heq2]; exact lt_irrefl z)]
                exact ih ys zs h1 h2

theorem strLtB_conn : ∀ a b : List Char, strLtB a b = false → strLtB b a = false → a = b := by
  intro a
  induction a with
  | nil =>
    intro b h1 _
    cases b with
    | nil => rfl
    | cons y ys => exact absurd h1 (by simp [strLtB])
  | cons x xs ih =>
    intro b h1 h2
    cases b with
    | nil => exact absurd h2 (by simp [strLtB])
    | cons y ys =>
      unfold strLtB at h1 h2
      by_cases hxy : x < y
      · rw [if_pos hxy] at h1
        exact absurd h1 (by simp)
      · by_cases hyx : y < x
        · rw [if_pos hyx] at h2
          exact absurd h2 (by simp)
        · have heq : x = y := le_antisymm (not_lt.mp hyx) (not_lt.mp hxy)
          rw [if_neg hxy, if_neg hyx] at h1
          rw [if_neg hyx, if_neg hxy] at h2
          rw [heq, ih ys h1 h2]

theorem entryLtB_irrefl (a : Int × String) : entryLtB a a = false := by
  unfold entryLtB
  rw [if_neg (lt_irrefl _), if_neg (lt_irrefl _)]
  exact strLtB_irrefl _

theorem entryLtB_trans (a b c : Int × String) (h1 : entryLtB a b = true)
    (h2 : entryLtB b c = true) : entryLtB a c = true := by
  unfold entryLtB at h1 h2 ⊢
  by_cases hab : a.1 < b.1
  · by_cases hbc : b.1 < c.1
    · rw [if_pos (lt_trans hab hbc)]
    · by_cases hcb : c.1 < b.1
      · rw [if_neg hbc, if_pos hcb] at h2
        exact absurd h2 (by simp)
      · have heq : b.1 = c.1 := le_antisymm (not_lt.mp hcb) (not_lt.mp hbc)
        rw [if_pos (by omega : a.1 < c.1)]
  · by_cases hba : b.1 < a.1
    · rw [if_neg hab, if_pos hba] at h1
      exact absurd h1 (by simp)
    · have heq : a.1 = b.1 := le_antisymm (not_lt.mp hba) (not_lt.mp hab)
      rw [if_neg hab, if_neg hba] at h1
      by_cases hbc : b.1 < c.1
      · rw [if_pos (by omega : a.1 < c.1)]
      · by_cases hcb : c.1 < b.1
        · rw [if_neg hbc, if_pos hcb] at h2
          exact absurd h2 (by simp)
        · have heq2 : b.1 = c.1 := le_antisymm (not_lt.mp hcb) (not_lt.mp hbc)
          rw [if_neg hbc, if_neg hcb] at h2
          rw [if_neg (by omega : ¬ a.1 < c.1), if_neg (by omega : ¬ c.1 < a.1)]
          exact strLtB_trans _ _ _ h1 h2

theorem entryLtB_conn (a b : Int × String) (h1 : entryLtB a b = false)
    (h2 : entryLtB b a = false) : a = b := by
  unfold entryLtB at h1 h2
  by_cases hab : a.1 < b.1
  · rw [if_pos hab] at h1
    exact absurd h1 (by simp)
  · by_cases hba : b.1 < a.1
    · rw [if_pos hba] at h2
      exact absurd h2 (by simp)
    · have heq : a.1 = b.1 := le_antisymm (not_lt.mp hba) (not_lt.mp hab)
      rw [if_neg hab, if_neg hba] at h1
      rw [if_neg hba, if_neg hab] at h2
      have hdata : a.2.data = b.2.data := strLtB_conn _ _ h1 h2
      have hstr : a.2 = b.2 := String.ext hdata
      exact Prod.ext_iff.mpr ⟨heq, hstr⟩

theorem entryDesc_total : ∀ a b : Int × String, entryDesc a b ∨ entryDesc b a := by
  intro a b
  unfold entryDesc
  by_cases h : entryLtB a b = true
  · right
    by_cases h2 : entryLtB b a = true
    · exfalso
      have := entryLtB_trans a b a h h2
      rw [entryLtB_irrefl] at this
      exact absurd this (by simp)
    · exact Bool.not_eq_true _ |>.mp h2
  · left
    exact Bool.not_eq_true _ |>.mp h

theorem entryDesc_trans : ∀ a b c : Int × String,
    entryDesc a b → entryDesc b c → entryDesc a c := by
  intro a b c h1 h2
  unfold entryDesc at *
  by_contra hac
  have hac' : entryLtB a c = true := Bool.not_eq_false _ |>.mp hac
  by_cases hcb : entryLtB c b = true
  · have := entryLtB_trans a c b hac' hcb
    rw [h1] at this
    exact absurd this (by simp)
  · have hbc : b = c := entryLtB_conn b c h2 (Bool.not_eq_true _ |>.mp hcb)
    rw [← hbc] at hac'
    rw [h1] at hac'
    exact absurd hac' (by simp)

theorem entryDesc_antisymm : ∀ a b : Int × String, entryDesc a b → entryDesc b a → a = b :=
  fun a b h1 h2 => entryLtB_conn a b h1 h2

/-! ## Sortedness of the heap model and the top_k loop characterization -/

theorem pqPush_sorted (pq : List (Int × String)) (e : Int × String)
    (h : pq.Sorted entryDesc) : (pqPush pq e).Sorted entryDesc := by
  have instT : IsTotal (Int × String) entryDesc := ⟨entryDesc_total⟩
  have instTr : IsTrans (Int × String) entryDesc := ⟨entryDesc_trans⟩
  exact @List.Sorted.orderedInsert _ entryDesc _ instT instTr e pq h

theorem foldl_pqPush_sorted (res : List String) (f : String → Int × String) :
    ∀ pq : List (Int × String), pq.Sorted entryDesc →
      (res.foldl (fun pq u => pqPush pq (f u)) pq).Sorted entryDesc := by
  induction res with
  | nil => intro pq h; exact h
  | cons r rest ih =>
    intro pq h
    exact ih _ (pqPush_sorted pq (f r) h)

theorem topkLoop_spec (umap : List (String × Int)) (k : Nat) :
    ∀ (pq : List (Int × String)) (res0 : List String),
      (topkLoop umap k pq res0).1
          = res0 ++ ((freshEntries umap pq).take (k - res0.length)).map Prod.snd
        ∧ freshEntries umap (topkLoop umap k pq res0).2
          = (freshEntries umap pq).drop (k - res0.length)
        ∧ (topkLoop umap k pq res0).2.Sublist pq := by
  intro pq
  induction pq with
  | nil =>
    intro res0
    refine ⟨?_, ?_, ?_⟩ <;> simp [topkLoop, freshEntries]
  | cons e rest ih =>
    intro res0
    unfold topkLoop
    split_ifs with h1 h2
    · have hfr : freshEntries umap (e :: rest) = e :: freshEntries umap rest := by
        simp [freshEntries, List.filter_cons, h2]
      obtain ⟨ih1, ih2, ih3⟩ := ih (res0 ++ [e.2])
      have hlen : (res0 ++ [e.2]).length = res0.length + 1 := by simp
      have hk : k - res0.length = (k - (res0.length + 1)) + 1 := by omega
      refine ⟨?_, ?_, ?_⟩
      · rw [ih1, hfr, hlen, hk, List.take_succ_cons, List.map_cons]
        simp
      · rw [ih2, hfr, hlen, hk, List.drop_succ_cons]
      · exact ih3.trans (List.sublist_cons_self e rest)
    · have hfr : freshEntries umap (e :: rest) = freshEntries umap rest := by
        simp [freshEntries, List.filter_cons, h2]
      obtain ⟨ih1, ih2, ih3⟩ := ih res0
      exact ⟨by rw [ih1, hfr], by rw [ih2, hfr], ih3.trans (List.sublist_cons_self e rest)⟩
    · have hk : k - res0.length = 0 := by omega
      refine ⟨?_, ?_, ?_⟩
      · rw [hk]
        simp
      · rw [hk]
        simp
      · exact List.Sublist.refl _

theorem register_plays_sorted (s : TopSongs) (title : String) (count : Int)
    (h : s.pq.Sorted entryDesc) : ((s.register_plays title count)).pq.Sorted entryDesc := by
  unfold TopSongs.register_plays
  exact pqPush_sorted _ _ h

theorem top_k_sorted (s : TopSongs) (h : s.pq.Sorted entryDesc) :
    ((s.top_k).2).pq.Sorted entryDesc := by
  show (List.foldl (fun pq u => pqPush pq (mapGetD s.umap u, u))
    (topkLoop s.umap s.k_ s.pq []).2 (topkLoop s.umap s.k_ s.pq []).1).Sorted entryDesc
  apply foldl_pqPush_sorted
  exact List.Pairwise.sublist (topkLoop_spec s.umap s.k_ s.pq []).2.2 h

theorem run_sorted (k : Nat) (ops : List TOp) :
    (TopSongs.run k ops).pq.Sorted entryDesc := by
  show ((ops.foldl TopSongs.applyOp (TopSongs.init k)).pq).Sorted entryDesc
  have hgen : ∀ (l : List TOp) (s : TopSongs), s.pq.Sorted entryDesc →
      ((l.foldl TopSongs.applyOp s).pq).Sorted entryDesc := by
    intro l
    induction l with
    | nil => intro s hs; exact hs
    | cons op rest ih =>
      intro s hs
      apply ih
      cases op with
      | reg t c => exact register_plays_sorted s t c hs
      | query => exact top_k_sorted s hs
  exact hgen ops (TopSongs.init k) List.sorted_nil

/-! ## C6: top_k is idempotent -/

theorem foldl_pqPush_perm (res : List String) (f : String → Int × String) :
    ∀ pq : List (Int × String),
      (res.foldl (fun pq u => pqPush pq (f u)) pq).Perm (res.map f ++ pq) := by
  induction res with
  | nil => intro pq; exact List.Perm.refl _
  | cons r rest ih =>
    intro pq
    have h1 := ih (pqPush pq (f r))
    have h2 : (pqPush pq (f r)).Perm (f r :: pq) := List.perm_orderedInsert _ _ _
    have h3 : (rest.map f ++ pqPush pq (f r)).Perm (rest.map f ++ (f r :: pq)) :=
      List.Perm.append_left _ h2
    have h4 : (rest.map f ++ (f r :: pq)).Perm (f r :: (rest.map f ++ pq)) := List.perm_middle
    exact (h1.trans h3).trans h4

theorem map_snd_fresh_id (umap : List (String × Int)) :
    ∀ l : List (Int × String), (∀ e ∈ l, mapGetD umap e.2 = e.1) →
      (l.map Prod.snd).map (fun t => (mapGetD umap t, t)) = l := by
  intro l
  induction l with
  | nil => intro _; rfl
  | cons e rest ih =>
    intro h
    rw [List.map_cons, List.map_cons, ih (fun x hx => h x (List.mem_cons_of_mem _ hx))]
    have he : (mapGetD umap e.2, e.2) = e :=
      Prod.ext_iff.mpr ⟨h e (List.mem_cons_self _ _), rfl⟩
    rw [he]

theorem freshEntries_mem (umap : List (String × Int)) (pq : List (Int × String))
    (e : Int × String) (h : e ∈ freshEntries umap pq) : mapGetD umap e.2 = e.1 ∧ e ∈ pq := by
  unfold freshEntries at h
  obtain ⟨hmem, hp⟩ := List.mem_filter.mp h
  exact ⟨beq_iff_eq.mp hp, hmem⟩

theorem freshEntries_sorted (umap : List (String × Int)) (pq : List (Int × String))
    (h : pq.Sorted entryDesc) : (freshEntries umap pq).Sorted entryDesc :=
  List.Sorted.filter _ h

theorem topk_topk_of_sorted (s : TopSongs) (hsort : s.pq.Sorted entryDesc) :
    (((s.top_k).2).top_k).1 = (s.top_k).1 := by
  obtain ⟨h1a, h1b, h1c⟩ := topkLoop_spec s.umap s.k_ s.pq []
  have hres1 : (s.top_k).1
      = ((freshEntries s.umap s.pq).take s.k_).map Prod.snd := by
    show (topkLoop s.umap s.k_ s.pq []).1 = _
    rw [h1a]
    simp
  have hpq2 : ((s.top_k).2).pq
      = (s.top_k).1.foldl (fun pq u => pqPush pq (mapGetD s.umap u, u))
          (topkLoop s.umap s.k_ s.pq []).2 := rfl
  have humap2 : ((s.top_k).2).umap = s.umap := rfl
  have hk2 : ((s.top_k).2).k_ = s.k_ := rfl
  -- the fresh entries of the post-call heap are exactly those of the pre-call heap
  have hperm : (((s.top_k).2).pq).Perm
      ((s.top_k).1.map (fun t => (mapGetD s.umap t, t)) ++ (topkLoop s.umap s.k_ s.pq []).2) := by
    rw [hpq2]
    exact foldl_pqPush_perm _ _ _
  have hpushed : (s.top_k).1.map (fun t => (mapGetD s.umap t, t))
      = (freshEntries s.umap s.pq).take s.k_ := by
    rw [hres1]
    apply map_snd_fresh_id
    intro e he
    exact (freshEntries_mem s.umap s.pq e (List.take_subset _ _ he)).1
  have hfresh2 : (freshEntries s.umap (((s.top_k).2).pq)).Perm (freshEntries s.umap s.pq) := by
    have hf1 : (freshEntries s.umap (((s.top_k).2).pq)).Perm
        (freshEntries s.umap
          ((s.top_k).1.map (fun t => (mapGetD s.umap t, t)) ++ (topkLoop s.umap s.k_ s.pq []).2)) :=
      List.Perm.filter _ hperm
    have hf2 : freshEntries s.umap
        ((s.top_k).1.map (fun t => (mapGetD s.umap t, t)) ++ (topkLoop s.umap s.k_ s.pq []).2)
        = freshEntries s.umap ((s.top_k).1.map (fun t => (mapGetD s.umap t, t)))
          ++ freshEntries s.umap (topkLoop s.umap s.k_ s.pq []).2 := by
      unfold freshEntries
      rw [List.filter_append]
    have hf3 : freshEntries s.umap ((s.top_k).1.map (fun t => (mapGetD s.umap t, t)))
        = (s.top_k).1.map (fun t => (mapGetD s.umap t, t)) := by
      unfold freshEntries
      apply List.filter_eq_self.mpr
      intro a ha
      obtain ⟨t, _, rfl⟩ := List.mem_map.mp ha
      simp
    have hf4 : freshEntries s.umap (topkLoop s.umap s.k_ s.pq []).2
        = (freshEntries s.umap s.pq).drop s.k_ := by
      rw [h1b]
      simp
    rw [hf2, hf3, hf4, hpushed] at hf1
    have : (freshEntries s.umap s.pq).take s.k_ ++ (freshEntries s.umap s.pq).drop s.k_
        = freshEntries s.umap s.pq := List.take_append_drop _ _
    rw [this] at hf1
    exact hf1
  have hsorted2 : (((s.top_k).2).pq).Sorted entryDesc := top_k_sorted s hsort
  have instA : IsAntisymm (Int × String) entryDesc := ⟨entryDesc_antisymm⟩
  have heq : freshEntries s.umap (((s.top_k).2).pq) = freshEntries s.umap s.pq :=
    @List.eq_of_perm_of_sorted _ entryDesc instA _ _ hfresh2
      (freshEntries_sorted _ _ hsorted2) (freshEntries_sorted _ _ hsort)
  obtain ⟨h2a, _, _⟩ := topkLoop_spec s.umap s.k_ (((s.top_k).2).pq) []
  have hres2 : (((s.top_k).2).top_k).1
      = ((freshEntries s.umap (((s.top_k).2).pq)).take s.k_).map Prod.snd := by
    show (topkLoop (((s.top_k).2).umap) (((s.top_k).2).k_) (((s.top_k).2).pq) []).1 = _
    rw [humap2, hk2, h2a]
    simp
  rw [hres2, heq, hres1]

/-- C6: calling top_k twice in a row with no intervening register_plays
returns the same list of keys both times (in particular the same multiset):
the first call re-pushes each entry it returned, so the tracker still
yields an equal result on the second call. -/
theorem claim_C6_topk_idempotent (k : Nat) (ops : List TOp) :
    ((((TopSongs.run k ops).top_k).2).top_k).1 = (((TopSongs.run k ops).top_k)).1 :=
  topk_topk_of_sorted (TopSongs.run k ops) (run_sorted k ops)

/-! ## C4: the full TopSongs invariant -/

theorem mapFind_isSome_iff (m : List (String × Int)) (t : String) :
    (mapFind m t).isSome = true ↔ t ∈ m.map Prod.fst := by
  induction m with
  | nil => simp [mapFind]
  | cons p rest ih =>
    unfold mapFind
    by_cases hp : p.1 = t
    · rw [if_pos hp]
      simp [hp]
    · rw [if_neg hp, ih, List.map_cons]
      constructor
      · intro hh
        exact List.mem_cons_of_mem _ hh
      · intro hh
        rcases List.mem_cons.mp hh with he | hh2
        · exact absurd he.symm hp
        · exact hh2

theorem mapSet_keys_mem (m : List (String × Int)) (t : String) (v : Int)
    (hmem : t ∈ m.map Prod.fst) : (mapSet m t v).map Prod.fst = m.map Prod.fst := by
  induction m with
  | nil => simp at hmem
  | cons p rest ih =>
    unfold mapSet
    by_cases hp : p.1 = t
    · rw [if_pos hp]
      simp
    · rw [if_neg hp, List.map_cons, List.map_cons]
      rw [List.map_cons] at hmem
      rcases List.mem_cons.mp hmem with he | hh2
      · exact absurd he.symm hp
      · rw [ih hh2]

theorem mapSet_keys_new (m : List (String × Int)) (t : String) (v : Int)
    (hmem : t ∉ m.map Prod.fst) : (mapSet m t v).map Prod.fst = m.map Prod.fst ++ [t] := by
  induction m with
  | nil => simp [mapSet]
  | cons p rest ih =>
    unfold mapSet
    have hp : ¬ p.1 = t := fun hh =>
      hmem (by rw [List.map_cons, ← hh]; exact List.mem_cons_self _ _)
    rw [if_neg hp, List.map_cons, List.map_cons]
    rw [ih (fun hh => hmem (by rw [List.map_cons]; exact List.mem_cons_of_mem _ hh))]
    rfl

theorem mapGetD_mapSet_self (m : List (String × Int)) (t : String) (v : Int) :
    mapGetD (mapSet m t v) t = v := by
  unfold mapGetD
  rw [mapFind_mapSet_self]
  rfl

theorem mapGetD_mapSet_other (m : List (String × Int)) (t s : String) (v : Int) (hne : s ≠ t) :
    mapGetD (mapSet m t v) s = mapGetD m s := by
  unfold mapGetD
  rw [mapFind_mapSet_other _ _ _ _ hne]

theorem matchFind_eq_getD (m : List (String × Int)) (t : String) :
    (match mapFind m t with | some v => v | none => 0) = mapGetD m t := by
  unfold mapGetD
  cases mapFind m t <;> rfl

theorem pqPush_count (pq : List (Int × String)) (e x : Int × String) :
    (pqPush pq e).count x = ((e :: pq)).count x := by
  rw [List.count_eq_countP, List.count_eq_countP]
  exact (List.perm_orderedInsert entryDesc e pq).countP_eq _

theorem register_umap (s : TopSongs) (title : String) (c : Int) :
    (s.register_plays title c).umap = mapSet s.umap title (c + mapGetD s.umap title) := by
  show mapSet s.umap title
      (c + (match mapFind s.umap title with | some v => v | none => 0)) = _
  rw [matchFind_eq_getD]

theorem register_pq (s : TopSongs) (title : String) (c : Int) :
    (s.register_plays title c).pq = pqPush s.pq (c + mapGetD s.umap title, title) := by
  show pqPush s.pq
      ((c + (match mapFind s.umap title with | some v => v | none => 0)), title) = _
  rw [matchFind_eq_getD]

theorem register_k (s : TopSongs) (title : String) (c : Int) :
    (s.register_plays title c).k_ = s.k_ := rfl

theorem top_k_umap (s : TopSongs) : ((s.top_k).2).umap = s.umap := rfl

theorem top_k_k (s : TopSongs) : ((s.top_k).2).k_ = s.k_ := rfl

theorem mapFind_mem (m : List (String × Int)) (t : String) (v : Int)
    (h : mapFind m t = some v) : (t, v) ∈ m := by
  induction m with
  | nil => exact absurd h (by simp [mapFind])
  | cons p rest ih =>
    unfold mapFind at h
    by_cases hp : p.1 = t
    · rw [if_pos hp] at h
      obtain rfl := Option.some.inj h
      have : ((t : String), p.2) = p := by rw [← hp]
      rw [this]
      exact List.mem_cons_self _ _
    · rw [if_neg hp] at h
      exact List.mem_cons_of_mem _ (ih h)

theorem mem_mapFind (m : List (String × Int)) (t : String) (v : Int)
    (hnd : (m.map Prod.fst).Nodup) (h : (t, v) ∈ m) : mapFind m t = some v := by
  induction m with
  | nil => exact absurd h (List.not_mem_nil _)
  | cons p rest ih =>
    rw [List.map_cons] at hnd
    rcases List.mem_cons.mp h with heq | hin
    · unfold mapFind
      have hp : p.1 = t := by rw [← heq]
      rw [if_pos hp, ← heq]
    · unfold mapFind
      have hp : ¬ p.1 = t := by
        intro hh
        have hm2 : p.1 ∈ List.map Prod.fst rest := by
          rw [hh]
          exact List.mem_map.mpr ⟨(t, v), hin, rfl⟩
        exact (List.nodup_cons.mp hnd).1 hm2
      rw [if_neg hp]
      exact ih (List.nodup_cons.mp hnd).2 hin

/-- Registering c more plays for a title (c at least 1) makes its old fresh
entry stale and adds the new fresh entry: the fresh entries of the new
state are, up to permutation, the new entry followed by the old fresh
entries of the other titles. -/
theorem register_fresh_perm (s : TopSongs) (title : String) (c : Int)
    (hc : 1 ≤ c) (hdom : EntryDom s) :
    (freshEntries (s.register_plays title c).umap (s.register_plays title c).pq).Perm
      ((c + mapGetD s.umap title, title)
        :: (freshEntries s.umap s.pq).filter (fun e => !(e.2 == title))) := by
  rw [register_umap, register_pq]
  have h1 : (freshEntries (mapSet s.umap title (c + mapGetD s.umap title))
        (pqPush s.pq (c + mapGetD s.umap title, title))).Perm
      (freshEntries (mapSet s.umap title (c + mapGetD s.umap title))
        ((c + mapGetD s.umap title, title) :: s.pq)) :=
    List.Perm.filter _ (List.perm_orderedInsert entryDesc _ _)
  have h2 : freshEntries (mapSet s.umap title (c + mapGetD s.umap title))
        ((c + mapGetD s.umap title, title) :: s.pq)
      = (c + mapGetD s.umap title, title)
        :: freshEntries (mapSet s.umap title (c + mapGetD s.umap title)) s.pq := by
    unfold freshEntries
    have hfr : (mapGetD (mapSet s.umap title (c + mapGetD s.umap title))
        ((c + mapGetD s.umap title, title) : Int × String).2
        == ((c + mapGetD s.umap title, title) : Int × String).1) = true := by
      show (mapGetD (mapSet s.umap title (c + mapGetD s.umap title)) title
        == c + mapGetD s.umap title) = true
      rw [mapGetD_mapSet_self]
      exact beq_self_eq_true _
    rw [List.filter_cons, if_pos hfr]
  have h3 : freshEntries (mapSet s.umap title (c + mapGetD s.umap title)) s.pq
      = (freshEntries s.umap s.pq).filter (fun e => !(e.2 == title)) := by
    unfold freshEntries
    rw [List.filter_filter]
    apply List.filter_congr
    intro e he
    by_cases ht : e.2 = title
    · obtain ⟨v, hfind, hle⟩ := hdom e he
      have hget : mapGetD s.umap e.2 = v := mapGetD_of_find _ _ _ hfind
      have hLHS : (mapGetD (mapSet s.umap title (c + mapGetD s.umap title)) e.2
          == e.1) = false := by
        rw [ht, mapGetD_mapSet_self, beq_eq_false_iff_ne, ← ht, hget]
        omega
      have hbt : (e.2 == title) = true := beq_iff_eq.mpr ht
      rw [hLHS, hbt]
      rfl
    · have hb1 : mapGetD (mapSet s.umap title (c + mapGetD s.umap title)) e.2
          = mapGetD s.umap e.2 := mapGetD_mapSet_other _ _ _ _ ht
      have hb2 : (e.2 == title) = false := beq_eq_false_iff_ne.mpr ht
      rw [hb1, hb2]
      rfl
  rw [h2, h3] at h1
  exact h1

theorem register_FreshTitles (s : TopSongs) (title : String) (c : Int)
    (hc : 1 ≤ c) (hdom : EntryDom s) (hft : FreshTitles s) :
    FreshTitles (s.register_plays title c) := by
  unfold FreshTitles at hft ⊢
  have hsymm : ∀ {x y : Int × String}, x.2 ≠ y.2 → y.2 ≠ x.2 := fun h => Ne.symm h
  rw [List.Perm.pairwise_iff hsymm (register_fresh_perm s title c hc hdom)]
  constructor
  · intro b hb
    have hmf := List.mem_filter.mp hb
    have hne : b.2 ≠ title := by simpa using hmf.2
    exact fun hcontr => hne hcontr.symm
  · exact List.Pairwise.sublist (List.filter_sublist _) hft

theorem register_EntryDom (s : TopSongs) (title : String) (c : Int)
    (hc : 1 ≤ c) (hdom : EntryDom s) : EntryDom (s.register_plays title c) := by
  intro e he
  rw [register_pq] at he
  rw [register_umap]
  have hmem : e ∈ (c + mapGetD s.umap title, title) :: s.pq :=
    (List.perm_orderedInsert entryDesc _ _).mem_iff.mp he
  rcases List.mem_cons.mp hmem with heq | hin
  · subst heq
    refine ⟨c + mapGetD s.umap title, ?_, le_refl _⟩
    show mapFind (mapSet s.umap title (c + mapGetD s.umap title)) title
      = some (c + mapGetD s.umap title)
    exact mapFind_mapSet_self _ _ _
  · obtain ⟨v, hfind, hle⟩ := hdom e hin
    by_cases ht : e.2 = title
    · refine ⟨c + mapGetD s.umap title, ?_, ?_⟩
      · rw [ht]
        exact mapFind_mapSet_self _ _ _
      · have hget : mapGetD s.umap title = v := by
          rw [← ht]
          exact mapGetD_of_find _ _ _ hfind
        omega
    · exact ⟨v, by rw [mapFind_mapSet_other _ _ _ _ ht]; exact hfind, hle⟩

theorem register_KeysNodup (s : TopSongs) (title : String) (c : Int)
    (h : KeysNodup s) : KeysNodup (s.register_plays title c) := by
  unfold KeysNodup at h ⊢
  rw [register_umap]
  by_cases hmem : title ∈ s.umap.map Prod.fst
  · rw [mapSet_keys_mem _ _ _ hmem]
    exact h
  · rw [mapSet_keys_new _ _ _ hmem, List.nodup_append]
    refine ⟨h, List.nodup_singleton _, ?_⟩
    intro a ha hb
    rw [List.mem_singleton] at hb
    subst hb
    exact hmem ha

/-- The heap after top_k is, up to permutation, the re-pushed entries of
the returned titles followed by the loop's remainder. -/
theorem top_k_pq_perm (s : TopSongs) :
    (((s.top_k).2).pq).Perm
      ((s.top_k).1.map (fun t => (mapGetD s.umap t, t))
        ++ (topkLoop s.umap s.k_ s.pq []).2) := by
  show (List.foldl (fun pq u => pqPush pq (mapGetD s.umap u, u))
      (topkLoop s.umap s.k_ s.pq []).2 (topkLoop s.umap s.k_ s.pq []).1).Perm _
  exact foldl_pqPush_perm _ _ _

/-- The titles returned by top_k are the titles of the first k_ fresh heap
entries, in heap order. -/
theorem top_k_res_eq (s : TopSongs) :
    (s.top_k).1 = ((freshEntries s.umap s.pq).take s.k_).map Prod.snd := by
  obtain ⟨h1a, _, _⟩ := topkLoop_spec s.umap s.k_ s.pq []
  show (topkLoop s.umap s.k_ s.pq []).1 = _
  rw [h1a]
  simp

theorem top_k_EntryDom (s : TopSongs) (hdom : EntryDom s) : EntryDom ((s.top_k).2) := by
  intro e he
  rw [top_k_umap]
  have hmem := (top_k_pq_perm s).mem_iff.mp he
  rcases List.mem_append.mp hmem with hl | hr
  · obtain ⟨t, ht, rfl⟩ := List.mem_map.mp hl
    rw [top_k_res_eq] at ht
    obtain ⟨a, ha, hsnd⟩ := List.mem_map.mp ht
    have haf : a ∈ freshEntries s.umap s.pq := List.take_subset _ _ ha
    obtain ⟨hfr, hpq⟩ := freshEntries_mem _ _ _ haf
    obtain ⟨v, hfind, _⟩ := hdom a hpq
    refine ⟨v, ?_, ?_⟩
    · show mapFind s.umap t = some v
      rw [← hsnd]
      exact hfind
    · show mapGetD s.umap t ≤ v
      rw [← hsnd, mapGetD_of_find _ _ _ hfind]
  · have hsub : (topkLoop s.umap s.k_ s.pq []).2.Sublist s.pq :=
      (topkLoop_spec s.umap s.k_ s.pq []).2.2
    exact hdom e (hsub.subset hr)

/-- top_k preserves the fresh entries of the heap up to permutation: the
loop drops the first k_ of them and the re-push restores exactly those. -/
theorem top_k_fresh_perm (s : TopSongs) :
    (freshEntries s.umap (((s.top_k).2).pq)).Perm (freshEntries s.umap s.pq) := by
  obtain ⟨h1a, h1b, h1c⟩ := topkLoop_spec s.umap s.k_ s.pq []
  have hpushed : (s.top_k).1.map (fun t => (mapGetD s.umap t, t))
      = (freshEntries s.umap s.pq).take s.k_ := by
    rw [top_k_res_eq]
    apply map_snd_fresh_id
    intro e he
    exact (freshEntries_mem s.umap s.pq e (List.take_subset _ _ he)).1
  have hf1 : (freshEntries s.umap (((s.top_k).2).pq)).Perm
      (freshEntries s.umap
        ((s.top_k).1.map (fun t => (mapGetD s.umap t, t))
          ++ (topkLoop s.umap s.k_ s.pq []).2)) :=
    List.Perm.filter _ (top_k_pq_perm s)
  have hf2 : freshEntries s.umap
      ((s.top_k).1.map (fun t => (mapGetD s.umap t, t))
        ++ (topkLoop s.umap s.k_ s.pq []).2)
      = freshEntries s.umap ((s.top_k).1.map (fun t => (mapGetD s.umap t, t)))
        ++ freshEntries s.umap (topkLoop s.umap s.k_ s.pq []).2 := by
    unfold freshEntries
    rw [List.filter_append]
  have hf3 : freshEntries s.umap ((s.top_k).1.map (fun t => (mapGetD s.umap t, t)))
      = (s.top_k).1.map (fun t => (mapGetD s.umap t, t)) := by
    unfold freshEntries
    apply List.filter_eq_self.mpr
    intro a ha
    obtain ⟨t, _, rfl⟩ := List.mem_map.mp ha
    simp
  have hf4 : freshEntries s.umap (topkLoop s.umap s.k_ s.pq []).2
      = (freshEntries s.umap s.pq).drop s.k_ := by
    rw [h1b]
    simp
  rw [hf2, hf3, hf4, hpushed] at hf1
  have ht : (freshEntries s.umap s.pq).take s.k_ ++ (freshEntries s.umap s.pq).drop s.k_
      = freshEntries s.umap s.pq := List.take_append_drop _ _
  rw [ht] at hf1
  exact hf1

theorem top_k_FreshTitles (s : TopSongs) (hft : FreshTitles s) : FreshTitles ((s.top_k).2) := by
  unfold FreshTitles at hft ⊢
  have hsymm : ∀ {x y : Int × String}, x.2 ≠ y.2 → y.2 ≠ x.2 := fun h => Ne.symm h
  rw [top_k_umap]
  rw [List.Perm.pairwise_iff hsymm (top_k_fresh_perm s)]
  exact hft

theorem top_k_KeysNodup (s : TopSongs) (h : KeysNodup s) : KeysNodup ((s.top_k).2) := by
  unfold KeysNodup at h ⊢
  rw [top_k_umap]
  exact h

/-- All three structural invariants hold at every reachable TopSongs state,
provided every registration carries at least one play. -/
theorem run_TkInv (k : Nat) (ops : List TOp) (hpos : regAmountsPos ops) :
    KeysNodup (TopSongs.run k ops) ∧ EntryDom (TopSongs.run k ops)
      ∧ FreshTitles (TopSongs.run k ops) := by
  have hgen : ∀ (l : List TOp) (s : TopSongs), regAmountsPos l →
      KeysNodup s → EntryDom s → FreshTitles s →
      KeysNodup (l.foldl TopSongs.applyOp s) ∧ EntryDom (l.foldl TopSongs.applyOp s)
        ∧ FreshTitles (l.foldl TopSongs.applyOp s) := by
    intro l
    induction l with
    | nil => intro s _ h1 h2 h3; exact ⟨h1, h2, h3⟩
    | cons op rest ih =>
      intro s hpos h1 h2 h3
      have hpos' : regAmountsPos rest := fun t c h => hpos t c (List.mem_cons_of_mem _ h)
      cases op with
      | reg t c =>
        have hc : 1 ≤ c := hpos t c (List.mem_cons_self _ _)
        exact ih _ hpos' (register_KeysNodup s t c h1)
          (register_EntryDom s t c hc h2) (register_FreshTitles s t c hc h2 h3)
      | query =>
        exact ih _ hpos' (top_k_KeysNodup s h1) (top_k_EntryDom s h2) (top_k_FreshTitles s h3)
  have hinit1 : KeysNodup (TopSongs.init k) := List.nodup_nil
  have hinit2 : EntryDom (TopSongs.init k) := fun e he => absurd he (List.not_mem_nil _)
  have hinit3 : FreshTitles (TopSongs.init k) := List.Pairwise.nil
  exact hgen ops (TopSongs.init k) hpos hinit1 hinit2 hinit3

theorem run_k_eq (k : Nat) (ops : List TOp) : (TopSongs.run k ops).k_ = k := by
  have hgen : ∀ (l : List TOp) (s : TopSongs), (l.foldl TopSongs.applyOp s).k_ = s.k_ := by
    intro l
    induction l with
    | nil => intro s; rfl
    | cons op rest ih =>
      intro s
      rw [List.foldl_cons, ih]
      cases op with
      | reg t c => rfl
      | query => rfl
  exact hgen ops (TopSongs.init k)

theorem fresh_nodup (s : TopSongs) (hft : FreshTitles s) :
    (freshEntries s.umap s.pq).Nodup := by
  unfold FreshTitles at hft
  exact hft.imp (fun h hcontr => h (congrArg Prod.snd hcontr))

theorem keys_swap_nodup (m : List (String × Int)) (h : (m.map Prod.fst).Nodup) :
    (m.map (fun p => (p.2, p.1))).Nodup := by
  apply List.Nodup.of_map Prod.snd
  rw [List.map_map]
  exact h

/-- With all four invariants, the fresh entries of the heap are exactly the
(current total, key) pairs of the authoritative map, up to permutation. -/
theorem fresh_perm_keys (s : TopSongs) (hk : KeysNodup s) (hdom : EntryDom s)
    (hfi : FreshInv s) (hft : FreshTitles s) :
    (freshEntries s.umap s.pq).Perm (s.umap.map (fun p => (p.2, p.1))) := by
  apply List.perm_of_nodup_nodup_toFinset_eq (fresh_nodup s hft) (keys_swap_nodup _ hk)
  apply Finset.ext
  intro a
  rw [List.mem_toFinset, List.mem_toFinset]
  constructor
  · intro ha
    obtain ⟨hfr, hpq⟩ := freshEntries_mem _ _ _ ha
    obtain ⟨v, hfind, _⟩ := hdom a hpq
    have hv : a.1 = v := by rw [← hfr, mapGetD_of_find _ _ _ hfind]
    refine List.mem_map.mpr ⟨(a.2, v), mapFind_mem _ _ _ hfind, ?_⟩
    show ((v : Int), a.2) = a
    rw [← hv]
  · intro ha
    obtain ⟨p, hp, rfl⟩ := List.mem_map.mp ha
    have hfind : mapFind s.umap p.1 = some p.2 := mem_mapFind _ _ _ hk hp
    have hmem : (p.2, p.1) ∈ s.pq := hfi p.1 p.2 hfind
    unfold freshEntries
    apply List.mem_filter.mpr
    refine ⟨hmem, ?_⟩
    show (mapGetD s.umap ((p.2, p.1) : Int × String).2 == ((p.2, p.1) : Int × String).1) = true
    rw [beq_iff_eq]
    show mapGetD s.umap p.1 = p.2
    exact mapGetD_of_find _ _ _ hfind

/-- In descending entry order, an entry that is not below another has the
larger (or equal) score. -/
theorem entryDesc_fst (a b : Int × String) (h : entryDesc a b) : b.1 ≤ a.1 := by
  unfold entryDesc entryLtB at h
  by_cases hab : a.1 < b.1
  · rw [if_pos hab] at h
    exact absurd h (by decide)
  · omega

/-- The one-state top_k specification: under the structural invariants, the
returned titles are distinct registered keys, min(k_, #keys) many, and
every returned key's current total dominates every non-returned key's. -/
theorem topk_state_spec (s : TopSongs) (hk : KeysNodup s) (hdom : EntryDom s)
    (hfi : FreshInv s) (hft : FreshTitles s) (hsort : s.pq.Sorted entryDesc) :
    ((s.top_k).1).Nodup
      ∧ ((s.top_k).1).length = min s.k_ s.umap.length
      ∧ (∀ t, t ∈ (s.top_k).1 → t ∈ s.umap.map Prod.fst)
      ∧ (∀ t u, t ∈ (s.top_k).1 → u ∈ s.umap.map Prod.fst → u ∉ (s.top_k).1 →
          mapGetD s.umap u ≤ mapGetD s.umap t) := by
  have hres : (s.top_k).1 = ((freshEntries s.umap s.pq).take s.k_).map Prod.snd :=
    top_k_res_eq s
  have hpermF : (freshEntries s.umap s.pq).Perm (s.umap.map (fun p => (p.2, p.1))) :=
    fresh_perm_keys s hk hdom hfi hft
  have hlenF : (freshEntries s.umap s.pq).length = s.umap.length := by
    rw [hpermF.length_eq, List.length_map]
  refine ⟨?_, ?_, ?_, ?_⟩
  · rw [hres]
    exact List.pairwise_map.mpr (List.Pairwise.sublist (List.take_sublist _ _) hft)
  · rw [hres, List.length_map, List.length_take, hlenF]
  · intro t ht
    rw [hres] at ht
    obtain ⟨a, ha, hsnd⟩ := List.mem_map.mp ht
    obtain ⟨hfr, hpq⟩ := freshEntries_mem _ _ _ (List.take_subset _ _ ha)
    obtain ⟨v, hfind, _⟩ := hdom a hpq
    have hsome : (mapFind s.umap a.2).isSome = true := by
      rw [hfind]
      rfl
    have hkey := (mapFind_isSome_iff _ _).mp hsome
    rw [hsnd] at hkey
    exact hkey
  · intro t u ht hu hnu
    obtain ⟨vu, hfu⟩ := Option.isSome_iff_exists.mp ((mapFind_isSome_iff _ _).mpr hu)
    have hfreshu : ((vu : Int), u) ∈ freshEntries s.umap s.pq := by
      unfold freshEntries
      apply List.mem_filter.mpr
      refine ⟨hfi u vu hfu, ?_⟩
      show (mapGetD s.umap ((vu, u) : Int × String).2 == ((vu, u) : Int × String).1) = true
      rw [beq_iff_eq]
      show mapGetD s.umap u = vu
      exact mapGetD_of_find _ _ _ hfu
    have hsplit : (freshEntries s.umap s.pq).take s.k_
        ++ (freshEntries s.umap s.pq).drop s.k_ = freshEntries s.umap s.pq :=
      List.take_append_drop _ _
    rw [← hsplit] at hfreshu
    rcases List.mem_append.mp hfreshu with htake | hdrop
    · exfalso
      apply hnu
      rw [hres]
      exact List.mem_map.mpr ⟨(vu, u), htake, rfl⟩
    · have hsorted : (freshEntries s.umap s.pq).Sorted entryDesc :=
        freshEntries_sorted _ _ hsort
      rw [← hsplit] at hsorted
      have hcross := (List.pairwise_append.mp hsorted).2.2
      rw [hres] at ht
      obtain ⟨a, hatake, hsnd⟩ := List.mem_map.mp ht
      have hdesc := hcross a hatake _ hdrop
      have hle : vu ≤ a.1 := entryDesc_fst _ _ hdesc
      obtain ⟨hfr, _⟩ := freshEntries_mem _ _ _ (List.take_subset _ _ hatake)
      rw [mapGetD_of_find _ _ _ hfu, ← hsnd, hfr]
      exact hle

/-- C4: when every registration carries at least one play, the keys that
top_k returns at any reachable tracker state are pairwise distinct
registered keys, exactly min(k, number of registered keys) many, and each
is selected by its current cumulative total: every returned key's current
total in the authoritative map is at least the current total of every
registered key that is not returned, so a stale superseded score never
determines the selection. -/
theorem claim_C4_topk_current_totals (k : Nat) (ops : List TOp)
    (hpos : regAmountsPos ops) :
    (((TopSongs.run k ops).top_k).1).Nodup
      ∧ (((TopSongs.run k ops).top_k).1).length
          = min k (TopSongs.run k ops).umap.length
      ∧ (∀ t, t ∈ ((TopSongs.run k ops).top_k).1 →
          t ∈ (TopSongs.run k ops).umap.map Prod.fst)
      ∧ (∀ t u, t ∈ ((TopSongs.run k ops).top_k).1 →
          u ∈ (TopSongs.run k ops).umap.map Prod.fst →
          u ∉ ((TopSongs.run k ops).top_k).1 →
          mapGetD (TopSongs.run k ops).umap u ≤ mapGetD (TopSongs.run k ops).umap t) := by
  obtain ⟨hk, hdom, hft⟩ := run_TkInv k ops hpos
  have hfi : FreshInv (TopSongs.run k ops) := by
    apply run_FreshInv
    intro t v hfind
    exact absurd hfind (by simp [TopSongs.init, mapFind])
  have h := topk_state_spec (TopSongs.run k ops) hk hdom hfi hft (run_sorted k ops)
  rw [run_k_eq] at h
  exact h

/-- Witness for C4: k = 1 with registrations A:100, B:150, A:193, where A's
cumulative total 293 beats B's 150 although both of A's individual scores
bracket it. -/
theorem claim_C4_topk_current_totals_witness :
    regAmountsPos [TOp.reg "A" 100, TOp.reg "B" 150, TOp.reg "A" 193]
      ∧ ((((TopSongs.run 1 [TOp.reg "A" 100, TOp.reg "B" 150,
              TOp.reg "A" 193]).top_k).1).Nodup
        ∧ (((TopSongs.run 1 [TOp.reg "A" 100, TOp.reg "B" 150,
              TOp.reg "A" 193]).top_k).1).length
            = min 1 (TopSongs.run 1 [TOp.reg "A" 100, TOp.reg "B" 150,
              TOp.reg "A" 193]).umap.length
        ∧ (∀ t, t ∈ ((TopSongs.run 1 [TOp.reg "A" 100, TOp.reg "B" 150,
              TOp.reg "A" 193]).top_k).1 →
            t ∈ (TopSongs.run 1 [TOp.reg "A" 100, TOp.reg "B" 150,
              TOp.reg "A" 193]).umap.map Prod.fst)
        ∧ (∀ t u, t ∈ ((TopSongs.run 1 [TOp.reg "A" 100, TOp.reg "B" 150,
              TOp.reg "A" 193]).top_k).1 →
            u ∈ (TopSongs.run 1 [TOp.reg "A" 100, TOp.reg "B" 150,
              TOp.reg "A" 193]).umap.map Prod.fst →
            u ∉ ((TopSongs.run 1 [TOp.reg "A" 100, TOp.reg "B" 150,
              TOp.reg "A" 193]).top_k).1 →
            mapGetD (TopSongs.run 1 [TOp.reg "A" 100, TOp.reg "B" 150,
                TOp.reg "A" 193]).umap u
              ≤ mapGetD (TopSongs.run 1 [TOp.reg "A" 100, TOp.reg "B" 150,
                TOp.reg "A" 193]).umap t)) :=
  have hpos : regAmountsPos [TOp.reg "A" 100, TOp.reg "B" 150, TOp.reg "A" 193] := by
    intro t c h
    rcases List.mem_cons.mp h with he | h
    · injection he with h1 h2
      omega
    · rcases List.mem_cons.mp h with he | h
      · injection he with h1 h2
        omega
      · rcases List.mem_cons.mp h with he | h
        · injection he with h1 h2
          omega
        · exact absurd h (List.not_mem_nil _)
  ⟨hpos, claim_C4_topk_current_totals 1
    [TOp.reg "A" 100, TOp.reg "B" 150, TOp.reg "A" 193] hpos⟩

/-! ## C7: the two-heap median tracker -/

/-- register_plays written out without the intermediate lets. -/
theorem register_plays_eq (p : PopularSongs) (title : String) (plays : Int) :
    p.register_plays title plays
      = if (insertDesc plays p.max_pq).tail.length
            < (insertAsc ((insertDesc plays p.max_pq).headD 0) p.min_pq).length then
          ⟨mapSet p.umap title plays,
            insertDesc ((insertAsc ((insertDesc plays p.max_pq).headD 0) p.min_pq).headD 0)
              (insertDesc plays p.max_pq).tail,
            (insertAsc ((insertDesc plays p.max_pq).headD 0) p.min_pq).tail⟩
        else
          ⟨mapSet p.umap title plays, (insertDesc plays p.max_pq).tail,
            insertAsc ((insertDesc plays p.max_pq).headD 0) p.min_pq⟩ := rfl

theorem insertDesc_length (x : Int) (l : List Int) :
    (insertDesc x l).length = l.length + 1 := by
  unfold insertDesc
  rw [(List.perm_orderedInsert _ _ _).length_eq]
  rfl

theorem insertAsc_length (x : Int) (l : List Int) :
    (insertAsc x l).length = l.length + 1 := by
  unfold insertAsc
  rw [(List.perm_orderedInsert _ _ _).length_eq]
  rfl

theorem insertDesc_ne_nil (x : Int) (l : List Int) : insertDesc x l ≠ [] := by
  intro h
  have hl := insertDesc_length x l
  rw [h] at hl
  simp at hl

theorem insertAsc_ne_nil (x : Int) (l : List Int) : insertAsc x l ≠ [] := by
  intro h
  have hl := insertAsc_length x l
  rw [h] at hl
  simp at hl

theorem insertDesc_sorted (x : Int) (l : List Int)
    (h : l.Sorted (fun a b : Int => b ≤ a)) :
    (insertDesc x l).Sorted (fun a b : Int => b ≤ a) :=
  List.Sorted.orderedInsert x l h

theorem insertAsc_sorted (x : Int) (l : List Int)
    (h : l.Sorted (fun a b : Int => a ≤ b)) :
    (insertAsc x l).Sorted (fun a b : Int => a ≤ b) :=
  List.Sorted.orderedInsert x l h

theorem cons_headD_tail (l : List Int) (hne : l ≠ []) : l = l.headD 0 :: l.tail := by
  cases l with
  | nil => exact absurd rfl hne
  | cons a t => rfl

theorem headD_eq_getD (l : List Int) : l.headD 0 = l.getD 0 0 := by
  cases l with
  | nil => rfl
  | cons a t => rfl

theorem sorted_desc_head_ge (l : List Int) (hs : l.Sorted (fun a b : Int => b ≤ a))
    (a : Int) (ha : a ∈ l.tail) : a ≤ l.headD 0 := by
  cases l with
  | nil => exact absurd ha (List.not_mem_nil _)
  | cons x t => exact (List.sorted_cons.mp hs).1 a ha

theorem sorted_asc_head_le (l : List Int) (hs : l.Sorted (fun a b : Int => a ≤ b))
    (a : Int) (ha : a ∈ l.tail) : l.headD 0 ≤ a := by
  cases l with
  | nil => exact absurd ha (List.not_mem_nil _)
  | cons x t => exact (List.sorted_cons.mp hs).1 a ha

theorem sorted_tail_desc (l : List Int) (hs : l.Sorted (fun a b : Int => b ≤ a)) :
    l.tail.Sorted (fun a b : Int => b ≤ a) := by
  cases l with
  | nil => exact List.sorted_nil
  | cons a t => exact (List.sorted_cons.mp hs).2

theorem sorted_tail_asc (l : List Int) (hs : l.Sorted (fun a b : Int => a ≤ b)) :
    l.tail.Sorted (fun a b : Int => a ≤ b) := by
  cases l with
  | nil => exact List.sorted_nil
  | cons a t => exact (List.sorted_cons.mp hs).2

/-- The key partition step: after pushing x on the lower heap, every
element left in its tail is at most every element of the upper heap. -/
theorem moved_cross_le (maxl minl : List Int) (x a b : Int)
    (h3 : ∀ a ∈ maxl, ∀ c ∈ minl, a ≤ c)
    (hsA : (insertDesc x maxl).Sorted (fun a b : Int => b ≤ a))
    (ha : a ∈ (insertDesc x maxl).tail) (hb : b ∈ minl) : a ≤ b := by
  have hAne := insertDesc_ne_nil x maxl
  have hdec := cons_headD_tail _ hAne
  have haA : a ∈ insertDesc x maxl := by
    rw [hdec]
    exact List.mem_cons_of_mem _ ha
  rcases List.mem_cons.mp ((List.perm_orderedInsert _ x maxl).mem_iff.mp haA)
    with hax | hamax
  · by_cases hxb : a ≤ b
    · exact hxb
    · exfalso
      have hxA : x ∈ (insertDesc x maxl).tail := hax ▸ ha
      have hhead : (insertDesc x maxl).headD 0 ∈ insertDesc x maxl := by
        rw [hdec]
        exact List.mem_cons_self _ _
      rcases List.mem_cons.mp ((List.perm_orderedInsert _ x maxl).mem_iff.mp hhead)
        with hhx | hhmax
      · have h1 : 0 < (insertDesc x maxl).tail.count x := List.count_pos_iff.mpr hxA
        have h2 : (insertDesc x maxl).count x
            = (insertDesc x maxl).tail.count x + 1 := by
          conv_lhs => rw [hdec, hhx]
          rw [List.count_cons_self]
        have hce : (insertDesc x maxl).count x = (x :: maxl).count x :=
          (List.perm_orderedInsert _ x maxl).count_eq x
        rw [List.count_cons_self] at hce
        have h4 : 0 < maxl.count x := by omega
        have hxle : x ≤ b := h3 x (List.count_pos_iff.mp h4) b hb
        omega
      · have hah : a ≤ (insertDesc x maxl).headD 0 := sorted_desc_head_ge _ hsA a ha
        have hhb : (insertDesc x maxl).headD 0 ≤ b := h3 _ hhmax b hb
        omega
  · exact h3 a hamax b hb

/-- One register_plays call preserves the two-heap invariant and adds the
new play count to the combined multiset. -/
theorem register_step (p : PopularSongs) (t : String) (x : Int)
    (h1 : p.max_pq.Sorted (fun a b : Int => b ≤ a))
    (h2 : p.min_pq.Sorted (fun a b : Int => a ≤ b))
    (h3 : ∀ a ∈ p.max_pq, ∀ b ∈ p.min_pq, a ≤ b)
    (h4 : p.min_pq.length ≤ p.max_pq.length)
    (h5 : p.max_pq.length ≤ p.min_pq.length + 1) :
    ((p.register_plays t x).max_pq.Sorted (fun a b : Int => b ≤ a))
      ∧ ((p.register_plays t x).min_pq.Sorted (fun a b : Int => a ≤ b))
      ∧ (∀ a ∈ (p.register_plays t x).max_pq, ∀ b ∈ (p.register_plays t x).min_pq, a ≤ b)
      ∧ (p.register_plays t x).min_pq.length ≤ (p.register_plays t x).max_pq.length
      ∧ (p.register_plays t x).max_pq.length ≤ (p.register_plays t x).min_pq.length + 1
      ∧ ((p.register_plays t x).max_pq ++ (p.register_plays t x).min_pq).Perm
          (x :: (p.max_pq ++ p.min_pq)) := by
  have hsA : (insertDesc x p.max_pq).Sorted (fun a b : Int => b ≤ a) :=
    insertDesc_sorted x _ h1
  have hsAt : (insertDesc x p.max_pq).tail.Sorted (fun a b : Int => b ≤ a) :=
    sorted_tail_desc _ hsA
  have hsmA : (insertAsc ((insertDesc x p.max_pq).headD 0) p.min_pq).Sorted
      (fun a b : Int => a ≤ b) := insertAsc_sorted _ _ h2
  have hsmAt : (insertAsc ((insertDesc x p.max_pq).headD 0) p.min_pq).tail.Sorted
      (fun a b : Int => a ≤ b) := sorted_tail_asc _ hsmA
  have eA : (insertDesc x p.max_pq).length = p.max_pq.length + 1 := insertDesc_length _ _
  have emA : (insertAsc ((insertDesc x p.max_pq).headD 0) p.min_pq).length
      = p.min_pq.length + 1 := insertAsc_length _ _
  have eAt : (insertDesc x p.max_pq).tail.length = (insertDesc x p.max_pq).length - 1 :=
    List.length_tail _
  have emAt : (insertAsc ((insertDesc x p.max_pq).headD 0) p.min_pq).tail.length
      = (insertAsc ((insertDesc x p.max_pq).headD 0) p.min_pq).length - 1 :=
    List.length_tail _
  have hAmA : ∀ a ∈ (insertDesc x p.max_pq).tail,
      ∀ b ∈ insertAsc ((insertDesc x p.max_pq).headD 0) p.min_pq, a ≤ b := by
    intro a ha b hb
    rcases List.mem_cons.mp
        ((List.perm_orderedInsert _ ((insertDesc x p.max_pq).headD 0) p.min_pq).mem_iff.mp hb)
      with hbh | hbmin
    · rw [hbh]
      exact sorted_desc_head_ge _ hsA a ha
    · exact moved_cross_le p.max_pq p.min_pq x a b h3 hsA ha hbmin
  have htailperm : ((insertDesc x p.max_pq).tail
        ++ insertAsc ((insertDesc x p.max_pq).headD 0) p.min_pq).Perm
      (x :: (p.max_pq ++ p.min_pq)) := by
    refine (List.Perm.append_left _ (List.perm_orderedInsert _ _ _)).trans ?_
    refine List.perm_middle.trans ?_
    rw [← List.cons_append, ← cons_headD_tail _ (insertDesc_ne_nil x p.max_pq)]
    exact List.Perm.append_right _ (List.perm_orderedInsert _ _ _)
  rw [register_plays_eq]
  split_ifs with hcond
  · refine ⟨?_, ?_, ?_, ?_, ?_, ?_⟩
    · show (insertDesc ((insertAsc ((insertDesc x p.max_pq).headD 0) p.min_pq).headD 0)
          (insertDesc x p.max_pq).tail).Sorted (fun a b : Int => b ≤ a)
      exact insertDesc_sorted _ _ hsAt
    · show ((insertAsc ((insertDesc x p.max_pq).headD 0) p.min_pq).tail).Sorted
          (fun a b : Int => a ≤ b)
      exact hsmAt
    · intro a ha b hb
      rcases List.mem_cons.mp
          ((List.perm_orderedInsert (fun a b : Int => b ≤ a)
            ((insertAsc ((insertDesc x p.max_pq).headD 0) p.min_pq).headD 0)
            ((insertDesc x p.max_pq).tail)).mem_iff.mp ha) with ham | hat
      · rw [ham]
        exact sorted_asc_head_le _ hsmA b hb
      · refine hAmA a hat b ?_
        rw [cons_headD_tail _ (insertAsc_ne_nil _ _)]
        exact List.mem_cons_of_mem _ hb
    · show ((insertAsc ((insertDesc x p.max_pq).headD 0) p.min_pq).tail).length
          ≤ (insertDesc ((insertAsc ((insertDesc x p.max_pq).headD 0) p.min_pq).headD 0)
            (insertDesc x p.max_pq).tail).length
      rw [insertDesc_length]
      omega
    · show (insertDesc ((insertAsc ((insertDesc x p.max_pq).headD 0) p.min_pq).headD 0)
          (insertDesc x p.max_pq).tail).length
          ≤ ((insertAsc ((insertDesc x p.max_pq).headD 0) p.min_pq).tail).length + 1
      rw [insertDesc_length]
      omega
    · show ((insertDesc ((insertAsc ((insertDesc x p.max_pq).headD 0) p.min_pq).headD 0)
            (insertDesc x p.max_pq).tail)
          ++ ((insertAsc ((insertDesc x p.max_pq).headD 0) p.min_pq).tail)).Perm
          (x :: (p.max_pq ++ p.min_pq))
      refine (List.Perm.append_right _ (List.perm_orderedInsert _ _ _)).trans ?_
      refine (List.perm_middle).symm.trans ?_
      rw [← cons_headD_tail _ (insertAsc_ne_nil ((insertDesc x p.max_pq).headD 0) p.min_pq)]
      exact htailperm
  · refine ⟨?_, ?_, ?_, ?_, ?_, ?_⟩
    · show ((insertDesc x p.max_pq).tail).Sorted (fun a b : Int => b ≤ a)
      exact hsAt
    · show (insertAsc ((insertDesc x p.max_pq).headD 0) p.min_pq).Sorted
          (fun a b : Int => a ≤ b)
      exact hsmA
    · intro a ha b hb
      exact hAmA a ha b hb
    · show (insertAsc ((insertDesc x p.max_pq).headD 0) p.min_pq).length
          ≤ ((insertDesc x p.max_pq).tail).length
      omega
    · show ((insertDesc x p.max_pq).tail).length
          ≤ (insertAsc ((insertDesc x p.max_pq).headD 0) p.min_pq).length + 1
      omega
    · show (((insertDesc x p.max_pq).tail)
          ++ (insertAsc ((insertDesc x p.max_pq).headD 0) p.min_pq)).Perm
          (x :: (p.max_pq ++ p.min_pq))
      exact htailperm

/-- The two-heap invariant holds at every reachable PopularSongs state, and
the heaps together hold exactly the registered play counts. -/
theorem runRegs_inv (ps : List (String × Int)) :
    ((PopularSongs.runRegs ps).max_pq.Sorted (fun a b : Int => b ≤ a))
      ∧ ((PopularSongs.runRegs ps).min_pq.Sorted (fun a b : Int => a ≤ b))
      ∧ (∀ a ∈ (PopularSongs.runRegs ps).max_pq,
          ∀ b ∈ (PopularSongs.runRegs ps).min_pq, a ≤ b)
      ∧ (PopularSongs.runRegs ps).min_pq.length ≤ (PopularSongs.runRegs ps).max_pq.length
      ∧ (PopularSongs.runRegs ps).max_pq.length
          ≤ (PopularSongs.runRegs ps).min_pq.length + 1
      ∧ ((PopularSongs.runRegs ps).max_pq ++ (PopularSongs.runRegs ps).min_pq).Perm
          (ps.map Prod.snd) := by
  have hgen : ∀ (l : List (String × Int)) (s : PopularSongs),
      s.max_pq.Sorted (fun a b : Int => b ≤ a) →
      s.min_pq.Sorted (fun a b : Int => a ≤ b) →
      (∀ a ∈ s.max_pq, ∀ b ∈ s.min_pq, a ≤ b) →
      s.min_pq.length ≤ s.max_pq.length →
      s.max_pq.length ≤ s.min_pq.length + 1 →
      ((l.foldl (fun s q => s.register_plays q.1 q.2) s).max_pq.Sorted
          (fun a b : Int => b ≤ a))
        ∧ ((l.foldl (fun s q => s.register_plays q.1 q.2) s).min_pq.Sorted
            (fun a b : Int => a ≤ b))
        ∧ (∀ a ∈ (l.foldl (fun s q => s.register_plays q.1 q.2) s).max_pq,
            ∀ b ∈ (l.foldl (fun s q => s.register_plays q.1 q.2) s).min_pq, a ≤ b)
        ∧ (l.foldl (fun s q => s.register_plays q.1 q.2) s).min_pq.length
            ≤ (l.foldl (fun s q => s.register_plays q.1 q.2) s).max_pq.length
        ∧ (l.foldl (fun s q => s.register_plays q.1 q.2) s).max_pq.length
            ≤ (l.foldl (fun s q => s.register_plays q.1 q.2) s).min_pq.length + 1
        ∧ ((l.foldl (fun s q => s.register_plays q.1 q.2) s).max_pq
            ++ (l.foldl (fun s q => s.register_plays q.1 q.2) s).min_pq).Perm
            (l.map Prod.snd ++ (s.max_pq ++ s.min_pq)) := by
    intro l
    induction l with
    | nil =>
      intro s hs1 hs2 hs3 hs4 hs5
      exact ⟨hs1, hs2, hs3, hs4, hs5, List.Perm.refl _⟩
    | cons q rest ih =>
      intro s hs1 hs2 hs3 hs4 hs5
      obtain ⟨t1, t2, t3, t4, t5, t6⟩ := register_step s q.1 q.2 hs1 hs2 hs3 hs4 hs5
      obtain ⟨r1, r2, r3, r4, r5, r6⟩ := ih (s.register_plays q.1 q.2) t1 t2 t3 t4 t5
      refine ⟨r1, r2, r3, r4, r5, ?_⟩
      refine r6.trans ?_
      refine (List.Perm.append_left _ t6).trans ?_
      exact List.perm_middle
  have h := hgen ps PopularSongs.empty List.sorted_nil List.sorted_nil
    (fun a ha => absurd ha (List.not_mem_nil _)) (by decide) (by decide)
  obtain ⟨r1, r2, r3, r4, r5, r6⟩ := h
  have r6' : ((PopularSongs.runRegs ps).max_pq ++ (PopularSongs.runRegs ps).min_pq).Perm
      (ps.map Prod.snd ++ []) := r6
  rw [List.append_nil] at r6'
  exact ⟨r1, r2, r3, r4, r5, r6'⟩

theorem getD_append_right_len (l l2 : List Int) :
    (l ++ l2).getD l.length 0 = l2.getD 0 0 := by
  induction l with
  | nil => rfl
  | cons a t ih =>
    show (t ++ l2).getD t.length 0 = l2.getD 0 0
    exact ih

theorem reverse_getD_last (l : List Int) (hne : l ≠ []) :
    l.reverse.getD (l.length - 1) 0 = l.headD 0 := by
  cases l with
  | nil => exact absurd rfl hne
  | cons a t =>
    rw [List.reverse_cons]
    show (t.reverse ++ [a]).getD t.length 0 = a
    rw [← List.length_reverse t]
    exact getD_append_right_len _ _

/-- C7: for every nonempty registration sequence, the two-heap tracker's
median equals the lower heap's root when the heap sizes differ and the
truncated integer average of the two roots when they are equal; this value
is the lower median of the sorted inserted play counts for an odd count,
and the truncated average of the two middle elements for an even count. -/
theorem claim_C7_median (ps : List (String × Int)) (hne : ps ≠ []) :
    (PopularSongs.runRegs ps).median
      = (if ps.length % 2 = 1
          then (sortAscInt (ps.map Prod.snd)).getD (ps.length / 2) 0
          else ((sortAscInt (ps.map Prod.snd)).getD (ps.length / 2 - 1) 0
            + (sortAscInt (ps.map Prod.snd)).getD (ps.length / 2) 0).tdiv 2) := by
  obtain ⟨i1, i2, i3, i4, i5, i6⟩ := runRegs_inv ps
  have hSsorted : (((PopularSongs.runRegs ps).max_pq.reverse)
      ++ (PopularSongs.runRegs ps).min_pq).Sorted (fun a b : Int => a ≤ b) := by
    apply List.pairwise_append.mpr
    refine ⟨List.pairwise_reverse.mpr ?_, i2, ?_⟩
    · exact i1
    · intro a ha b hb
      exact i3 a (List.mem_reverse.mp ha) b hb
  have hSperm : (((PopularSongs.runRegs ps).max_pq.reverse)
      ++ (PopularSongs.runRegs ps).min_pq).Perm (ps.map Prod.snd) :=
    (List.Perm.append_right _ (List.reverse_perm _)).trans i6
  have hSeq : ((PopularSongs.runRegs ps).max_pq.reverse)
      ++ (PopularSongs.runRegs ps).min_pq = sortAscInt (ps.map Prod.snd) :=
    List.eq_of_perm_of_sorted (hSperm.trans (sortAscInt_perm _).symm) hSsorted
      (sortAscInt_sorted _)
  have hlen : (PopularSongs.runRegs ps).max_pq.length
      + (PopularSongs.runRegs ps).min_pq.length = ps.length := by
    have h := hSperm.length_eq
    rw [List.length_append, List.length_reverse, List.length_map] at h
    exact h
  have hmaxlen : 0 < (PopularSongs.runRegs ps).max_pq.length := by
    by_contra h0
    push_neg at h0
    have hps : ps.length = 0 := by omega
    exact hne (List.length_eq_zero.mp hps)
  have hmaxne : (PopularSongs.runRegs ps).max_pq ≠ [] := List.length_pos.mp hmaxlen
  unfold PopularSongs.median
  by_cases hcase : (PopularSongs.runRegs ps).min_pq.length
      < (PopularSongs.runRegs ps).max_pq.length
  · rw [if_pos hcase]
    have hodd : ps.length % 2 = 1 := by omega
    rw [if_pos hodd, ← hSeq]
    have hidx : ps.length / 2 = (PopularSongs.runRegs ps).max_pq.length - 1 := by omega
    rw [hidx]
    rw [getD_append_left ((PopularSongs.runRegs ps).max_pq.reverse)
      ((PopularSongs.runRegs ps).min_pq)
      ((PopularSongs.runRegs ps).max_pq.length - 1)
      (by rw [List.length_reverse]; omega)]
    rw [reverse_getD_last _ hmaxne]
  · rw [if_neg hcase]
    have hodd' : ¬ ps.length % 2 = 1 := by omega
    rw [if_neg hodd', ← hSeq]
    have hidx1 : ps.length / 2 - 1 = (PopularSongs.runRegs ps).max_pq.length - 1 := by
      omega
    have hidx2 : ps.length / 2 = (PopularSongs.runRegs ps).max_pq.length := by omega
    rw [hidx1, hidx2]
    rw [getD_append_left ((PopularSongs.runRegs ps).max_pq.reverse)
      ((PopularSongs.runRegs ps).min_pq)
      ((PopularSongs.runRegs ps).max_pq.length - 1)
      (by rw [List.length_reverse]; omega)]
    rw [reverse_getD_last _ hmaxne]
    rw [← List.length_reverse ((PopularSongs.runRegs ps).max_pq)]
    rw [getD_append_right_len]
    rw [← headD_eq_getD]

/-- Witness for C7 at the six-song demo: median (193+223).tdiv 2 = 208. -/
theorem claim_C7_median_witness :
    ([(("a" : String), (193 : Int)), ("b", 140), ("c", 132), ("d", 291), ("e", 274),
        ("f", 223)] : List (String × Int)) ≠ []
      ∧ (PopularSongs.runRegs [(("a" : String), (193 : Int)), ("b", 140), ("c", 132),
          ("d", 291), ("e", 274), ("f", 223)]).median
        = (if ([(("a" : String), (193 : Int)), ("b", 140), ("c", 132), ("d", 291),
              ("e", 274), ("f", 223)] : List (String × Int)).length % 2 = 1
            then (sortAscInt (([(("a" : String), (193 : Int)), ("b", 140), ("c", 132),
              ("d", 291), ("e", 274), ("f", 223)] : List (String × Int)).map
                Prod.snd)).getD
              (([(("a" : String), (193 : Int)), ("b", 140), ("c", 132), ("d", 291),
                ("e", 274), ("f", 223)] : List (String × Int)).length / 2) 0
            else ((sortAscInt (([(("a" : String), (193 : Int)), ("b", 140), ("c", 132),
              ("d", 291), ("e", 274), ("f", 223)] : List (String × Int)).map
                Prod.snd)).getD
              (([(("a" : String), (193 : Int)), ("b", 140), ("c", 132), ("d", 291),
                ("e", 274), ("f", 223)] : List (String × Int)).length / 2 - 1) 0
              + (sortAscInt (([(("a" : String), (193 : Int)), ("b", 140), ("c", 132),
                ("d", 291), ("e", 274), ("f", 223)] : List (String × Int)).map
                  Prod.snd)).getD
                (([(("a" : String), (193 : Int)), ("b", 140), ("c", 132), ("d", 291),
                  ("e", 274), ("f", 223)] : List (String × Int)).length / 2) 0).tdiv
              2) :=
  ⟨by decide,
    claim_C7_median [(("a" : String), (193 : Int)), ("b", 140), ("c", 132), ("d", 291),
      ("e", 274), ("f", 223)] (by decide)⟩

/-! ## C8 and C10: the k-way merge -/

theorem getD_of_lt {α : Type} (l : List α) (d : α) (i : Nat) (h : i < l.length) :
    l.getD i d = l[i] := by
  rw [List.getD_eq_getElem?_getD, List.getElem?_eq_getElem h]
  rfl

theorem natGetD_set_same (l : List Nat) (i v : Nat) (h : i < l.length) :
    (l.set i v).getD i 0 = v := by
  simp [List.getD_eq_getElem?_getD, List.getElem?_set_self, h]

theorem natGetD_set_other (l : List Nat) (i j v : Nat) (h : i ≠ j) :
    (l.set i v).getD j 0 = l.getD j 0 := by
  simp [List.getD_eq_getElem?_getD, List.getElem?_set_ne h]

theorem replicate_getD_zero (n i : Nat) : (List.replicate n (0 : Nat)).getD i 0 = 0 := by
  induction n generalizing i with
  | zero => cases i <;> rfl
  | succ m ih =>
    cases i with
    | zero => rfl
    | succ j => exact ih j

theorem pair_headD_eq_getD (g : List (String × Int)) :
    g.headD ("", 0) = g.getD 0 ("", 0) := by
  cases g <;> rfl

theorem head?_eq_headD (g : List (String × Int)) (h : g ≠ []) :
    g.head? = some (g.headD ("", 0)) := by
  cases g with
  | nil => exact absurd rfl h
  | cons a t => rfl

theorem entryLtB_asymm (a b : Int × String) (h : entryLtB a b = true) :
    entryLtB b a = false := by
  cases hba : entryLtB b a with
  | false => rfl
  | true =>
    exact absurd (entryLtB_trans a b a h hba) (by rw [entryLtB_irrefl]; decide)

theorem entry3Desc_fst (a b : (Int × String) × Nat) (h : entry3Desc a b) :
    b.1.1 ≤ a.1.1 := by
  unfold entry3Desc entry3LtB at h
  by_cases h1 : entryLtB a.1 b.1 = true
  · rw [if_pos h1] at h
    exact absurd h (by decide)
  · exact entryDesc_fst a.1 b.1 (Bool.not_eq_true _ |>.mp h1)

theorem entry3Desc_total : ∀ a b : (Int × String) × Nat,
    entry3Desc a b ∨ entry3Desc b a := by
  intro a b
  unfold entry3Desc entry3LtB
  by_cases h1 : entryLtB a.1 b.1 = true
  · right
    simp [entryLtB_asymm a.1 b.1 h1, h1]
  · by_cases h2 : entryLtB b.1 a.1 = true
    · left
      simp [Bool.not_eq_true _ |>.mp h1, h2]
    · by_cases h3 : a.2 < b.2
      · right
        simp [Bool.not_eq_true _ |>.mp h1, Bool.not_eq_true _ |>.mp h2]
        omega
      · left
        simp [Bool.not_eq_true _ |>.mp h1, Bool.not_eq_true _ |>.mp h2]
        omega

theorem entry3Desc_trans : ∀ a b c : (Int × String) × Nat,
    entry3Desc a b → entry3Desc b c → entry3Desc a c := by
  intro a b c hab hbc
  unfold entry3Desc entry3LtB at hab hbc ⊢
  have d1 : entryLtB a.1 b.1 = false := by
    by_cases h1 : entryLtB a.1 b.1 = true
    · rw [if_pos h1] at hab
      exact absurd hab (by decide)
    · exact Bool.not_eq_true _ |>.mp h1
  have d2 : entryLtB b.1 c.1 = false := by
    by_cases h1 : entryLtB b.1 c.1 = true
    · rw [if_pos h1] at hbc
      exact absurd hbc (by decide)
    · exact Bool.not_eq_true _ |>.mp h1
  have dac : entryLtB a.1 c.1 = false := entryDesc_trans a.1 b.1 c.1 d1 d2
  rw [if_neg (by simp [dac])]
  by_cases h2 : entryLtB c.1 a.1 = true
  · rw [if_pos h2]
  · rw [if_neg h2]
    have dca : entryLtB c.1 a.1 = false := Bool.not_eq_true _ |>.mp h2
    have hac : a.1 = c.1 := entryDesc_antisymm a.1 c.1 dac dca
    have dba : entryLtB b.1 a.1 = false := by
      rw [← hac] at d2
      exact d2
    have hab1 : a.1 = b.1 := entryDesc_antisymm a.1 b.1 d1 dba
    have hnab : ¬ a.2 < b.2 := by
      rw [if_neg (by simp [d1]), if_neg (by simp [dba])] at hab
      simpa using hab
    have hcb : c.1 = b.1 := hac ▸ hab1
    have dcb : entryLtB c.1 b.1 = false := by
      rw [hcb]
      exact entryLtB_irrefl b.1
    have hnbc : ¬ b.2 < c.2 := by
      rw [if_neg (by simp [d2]), if_neg (by simp [dcb])] at hbc
      simpa using hbc
    simp
    omega

theorem pq3Push_sorted (pq : List ((Int × String) × Nat)) (e : (Int × String) × Nat)
    (h : pq.Sorted entry3Desc) : (pq3Push pq e).Sorted entry3Desc := by
  have instT : IsTotal ((Int × String) × Nat) entry3Desc := ⟨entry3Desc_total⟩
  have instTr : IsTrans ((Int × String) × Nat) entry3Desc := ⟨entry3Desc_trans⟩
  exact @List.Sorted.orderedInsert _ entry3Desc _ instT instTr e pq h

theorem flatMap_congr_mem {α β : Type} (f g : α → List β) :
    ∀ l : List α, (∀ a ∈ l, f a = g a) → l.flatMap f = l.flatMap g := by
  intro l
  induction l with
  | nil => intro _; rfl
  | cons a t ih =>
    intro h
    rw [List.flatMap_cons, List.flatMap_cons, h a (List.mem_cons_self _ _),
      ih (fun x hx => h x (List.mem_cons_of_mem _ hx))]

/-- Sorting a multiset that decomposes as a maximal element plus a rest:
the sort puts that element first. -/
theorem sortDesc_cons_max (p : Int) (l l' : List Int) (hperm : l.Perm (p :: l'))
    (hmax : ∀ b ∈ l', b ≤ p) : sortDescInt l = p :: sortDescInt l' := by
  have hs1 : (sortDescInt l).Sorted (fun a b : Int => b ≤ a) := sortDescInt_sorted l
  have hs2 : (p :: sortDescInt l').Sorted (fun a b : Int => b ≤ a) := by
    rw [List.sorted_cons]
    constructor
    · intro b hb
      exact hmax b ((sortDescInt_perm l').mem_iff.mp hb)
    · exact sortDescInt_sorted l'
  have hp : (sortDescInt l).Perm (p :: sortDescInt l') :=
    (sortDescInt_perm l).trans (hperm.trans (List.Perm.cons p (sortDescInt_perm l').symm))
  exact List.eq_of_perm_of_sorted hp hs1 hs2

/-- Advancing genre i0's cursor removes exactly its current play count from
the remaining multiset. -/
theorem flatMap_pop (genres : List (List (String × Int))) (iv : List Nat) (i0 : Nat)
    (hset : i0 < iv.length)
    (hact : iv.getD i0 0 < (genres.getD i0 []).length) :
    ∀ l : List Nat, l.Nodup → i0 ∈ l →
      (l.flatMap (fun i => ((genres.getD i []).drop (iv.getD i 0)).map Prod.snd)).Perm
        (((genres.getD i0 []).getD (iv.getD i0 0) ("", 0)).2
          :: l.flatMap (fun i =>
            ((genres.getD i []).drop ((iv.set i0 (iv.getD i0 0 + 1)).getD i 0)).map
              Prod.snd)) := by
  intro l
  induction l with
  | nil =>
    intro _ h
    exact absurd h (List.not_mem_nil _)
  | cons j t ih =>
    intro hnd hmem
    obtain ⟨hjt, hndt⟩ := List.nodup_cons.mp hnd
    by_cases hji : j = i0
    · subst hji
      have hdrop : (genres.getD j []).drop (iv.getD j 0)
          = (genres.getD j []).getD (iv.getD j 0) ("", 0)
            :: (genres.getD j []).drop (iv.getD j 0 + 1) := by
        rw [List.drop_eq_getElem_cons hact, getD_of_lt _ _ _ hact]
      have hcongr : t.flatMap (fun i => ((genres.getD i []).drop
            ((iv.set j (iv.getD j 0 + 1)).getD i 0)).map Prod.snd)
          = t.flatMap (fun i =>
            ((genres.getD i []).drop (iv.getD i 0)).map Prod.snd) := by
        apply flatMap_congr_mem
        intro x hx
        have hxj : j ≠ x := fun hh => hjt (hh ▸ hx)
        rw [natGetD_set_other _ _ _ _ hxj]
      rw [List.flatMap_cons, List.flatMap_cons, hdrop, hcongr,
        natGetD_set_same _ _ _ hset]
      rfl
    · have hi0t : i0 ∈ t := by
        rcases List.mem_cons.mp hmem with h | h
        · exact absurd h.symm hji
        · exact h
      have hterm : ((genres.getD j []).drop
            ((iv.set i0 (iv.getD i0 0 + 1)).getD j 0)).map Prod.snd
          = ((genres.getD j []).drop (iv.getD j 0)).map Prod.snd := by
        rw [natGetD_set_other _ _ _ _ (fun hh => hji hh.symm)]
      rw [List.flatMap_cons, List.flatMap_cons, hterm]
      refine (List.Perm.append_left _ (ih hndt hi0t)).trans ?_
      exact List.perm_middle

/-- Advancing genre i0's cursor updates the active-entry multiset: the old
entry for i0 leaves and, when the genre is not exhausted, its next entry
arrives; entries of the other genres are unchanged. -/
theorem activeMap_pop (genres : List (List (String × Int))) (iv : List Nat) (i0 : Nat)
    (hset : i0 < iv.length)
    (hact : iv.getD i0 0 < (genres.getD i0 []).length) :
    ∀ l : List Nat, l.Nodup → i0 ∈ l →
      ∃ M : List ((Int × String) × Nat),
        ((l.filter (fun i => iv.getD i 0 < (genres.getD i []).length)).map
            (entryAt genres iv)).Perm (entryAt genres iv i0 :: M)
          ∧ ((l.filter (fun i =>
                (iv.set i0 (iv.getD i0 0 + 1)).getD i 0
                  < (genres.getD i []).length)).map
              (entryAt genres (iv.set i0 (iv.getD i0 0 + 1)))).Perm
            ((if iv.getD i0 0 + 1 < (genres.getD i0 []).length
              then [entryAt genres (iv.set i0 (iv.getD i0 0 + 1)) i0] else []) ++ M) := by
  intro l
  induction l with
  | nil =>
    intro _ h
    exact absurd h (List.not_mem_nil _)
  | cons j t ih =>
    intro hnd hmem
    obtain ⟨hjt, hndt⟩ := List.nodup_cons.mp hnd
    by_cases hji : j = i0
    · subst hji
      have hcongr : (t.filter (fun i =>
            (iv.set j (iv.getD j 0 + 1)).getD i 0 < (genres.getD i []).length)).map
            (entryAt genres (iv.set j (iv.getD j 0 + 1)))
          = (t.filter (fun i => iv.getD i 0 < (genres.getD i []).length)).map
            (entryAt genres iv) := by
        have hf : t.filter (fun i =>
              (iv.set j (iv.getD j 0 + 1)).getD i 0 < (genres.getD i []).length)
            = t.filter (fun i => iv.getD i 0 < (genres.getD i []).length) := by
          apply List.filter_congr
          intro x hx
          have hxj : j ≠ x := fun hh => hjt (hh ▸ hx)
          rw [natGetD_set_other _ _ _ _ hxj]
        rw [hf]
        apply List.map_congr_left
        intro x hx
        have hxt : x ∈ t := List.mem_of_mem_filter hx
        have hxj : j ≠ x := fun hh => hjt (hh ▸ hxt)
        unfold entryAt
        rw [natGetD_set_other _ _ _ _ hxj]
      refine ⟨(t.filter (fun i => iv.getD i 0 < (genres.getD i []).length)).map
        (entryAt genres iv), ?_, ?_⟩
      · rw [List.filter_cons, if_pos (by simpa using hact), List.map_cons]
      · rw [List.filter_cons]
        by_cases hcond : iv.getD j 0 + 1 < (genres.getD j []).length
        · rw [if_pos (by rw [natGetD_set_same _ _ _ hset]; simpa using hcond),
            List.map_cons, hcongr, if_pos hcond]
          exact List.Perm.refl _
        · rw [if_neg (by rw [natGetD_set_same _ _ _ hset]; simpa using hcond),
            hcongr, if_neg hcond]
          rfl
    · have hi0t : i0 ∈ t := by
        rcases List.mem_cons.mp hmem with h | h
        · exact absurd h.symm hji
        · exact h
      obtain ⟨M, hM1, hM2⟩ := ih hndt hi0t
      have hij : i0 ≠ j := fun hh => hji hh.symm
      have hgj : (iv.set i0 (iv.getD i0 0 + 1)).getD j 0 = iv.getD j 0 :=
        natGetD_set_other _ _ _ _ hij
      have hej : entryAt genres (iv.set i0 (iv.getD i0 0 + 1)) j = entryAt genres iv j := by
        unfold entryAt
        rw [hgj]
      by_cases hcj : iv.getD j 0 < (genres.getD j []).length
      · refine ⟨entryAt genres iv j :: M, ?_, ?_⟩
        · rw [List.filter_cons, if_pos (by simpa using hcj), List.map_cons]
          exact (hM1.cons _).trans (List.Perm.swap _ _ _)
        · rw [List.filter_cons, if_pos (by rw [hgj]; simpa using hcj), List.map_cons, hej]
          refine (hM2.cons _).trans ?_
          exact List.perm_middle.symm
      · refine ⟨M, ?_, ?_⟩
        · rw [List.filter_cons, if_neg (by simpa using hcj)]
          exact hM1
        · rw [List.filter_cons, if_neg (by rw [hgj]; simpa using hcj)]
          exact hM2

/-- Every remaining play count is dominated by some heap entry's play
count: the heap holds the head of every non-exhausted genre's suffix and
each genre is sorted descending. -/
theorem remPlays_dominated (genres : List (List (String × Int)))
    (hsorted : ∀ g ∈ genres, genreSorted g) (iv : List Nat)
    (pq : List ((Int × String) × Nat))
    (hperm : pq.Perm ((activeIdx genres iv).map (entryAt genres iv)))
    (b : Int) (hb : b ∈ remPlays genres iv) :
    ∃ e, e ∈ pq ∧ b ≤ e.1.1 := by
  unfold remPlays at hb
  obtain ⟨i, hir, hbi⟩ := List.mem_flatMap.mp hb
  have hilen : i < genres.length := List.mem_range.mp hir
  have hacti : iv.getD i 0 < (genres.getD i []).length := by
    by_contra h0
    push_neg at h0
    rw [List.drop_eq_nil_of_le h0] at hbi
    exact absurd hbi (by simp)
  have hein : entryAt genres iv i ∈ pq := by
    apply hperm.mem_iff.mpr
    apply List.mem_map_of_mem
    unfold activeIdx
    apply List.mem_filter.mpr
    exact ⟨hir, by simpa using hacti⟩
  refine ⟨entryAt genres iv i, hein, ?_⟩
  have hsort_i : ((genres.getD i []).map Prod.snd).Sorted (fun a b : Int => b ≤ a) := by
    have hg : genres.getD i [] = genres[i] := getD_of_lt _ _ _ hilen
    rw [hg]
    exact hsorted _ (List.getElem_mem _)
  have hlt : iv.getD i 0 < ((genres.getD i []).map Prod.snd).length := by
    rw [List.length_map]
    exact hacti
  have hdec : ((genres.getD i []).map Prod.snd).drop (iv.getD i 0)
      = ((genres.getD i []).map Prod.snd)[iv.getD i 0]
        :: ((genres.getD i []).map Prod.snd).drop (iv.getD i 0 + 1) :=
    List.drop_eq_getElem_cons hlt
  have hsufsorted : (((genres.getD i []).map Prod.snd).drop (iv.getD i 0)).Sorted
      (fun a b : Int => b ≤ a) :=
    List.Pairwise.sublist (List.drop_sublist _ _) hsort_i
  rw [List.map_drop] at hbi
  rw [hdec] at hbi hsufsorted
  have hplay : (entryAt genres iv i).1.1
      = ((genres.getD i []).map Prod.snd)[iv.getD i 0] := by
    unfold entryAt
    rw [List.getElem_map, getD_of_lt _ _ _ hacti]
  rw [hplay]
  rcases List.mem_cons.mp hbi with hb1 | hb2
  · rw [hb1]
  · exact (List.sorted_cons.mp hsufsorted).1 b hb2

/-- The main-loop specification: from any state satisfying the merge
invariant, the loop appends the titles of the (k - emitted) largest
remaining songs: each appended title comes from an actual input song and
the emitted play counts are exactly the corresponding prefix of the
descending sort of the remaining play counts. -/
theorem mergeLoop_spec (genres : List (List (String × Int)))
    (hsorted : ∀ g ∈ genres, genreSorted g) (k : Nat) :
    ∀ (fuel : Nat) (pq : List ((Int × String) × Nat)) (iv : List Nat) (res : List String),
      (remPlays genres iv).length < fuel →
      iv.length = genres.length →
      res.length < k →
      pq.Sorted entry3Desc →
      pq.Perm ((activeIdx genres iv).map (entryAt genres iv)) →
      ∃ pairs : List (Int × String),
        mergeLoop genres k fuel pq iv res = res ++ pairs.map Prod.snd
          ∧ pairs.map Prod.fst
            = (sortDescInt (remPlays genres iv)).take (k - res.length)
          ∧ ∀ q ∈ pairs, ∃ g ∈ genres, (q.2, q.1) ∈ g := by
  intro fuel
  induction fuel with
  | zero =>
    intro pq iv res hfuel
    exact absurd hfuel (by omega)
  | succ f ih =>
    intro pq iv res hfuel hivlen hresk hsort hperm
    cases pq with
    | nil =>
      have hmapnil : ((activeIdx genres iv).map (entryAt genres iv)) = [] :=
        hperm.symm.eq_nil
      have hfilnil : activeIdx genres iv = [] := List.map_eq_nil_iff.mp hmapnil
      have hempty : remPlays genres iv = [] := by
        unfold remPlays
        rw [List.flatMap_eq_nil_iff]
        intro i hir
        have hni : ¬ (iv.getD i 0 < (genres.getD i []).length) := by
          intro hlt
          have hmemf : i ∈ activeIdx genres iv := by
            unfold activeIdx
            exact List.mem_filter.mpr ⟨hir, by simpa using hlt⟩
          rw [hfilnil] at hmemf
          exact absurd hmemf (List.not_mem_nil _)
        rw [List.drop_eq_nil_of_le (by omega)]
        rfl
      refine ⟨[], ?_, ?_, ?_⟩
      · show res = res ++ []
        rw [List.append_nil]
      · rw [hempty]
        rw [show sortDescInt [] = [] from rfl, List.take_nil]
        rfl
      · intro q hq
        exact absurd hq (List.not_mem_nil _)
    | cons p rest =>
      have hpmem : p ∈ (activeIdx genres iv).map (entryAt genres iv) :=
        hperm.mem_iff.mp (List.mem_cons_self _ _)
      obtain ⟨j, hjact, hpj⟩ := List.mem_map.mp hpmem
      have hp2 : p.2 = j := by
        rw [← hpj]
        rfl
      have hjr : j ∈ List.range genres.length := List.mem_of_mem_filter hjact
      have hjlen : j < genres.length := List.mem_range.mp hjr
      have hjact' : iv.getD j 0 < (genres.getD j []).length := by
        have hh := (List.mem_filter.mp hjact).2
        simpa using hh
      have hsetj : j < iv.length := by omega
      have hp11 : p.1.1 = ((genres.getD j []).getD (iv.getD j 0) ("", 0)).2 := by
        rw [← hpj]
        rfl
      have hpsong : ∃ g ∈ genres, ((p.1.2 : String), p.1.1) ∈ g := by
        refine ⟨genres.getD j [], ?_, ?_⟩
        · rw [getD_of_lt _ _ _ hjlen]
          exact List.getElem_mem _
        · have hpe : ((p.1.2 : String), p.1.1)
              = (genres.getD j []).getD (iv.getD j 0) ("", 0) := by
            rw [← hpj]
            rfl
          rw [hpe, getD_of_lt _ _ _ hjact']
          exact List.getElem_mem _
      obtain ⟨M, hM1, hM2⟩ := activeMap_pop genres iv j hsetj hjact'
        (List.range genres.length) (List.nodup_range _) hjr
      have hrest : rest.Perm M := by
        have h1 := hperm.trans hM1
        rw [hpj] at h1
        exact h1.cons_inv
      have hdom : ∀ b ∈ remPlays genres iv, b ≤ p.1.1 := by
        intro b hb
        obtain ⟨e, hein, hbe⟩ := remPlays_dominated genres hsorted iv (p :: rest) hperm b hb
        rcases List.mem_cons.mp hein with he | he
        · rw [he] at hbe
          exact hbe
        · have hde : entry3Desc p e := (List.sorted_cons.mp hsort).1 e he
          have hfe := entry3Desc_fst p e hde
          omega
      have hrem := flatMap_pop genres iv j hsetj hjact'
        (List.range genres.length) (List.nodup_range _) hjr
      have hremP : (remPlays genres iv).Perm
          (p.1.1 :: remPlays genres (iv.set j (iv.getD j 0 + 1))) := by
        rw [hp11]
        exact hrem
      have hsortdec : sortDescInt (remPlays genres iv)
          = p.1.1 :: sortDescInt (remPlays genres (iv.set j (iv.getD j 0 + 1))) := by
        apply sortDesc_cons_max _ _ _ hremP
        intro b hb
        exact hdom b (hremP.mem_iff.mpr (List.mem_cons_of_mem _ hb))
      have hlen' : (remPlays genres (iv.set j (iv.getD j 0 + 1))).length + 1
          = (remPlays genres iv).length := by
        have hh := hremP.length_eq
        rw [List.length_cons] at hh
        omega
      have hivlen' : (iv.set j (iv.getD j 0 + 1)).length = genres.length := by
        rw [List.length_set]
        exact hivlen
      have hstep : mergeLoop genres k (f+1) (p :: rest) iv res
          = (if (res ++ [p.1.2]).length = k then res ++ [p.1.2]
            else if iv.getD p.2 0 + 1 = (genres.getD p.2 []).length then
              mergeLoop genres k f rest (iv.set p.2 (iv.getD p.2 0 + 1)) (res ++ [p.1.2])
            else mergeLoop genres k f (pq3Push rest
                ((((genres.getD p.2 []).getD (iv.getD p.2 0 + 1) ("", 0)).2,
                  ((genres.getD p.2 []).getD (iv.getD p.2 0 + 1) ("", 0)).1), p.2))
              (iv.set p.2 (iv.getD p.2 0 + 1)) (res ++ [p.1.2])) := rfl
      rw [hstep, hp2]
      by_cases hk : (res ++ [p.1.2]).length = k
      · rw [if_pos hk]
        refine ⟨[(p.1.1, p.1.2)], rfl, ?_, ?_⟩
        · have hkr : k - res.length = 1 := by
            rw [List.length_append] at hk
            simp only [List.length_singleton] at hk
            omega
          rw [hkr, hsortdec]
          rfl
        · intro q hq
          rw [List.mem_singleton] at hq
          subst hq
          exact hpsong
      · rw [if_neg hk]
        have hres1k : (res ++ [p.1.2]).length < k := by
          rw [List.length_append] at hk ⊢
          simp only [List.length_singleton] at hk ⊢
          omega
        have hidxeq : k - res.length = (k - (res ++ [p.1.2]).length) + 1 := by
          rw [List.length_append]
          simp only [List.length_singleton]
          omega
        by_cases hex : iv.getD j 0 + 1 = (genres.getD j []).length
        · rw [if_pos hex]
          have hcond' : ¬ (iv.getD j 0 + 1 < (genres.getD j []).length) := by omega
          have hperm' : rest.Perm ((activeIdx genres (iv.set j (iv.getD j 0 + 1))).map
              (entryAt genres (iv.set j (iv.getD j 0 + 1)))) := by
            refine hrest.trans ?_
            have hh := hM2
            rw [if_neg hcond'] at hh
            exact hh.symm
          have hsort' : rest.Sorted entry3Desc := (List.sorted_cons.mp hsort).2
          obtain ⟨pairs', hP1, hP2, hP3⟩ := ih rest (iv.set j (iv.getD j 0 + 1))
            (res ++ [p.1.2]) (by omega) hivlen' hres1k hsort' hperm'
          refine ⟨(p.1.1, p.1.2) :: pairs', ?_, ?_, ?_⟩
          · rw [hP1, List.append_assoc]
            rfl
          · rw [List.map_cons, hP2, hsortdec, hidxeq]
            rfl
          · intro q hq
            rcases List.mem_cons.mp hq with hq1 | hq2
            · subst hq1
              exact hpsong
            · exact hP3 q hq2
        · rw [if_neg hex]
          have hcond' : iv.getD j 0 + 1 < (genres.getD j []).length := by omega
          have hnew : ((((genres.getD j []).getD (iv.getD j 0 + 1) ("", 0)).2,
              ((genres.getD j []).getD (iv.getD j 0 + 1) ("", 0)).1), j)
              = entryAt genres (iv.set j (iv.getD j 0 + 1)) j := by
            unfold entryAt
            rw [natGetD_set_same _ _ _ hsetj]
          have hperm' : (pq3Push rest ((((genres.getD j []).getD (iv.getD j 0 + 1)
                ("", 0)).2, ((genres.getD j []).getD (iv.getD j 0 + 1) ("", 0)).1),
                j)).Perm
              ((activeIdx genres (iv.set j (iv.getD j 0 + 1))).map
                (entryAt genres (iv.set j (iv.getD j 0 + 1)))) := by
            refine (List.perm_orderedInsert _ _ _).trans ?_
            rw [hnew]
            refine (List.Perm.cons _ hrest).trans ?_
            have hh := hM2
            rw [if_pos hcond'] at hh
            exact hh.symm
          have hsort' : (pq3Push rest ((((genres.getD j []).getD (iv.getD j 0 + 1)
                ("", 0)).2, ((genres.getD j []).getD (iv.getD j 0 + 1) ("", 0)).1),
                j)).Sorted entry3Desc :=
            pq3Push_sorted _ _ (List.sorted_cons.mp hsort).2
          obtain ⟨pairs', hP1, hP2, hP3⟩ := ih _ (iv.set j (iv.getD j 0 + 1))
            (res ++ [p.1.2]) (by omega) hivlen' hres1k hsort' hperm'
          refine ⟨(p.1.1, p.1.2) :: pairs', ?_, ?_, ?_⟩
          · rw [hP1, List.append_assoc]
            rfl
          · rw [List.map_cons, hP2, hsortdec, hidxeq]
            rfl
          · intro q hq
            rcases List.mem_cons.mp hq with hq1 | hq2
            · subst hq1
              exact hpsong
            · exact hP3 q hq2

/-- When every indexed genre is non-empty, the initialization fold succeeds
and produces (as a sorted heap) exactly one head entry per index. -/
theorem mergeInit_fold (genres : List (List (String × Int))) :
    ∀ (l : List Nat) (pq0 : List ((Int × String) × Nat)),
      (∀ i ∈ l, genres.getD i [] ≠ []) →
      pq0.Sorted entry3Desc →
      ∃ pq, (l.foldlM
          (fun pq i =>
            match (genres.getD i []).head? with
            | none => none
            | some hd => some (pq3Push pq ((hd.2, hd.1), i))) pq0) = some pq
        ∧ pq.Perm (pq0 ++ l.map (fun i =>
            ((((genres.getD i []).headD ("", 0)).2,
              ((genres.getD i []).headD ("", 0)).1), i)))
        ∧ pq.Sorted entry3Desc := by
  intro l
  induction l with
  | nil =>
    intro pq0 _ hs
    refine ⟨pq0, rfl, ?_, hs⟩
    show pq0.Perm (pq0 ++ [])
    rw [List.append_nil]
  | cons i t ih =>
    intro pq0 hall hs
    have hg : genres.getD i [] ≠ [] := hall i (List.mem_cons_self _ _)
    obtain ⟨hd, hhd⟩ : ∃ hd, (genres.getD i []).head? = some hd := by
      rw [head?_eq_headD _ hg]
      exact ⟨_, rfl⟩
    have hdv : hd = (genres.getD i []).headD ("", 0) := by
      have hh := head?_eq_headD _ hg
      rw [hhd] at hh
      exact Option.some.inj hh
    simp only [List.foldlM_cons]
    rw [hhd]
    obtain ⟨pq, hpq, hperm, hsort⟩ := ih (pq3Push pq0 ((hd.2, hd.1), i))
      (fun x hx => hall x (List.mem_cons_of_mem _ hx)) (pq3Push_sorted _ _ hs)
    refine ⟨pq, ?_, ?_, hsort⟩
    · exact hpq
    · subst hdv
      refine hperm.trans ?_
      refine (List.Perm.append_right _ (List.perm_orderedInsert _ _ _)).trans ?_
      exact List.perm_middle.symm

/-- When some indexed genre is empty, the initialization fold fails: the
out-of-bounds head read is reached and propagates. -/
theorem mergeInit_fold_none (genres : List (List (String × Int))) :
    ∀ (l : List Nat) (pq0 : List ((Int × String) × Nat)),
      (∃ i ∈ l, genres.getD i [] = []) →
      (l.foldlM (fun pq i =>
          match (genres.getD i []).head? with
          | none => none
          | some hd => some (pq3Push pq ((hd.2, hd.1), i))) pq0) = none := by
  intro l
  induction l with
  | nil =>
    intro pq0 hex
    obtain ⟨i, hi, _⟩ := hex
    exact absurd hi (List.not_mem_nil _)
  | cons j t ih =>
    intro pq0 hex
    obtain ⟨i, hi, hinil⟩ := hex
    simp only [List.foldlM_cons]
    by_cases hj : genres.getD j [] = []
    · have hhd : (genres.getD j []).head? = none := by
        rw [hj]
        rfl
      rw [hhd]
      rfl
    · obtain ⟨hd, hhd⟩ : ∃ hd, (genres.getD j []).head? = some hd := by
        rw [head?_eq_headD _ hj]
        exact ⟨_, rfl⟩
      rw [hhd]
      have hit : i ∈ t := by
        rcases List.mem_cons.mp hi with h | h
        · exact absurd (h ▸ hinil) hj
        · exact h
      exact ih _ ⟨i, hit, hinil⟩

theorem totalSongs_eq_len (genres : List (List (String × Int))) :
    totalSongs genres = (allPlays genres).length := by
  unfold totalSongs allPlays
  induction genres with
  | nil => rfl
  | cons g t ih =>
    rw [List.map_cons, List.sum_cons, List.flatMap_cons, List.length_append,
      List.length_map, ih]

theorem flatMap_range_getD (genres : List (List (String × Int))) :
    (List.range genres.length).flatMap (fun i => (genres.getD i []).map Prod.snd)
      = genres.flatMap (fun g => g.map Prod.snd) := by
  induction genres with
  | nil => rfl
  | cons g t ih =>
    show (List.range (t.length + 1)).flatMap
        (fun i => ((g :: t).getD i []).map Prod.snd) = _
    rw [List.range_succ_eq_map, List.flatMap_cons, List.flatMap_map]
    rw [flatMap_congr_mem (fun a => ((g :: t).getD a.succ []).map Prod.snd)
      (fun i => (t.getD i []).map Prod.snd) _ (by intro x hx; rfl), ih, List.flatMap_cons]
    rfl

theorem remPlays_init (genres : List (List (String × Int))) :
    remPlays genres (List.replicate genres.length 0) = allPlays genres := by
  unfold remPlays allPlays
  have hcongr : ∀ i ∈ List.range genres.length,
      ((genres.getD i []).drop ((List.replicate genres.length 0).getD i 0)).map Prod.snd
      = (genres.getD i []).map Prod.snd := by
    intro i _
    rw [replicate_getD_zero]
    rfl
  rw [flatMap_congr_mem _ _ _ hcongr]
  exact flatMap_range_getD genres

theorem activeIdx_init (genres : List (List (String × Int)))
    (hne : ∀ g ∈ genres, g ≠ []) :
    activeIdx genres (List.replicate genres.length 0) = List.range genres.length := by
  unfold activeIdx
  apply List.filter_eq_self.mpr
  intro i hir
  have hilen : i < genres.length := List.mem_range.mp hir
  have hg : genres.getD i [] ≠ [] := by
    rw [getD_of_lt _ _ _ hilen]
    exact hne _ (List.getElem_mem _)
  rw [replicate_getD_zero]
  simpa using List.length_pos.mpr hg

theorem entryAt_init (genres : List (List (String × Int))) (i : Nat) :
    entryAt genres (List.replicate genres.length 0) i
      = ((((genres.getD i []).headD ("", 0)).2,
          ((genres.getD i []).headD ("", 0)).1), i) := by
  unfold entryAt
  rw [replicate_getD_zero, pair_headD_eq_getD]

/-- C8 (amended with the problem's stated preconditions): when every input
sequence is non-empty and sorted by descending play count, and 1 <= k <=
total song count, the heap-driven k-way merge succeeds and emits exactly k
titles; position by position, each emitted title belongs to an actual
(title, plays) song of some input sequence, and the sequence of those
songs' play counts equals the first k entries of the descending sort of all
play counts — the reference computation — with titles fixed up to the
heap's documented tie-break on equal counts. -/
theorem claim_C8_kway_merge (genres : List (List (String × Int))) (k : Nat)
    (hne : ∀ g ∈ genres, g ≠ []) (hsorted : ∀ g ∈ genres, genreSorted g)
    (hk1 : 1 ≤ k) (hkn : k ≤ totalSongs genres) :
    ∃ (res : List String) (pairs : List (Int × String)),
      most_listened_across_genres genres k = some res
        ∧ res = pairs.map Prod.snd
        ∧ pairs.map Prod.fst = (sortDescInt (allPlays genres)).take k
        ∧ (∀ q ∈ pairs, ∃ g ∈ genres, (q.2, q.1) ∈ g)
        ∧ res.length = k := by
  have hall : ∀ i ∈ List.range genres.length, genres.getD i [] ≠ [] := by
    intro i hir
    have hilen := List.mem_range.mp hir
    rw [getD_of_lt _ _ _ hilen]
    exact hne _ (List.getElem_mem _)
  obtain ⟨pq0, hpq0, hperm0, hsort0⟩ := mergeInit_fold genres
    (List.range genres.length) [] hall List.sorted_nil
  have hinit : mergeInit genres = some pq0 := hpq0
  have hperm0' : pq0.Perm ((activeIdx genres (List.replicate genres.length 0)).map
      (entryAt genres (List.replicate genres.length 0))) := by
    rw [activeIdx_init genres hne]
    refine hperm0.trans ?_
    have hm : (List.range genres.length).map (fun i =>
          ((((genres.getD i []).headD ("", 0)).2,
            ((genres.getD i []).headD ("", 0)).1), i))
        = (List.range genres.length).map
            (entryAt genres (List.replicate genres.length 0)) := by
      apply List.map_congr_left
      intro i _
      rw [entryAt_init]
    rw [← hm]
    exact List.Perm.refl _
  have hivlen0 : (List.replicate genres.length 0).length = genres.length :=
    List.length_replicate _ _
  have hfuel0 : (remPlays genres (List.replicate genres.length 0)).length
      < totalSongs genres + 1 := by
    rw [remPlays_init, ← totalSongs_eq_len]
    omega
  obtain ⟨pairs, hP1, hP2, hP3⟩ := mergeLoop_spec genres hsorted k
    (totalSongs genres + 1) pq0 (List.replicate genres.length 0) [] hfuel0 hivlen0
    (by simpa using hk1) hsort0 hperm0'
  refine ⟨mergeLoop genres k (totalSongs genres + 1) pq0
    (List.replicate genres.length 0) [], pairs, ?_, ?_, ?_, hP3, ?_⟩
  · unfold most_listened_across_genres
    rw [hinit]
  · rw [hP1]
    rfl
  · rw [hP2, remPlays_init]
    rfl
  · rw [hP1]
    have hl1 : ((([] : List String)) ++ pairs.map Prod.snd).length = pairs.length := by
      simp
    rw [hl1]
    have hl2 : pairs.length = (pairs.map Prod.fst).length := (List.length_map _ _).symm
    rw [hl2, hP2, remPlays_init, List.length_take]
    have hl3 : (sortDescInt (allPlays genres)).length = (allPlays genres).length :=
      (sortDescInt_perm _).length_eq
    rw [hl3, ← totalSongs_eq_len]
    simp only [List.length_nil, Nat.sub_zero]
    omega

/-- Counterexample to C8 as stated: the claim quantifies over all inputs of
descending-sorted sequences, but an empty sequence (trivially sorted) makes
the initialization read out of bounds, so the merge produces nothing
instead of the reference's first k elements. -/
theorem claim_C8_counterexample :
    (∀ g ∈ ([[(("b" : String), (7 : Int))], []] : List (List (String × Int))),
        genreSorted g)
      ∧ 1 ≤ 1 ∧ 1 ≤ totalSongs [[(("b" : String), (7 : Int))], []]
      ∧ most_listened_across_genres [[(("b" : String), (7 : Int))], []] 1 = none := by
  decide

/-- Witness for C8 at the three-genre demo with k = 5: the merge emits the
five most-played titles, play counts 217, 184, 123, 119, 102. -/
theorem claim_C8_kway_merge_witness :
    (∀ g ∈ ([[(("Coding In The Deep" : String), (123 : Int)), ("Someone Like GNU", 99),
          ("Hello World", 98)], [("Ring Of Firewalls", 217)],
        [("Boolean Rhapsody", 184), ("Merge Together", 119), ("Hey Queue", 102)]]
        : List (List (String × Int))), g ≠ [])
      ∧ (∃ (res : List String) (pairs : List (Int × String)),
        most_listened_across_genres
            [[(("Coding In The Deep" : String), (123 : Int)), ("Someone Like GNU", 99),
              ("Hello World", 98)], [("Ring Of Firewalls", 217)],
             [("Boolean Rhapsody", 184), ("Merge Together", 119), ("Hey Queue", 102)]] 5
          = some res
        ∧ res = pairs.map Prod.snd
        ∧ pairs.map Prod.fst
          = (sortDescInt (allPlays
              [[(("Coding In The Deep" : String), (123 : Int)), ("Someone Like GNU", 99),
                ("Hello World", 98)], [("Ring Of Firewalls", 217)],
               [("Boolean Rhapsody", 184), ("Merge Together", 119),
                ("Hey Queue", 102)]])).take 5
        ∧ (∀ q ∈ pairs, ∃ g ∈ ([[(("Coding In The Deep" : String), (123 : Int)),
              ("Someone Like GNU", 99), ("Hello World", 98)],
             [("Ring Of Firewalls", 217)],
             [("Boolean Rhapsody", 184), ("Merge Together", 119), ("Hey Queue", 102)]]
            : List (List (String × Int))), (q.2, q.1) ∈ g)
        ∧ res.length = 5) :=
  ⟨by decide,
    claim_C8_kway_merge
      [[(("Coding In The Deep" : String), (123 : Int)), ("Someone Like GNU", 99),
        ("Hello World", 98)], [("Ring Of Firewalls", 217)],
       [("Boolean Rhapsody", 184), ("Merge Together", 119), ("Hey Queue", 102)]] 5
      (by decide) (by decide) (by decide) (by decide)⟩

/-- C10 (amended): the initialization reads exactly the head of each input
sequence.  When every sequence is non-empty this pushes one entry per
sequence (the heads, tagged with their indices); when any sequence is empty
the head read genres[i][0] is out of bounds (modelled as none) — empty
sequences are not skipped. -/
theorem claim_C10_merge_init (genres : List (List (String × Int))) :
    ((∀ g ∈ genres, g ≠ []) →
      ∃ pq, mergeInit genres = some pq
        ∧ pq.Perm ((List.range genres.length).map (fun i =>
            ((((genres.getD i []).headD ("", 0)).2,
              ((genres.getD i []).headD ("", 0)).1), i)))
        ∧ pq.length = genres.length)
      ∧ ((∃ g ∈ genres, g = []) → mergeInit genres = none) := by
  constructor
  · intro hne
    have hall : ∀ i ∈ List.range genres.length, genres.getD i [] ≠ [] := by
      intro i hir
      have hilen := List.mem_range.mp hir
      rw [getD_of_lt _ _ _ hilen]
      exact hne _ (List.getElem_mem _)
    obtain ⟨pq, hpq, hperm, _⟩ := mergeInit_fold genres (List.range genres.length)
      [] hall List.sorted_nil
    refine ⟨pq, hpq, hperm, ?_⟩
    rw [hperm.length_eq]
    simp
  · intro hex
    obtain ⟨g, hg, hgnil⟩ := hex
    obtain ⟨i, hilen, hgi⟩ := List.mem_iff_getElem.mp hg
    have hinone : genres.getD i [] = [] := by
      rw [getD_of_lt _ _ _ hilen, hgi]
      exact hgnil
    exact mergeInit_fold_none genres (List.range genres.length) []
      ⟨i, List.mem_range.mpr hilen, hinone⟩

/-- Counterexample to C10 as stated: with an empty first sequence and a
non-empty second one, initialization does not skip the empty sequence —
the head read genres[0][0] is out of bounds and the merge yields none
instead of an initialized heap. -/
theorem claim_C10_counterexample :
    ([] : List (String × Int)) ∈ ([[], [(("a" : String), (5 : Int))]]
        : List (List (String × Int)))
      ∧ [(("a" : String), (5 : Int))]
          ∈ ([[], [(("a" : String), (5 : Int))]] : List (List (String × Int)))
      ∧ most_listened_across_genres [[], [(("a" : String), (5 : Int))]] 1 = none := by
  decide

/-- Witness for C10 on two non-empty sequences: initialization succeeds
with exactly one head entry per sequence. -/
theorem claim_C10_merge_init_witness :
    ∃ pq, mergeInit ([[(("b" : String), (7 : Int))], [("a", 5)]]
        : List (List (String × Int))) = some pq
      ∧ pq.Perm
        ((List.range ([[(("b" : String), (7 : Int))], [("a", 5)]]
            : List (List (String × Int))).length).map
          (fun i =>
            (((((([[(("b" : String), (7 : Int))], [("a", 5)]]
                  : List (List (String × Int))).getD i []).headD ("", 0)).2),
              (((([[(("b" : String), (7 : Int))], [("a", 5)]]
                  : List (List (String × Int))).getD i []).headD ("", 0)).1)), i)))
      ∧ pq.length = ([[(("b" : String), (7 : Int))], [("a", 5)]]
          : List (List (String × Int))).length :=
  (claim_C10_merge_init [[(("b" : String), (7 : Int))], [("a", 5)]]).1 (by decide)
